import Mathlib

/-!
# Token exchange clients of fabric8-tenant (package `token`)

A shallow embedding of `token/auth_service_account.go`, `token/cluster_token.go`
and `token/users.go`.

Conventions of the embedding:

* a Go `string` and a Go `[]byte` holding text are Lean `String`s (sequences of
  Unicode code points; byte sequences that are not valid UTF-8 are outside the model);
* a Go `error` is `Option GoError`, `none` being `nil`;
* the parts of the Go standard library the package calls (`encoding/json`,
  `strings.TrimSpace`, `net/url`, `fmt.Sprintf`, `github.com/pkg/errors`) are
  embedded next to the code that calls them, each in its own section;
* the network (`http.DefaultClient.Do` followed by `ioutil.ReadAll`) is a
  parameter of every operation that uses it.
-/

namespace Token

/-! ## Characters used as delimiters -/

/-- The double quote character. -/
def dquote : Char := Char.ofNat 34

/-- The single quote character. -/
def squote : Char := Char.ofNat 39

/-- The backslash character. -/
def backslash : Char := Char.ofNat 92

/-- The opening brace. -/
def lbrace : Char := Char.ofNat 123

/-- The closing brace. -/
def rbrace : Char := Char.ofNat 125

/-! ## encoding/json: values and errors -/

/-- A JSON text after scanning: object members are kept in the order written,
repeated keys included, because the decoder visits them one after the other. -/
inductive JSON where
  | null
  | bool (b : Bool)
  | number (lit : String)
  | string (s : String)
  | array (elems : List JSON)
  | object (members : List (String × JSON))

/-- The place in the grammar at which `scanner.error` rejected a byte: the
`context` argument of Go's `(*scanner).error`. -/
inductive ScanContext where
  | beginValue
  | beginObjectKey
  | afterObjectKey
  | afterObjectPair
  | afterArrayElement
  | afterTopLevel
  | inStringLiteral
  | inStringEscape
  | inUnicodeEscape
  | inNumericLiteral
  | afterDecimalPoint
  | inExponent
  | inLiteralTrue (expecting : Char)
  | inLiteralFalse (expecting : Char)
  | inLiteralNull (expecting : Char)
deriving DecidableEq, Repr

/-- The text Go passes as `context` to `(*scanner).error`. -/
def ScanContext.text : ScanContext → String
  | .beginValue => "looking for beginning of value"
  | .beginObjectKey => "looking for beginning of object key string"
  | .afterObjectKey => "after object key"
  | .afterObjectPair => "after object key:value pair"
  | .afterArrayElement => "after array element"
  | .afterTopLevel => "after top-level value"
  | .inStringLiteral => "in string literal"
  | .inStringEscape => "in string escape code"
  | .inUnicodeEscape => "in \\u hexadecimal character escape"
  | .inNumericLiteral => "in numeric literal"
  | .afterDecimalPoint => "after decimal point in numeric literal"
  | .inExponent => "in exponent of numeric literal"
  | .inLiteralTrue c => "in literal true (expecting " ++ String.mk [squote, c, squote] ++ ")"
  | .inLiteralFalse c => "in literal false (expecting " ++ String.mk [squote, c, squote] ++ ")"
  | .inLiteralNull c => "in literal null (expecting " ++ String.mk [squote, c, squote] ++ ")"

/-- The Go types a JSON value is stored into by this package. -/
inductive GoType where
  | string
  | authAccessToken
  | authEerror
  | authEerrorSlice
  | errorResponse
  | userData
  | userDataData
  | userDataAttributes
deriving DecidableEq, Repr

/-- The name `reflect.Type.String` prints for each target type. -/
def GoType.String : GoType → String
  | .string => "string"
  | .authAccessToken => "token.authAccessToken"
  | .authEerror => "token.authEerror"
  | .authEerrorSlice => "[]token.authEerror"
  | .errorResponse => "token.errorResponse"
  | .userData => "token.userData"
  | .userDataData =>
      "struct \x7b Attributes struct \x7b Cluster string \"json:\\\"cluster,omitempty\\\"\" \x7d \x7d"
  | .userDataAttributes => "struct \x7b Cluster string \"json:\\\"cluster,omitempty\\\"\" \x7d"

/-- The errors `json.Unmarshal` returns: a `*json.SyntaxError` (the input ended
early, or a byte was rejected) or a `*json.UnmarshalTypeError` (a JSON value of
kind `value` met a Go target of type `type`; `field` is the struct field being
decoded, empty at top level). -/
inductive JSONError where
  | unexpectedEnd
  | invalidCharacter (c : Char) (context : ScanContext)
  | unmarshalType (value : String) (field : String) (type : GoType)
deriving DecidableEq, Repr

/-- One hexadecimal digit, lower case. -/
def hexDigit (n : Nat) : Char :=
  if n < 10 then Char.ofNat (48 + n) else Char.ofNat (87 + n)

/-- The first byte of the UTF-8 encoding of a character: the scanner works on
bytes, so this is the byte it rejects when a non-ASCII character is misplaced. -/
def firstByte (c : Char) : Nat :=
  let n := c.toNat
  if n < 128 then n
  else if n < 2048 then 192 + n / 64
  else if n < 65536 then 224 + n / 4096
  else 240 + n / 262144

/-- The function `quoteChar` of `encoding/json/scanner.go`, applied to the first
byte of `c`: the byte between single quotes, escaped as `strconv.Quote` does. -/
def quoteChar (c : Char) : String :=
  let b := firstByte c
  if b = 39 then String.mk [squote, backslash, squote, squote]
  else if b = 34 then String.mk [squote, dquote, squote]
  else
    let inner : List Char :=
      if b = 92 then [backslash, backslash]
      else if b = 7 then [backslash, 'a']
      else if b = 8 then [backslash, 'b']
      else if b = 12 then [backslash, 'f']
      else if b = 10 then [backslash, 'n']
      else if b = 13 then [backslash, 'r']
      else if b = 9 then [backslash, 't']
      else if b = 11 then [backslash, 'v']
      else if b < 32 ∨ b = 127 then [backslash, 'x', hexDigit (b / 16), hexDigit (b % 16)]
      else [Char.ofNat b]
    String.mk ([squote] ++ inner ++ [squote])

/-- The method `Error` of `*json.SyntaxError` and `*json.UnmarshalTypeError`. -/
def JSONError.Error : JSONError → String
  | .unexpectedEnd => "unexpected end of JSON input"
  | .invalidCharacter c context => "invalid character " ++ quoteChar c ++ " " ++ context.text
  | .unmarshalType value field type =>
      if field = "" then
        "json: cannot unmarshal " ++ value ++ " into Go value of type " ++ type.String
      else
        "json: cannot unmarshal " ++ value ++ " into Go struct field " ++ field ++
          " of type " ++ type.String

/-! ## encoding/json: the scanner (`scanner.go`)

The scanner is Go's pushdown automaton, one `ScanStep` per `state…` function,
extended so that it also builds the `JSON` value: each entry of the parse
stack carries the members or elements read so far. -/

/-- The scanner's `step` function: which `state…` function reads the next byte. -/
inductive ScanStep where
  | beginValue | beginValueOrEmpty | beginStringOrEmpty | beginString
  | endValue
  | inString | inStringEsc | inStringEscU | inStringEscU1 | inStringEscU12 | inStringEscU123
  | neg | s1 | s0 | dot | dot0 | e | eSign | e0
  | t | tr | tru | f | fa | fal | fals | n | nu | nul
deriving DecidableEq, Repr

/-- One entry of the scanner's `parseState` stack. `objKey` and `objColon` are
Go's `parseObjectKey` (before and after the key string), `objValue` and
`objNext` are `parseObjectValue` (before and after the value), `arrValue` is
`parseArrayValue`. -/
inductive Frame where
  | objKey (members : List (String × JSON))
  | objColon (members : List (String × JSON)) (key : String)
  | objValue (members : List (String × JSON)) (key : String)
  | objNext (members : List (String × JSON))
  | arrValue (elems : List JSON)

/-- The scanner: current step, parse stack, the text of the string or number
being read, and the top-level value once it is complete. -/
structure Scanner where
  step : ScanStep
  parseState : List Frame
  lit : List Char
  top : Option JSON

/-- The function `isSpace` of `scanner.go`. -/
def isSpace (c : Char) : Bool :=
  c = ' ' || c = '\t' || c = '\r' || c = '\n'

/-- Whether `c` is an ASCII decimal digit. -/
def isDigit (c : Char) : Bool := 48 ≤ c.toNat && c.toNat ≤ 57

/-- Whether `c` is a hexadecimal digit, as tested by `stateInStringEscU`. -/
def isHex (c : Char) : Bool :=
  isDigit c || (97 ≤ c.toNat && c.toNat ≤ 102) || (65 ≤ c.toNat && c.toNat ≤ 70)

/-- The value of a hexadecimal digit. -/
def hexVal (c : Char) : Nat :=
  if isDigit c then c.toNat - 48
  else if 97 ≤ c.toNat ∧ c.toNat ≤ 102 then c.toNat - 87
  else c.toNat - 55

/-- The Unicode replacement character U+FFFD. -/
def replacementChar : Char := Char.ofNat 65533

/-- The character a one-letter escape stands for, in `unquote`. -/
def unescapeLetter (c : Char) : Char :=
  if c = 'b' then Char.ofNat 8
  else if c = 'f' then Char.ofNat 12
  else if c = 'n' then Char.ofNat 10
  else if c = 'r' then Char.ofNat 13
  else if c = 't' then Char.ofNat 9
  else c

/-- Where `unquote` stands inside a string literal: in plain text, after a
backslash, or after `count` hexadecimal digits of a `\u` escape whose value so
far is `acc`. -/
inductive UnquoteMode where
  | plain
  | esc
  | hex (count : Nat) (acc : Nat)

/-- The characters written for a `\u` escape of value `rr` that does not
complete a surrogate pair, and the high surrogate left waiting for its pair. -/
def unquoteRune (rr : Nat) : List Char × Option Nat :=
  if 55296 ≤ rr ∧ rr < 56320 then ([], some rr)
  else if 56320 ≤ rr ∧ rr < 57344 then ([replacementChar], none)
  else ([Char.ofNat rr], none)

/-- What a waiting high surrogate becomes when no low surrogate follows it:
the replacement character. -/
def unquoteFlush (pending : Option Nat) : List Char :=
  match pending with
  | some _ => [replacementChar]
  | none => []

/-- The loop of `unquote` in `decode.go`, read one character at a time:
`pending` is a high surrogate from a `\u` escape that waits for its low half. -/
def unquoteLoop (pending : Option Nat) (mode : UnquoteMode) : List Char → List Char
  | [] => unquoteFlush pending
  | c :: rest =>
    match mode with
    | .plain =>
      if c = backslash then unquoteLoop pending .esc rest
      else unquoteFlush pending ++ c :: unquoteLoop none .plain rest
    | .esc =>
      if c = 'u' then unquoteLoop pending (.hex 0 0) rest
      else unquoteFlush pending ++ unescapeLetter c :: unquoteLoop none .plain rest
    | .hex count acc =>
      let rr := acc * 16 + hexVal c
      if count < 3 then unquoteLoop pending (.hex (count + 1) rr) rest
      else
        match pending with
        | some hi =>
          if 56320 ≤ rr ∧ rr < 57344 then
            Char.ofNat ((hi - 55296) * 1024 + (rr - 56320) + 65536) :: unquoteLoop none .plain rest
          else
            replacementChar :: ((unquoteRune rr).1 ++ unquoteLoop (unquoteRune rr).2 .plain rest)
        | none => (unquoteRune rr).1 ++ unquoteLoop (unquoteRune rr).2 .plain rest

/-- The function `unquote` of `decode.go` on the text between the quotes of a
string literal the scanner has accepted: escapes are replaced by the characters
they stand for, a `\u` surrogate pair by the character it encodes and a lone
surrogate by U+FFFD. -/
def unquote (lit : List Char) : List Char :=
  unquoteLoop none .plain lit

/-- A value is complete: it is recorded in the innermost open container, or as
the top-level value, and the scanner moves to `stateEndValue`. -/
def Scanner.complete (s : Scanner) (v : JSON) : Scanner :=
  match s.parseState with
  | [] => { step := .endValue, parseState := [], lit := [], top := some v }
  | .objKey ms :: rest =>
    match v with
    | .string k => { step := .endValue, parseState := .objColon ms k :: rest, lit := [], top := s.top }
    | _ => { step := .endValue, parseState := .objKey ms :: rest, lit := [], top := s.top }
  | .objColon ms k :: rest =>
    { step := .endValue, parseState := .objColon ms k :: rest, lit := [], top := s.top }
  | .objValue ms k :: rest =>
    { step := .endValue, parseState := .objNext (ms ++ [(k, v)]) :: rest, lit := [], top := s.top }
  | .objNext ms :: rest =>
    { step := .endValue, parseState := .objNext ms :: rest, lit := [], top := s.top }
  | .arrValue es :: rest =>
    { step := .endValue, parseState := .arrValue (es ++ [v]) :: rest, lit := [], top := s.top }

/-- The function `stateEndValue` of `scanner.go` (with `stateEndTop` for an
empty parse stack): the byte after a value. -/
def Scanner.endValue (s : Scanner) (c : Char) : Except JSONError Scanner :=
  match s.parseState with
  | [] =>
    if isSpace c then .ok { s with step := .endValue }
    else .error (.invalidCharacter c .afterTopLevel)
  | fr :: rest =>
    if isSpace c then .ok { s with step := .endValue }
    else
      match fr with
      | .objKey ms =>
        if c = ':' then .ok { s with step := .beginValue, parseState := .objValue ms "" :: rest }
        else .error (.invalidCharacter c .afterObjectKey)
      | .objColon ms k =>
        if c = ':' then .ok { s with step := .beginValue, parseState := .objValue ms k :: rest }
        else .error (.invalidCharacter c .afterObjectKey)
      | .objValue ms _ =>
        if c = ',' then .ok { s with step := .beginString, parseState := .objKey ms :: rest }
        else if c = rbrace then
          .ok (Scanner.complete { s with parseState := rest } (.object ms))
        else .error (.invalidCharacter c .afterObjectPair)
      | .objNext ms =>
        if c = ',' then .ok { s with step := .beginString, parseState := .objKey ms :: rest }
        else if c = rbrace then
          .ok (Scanner.complete { s with parseState := rest } (.object ms))
        else .error (.invalidCharacter c .afterObjectPair)
      | .arrValue es =>
        if c = ',' then .ok { s with step := .beginValue }
        else if c = ']' then
          .ok (Scanner.complete { s with parseState := rest } (.array es))
        else .error (.invalidCharacter c .afterArrayElement)

/-- The function `stateBeginValue` of `scanner.go`. -/
def Scanner.beginValue (s : Scanner) (c : Char) : Except JSONError Scanner :=
  if isSpace c then .ok { s with step := .beginValue }
  else if c = lbrace then
    .ok { s with step := .beginStringOrEmpty, parseState := .objKey [] :: s.parseState }
  else if c = '[' then
    .ok { s with step := .beginValueOrEmpty, parseState := .arrValue [] :: s.parseState }
  else if c = dquote then .ok { s with step := .inString, lit := [] }
  else if c = '-' then .ok { s with step := .neg, lit := [c] }
  else if c = '0' then .ok { s with step := .s0, lit := [c] }
  else if c = 't' then .ok { s with step := .t }
  else if c = 'f' then .ok { s with step := .f }
  else if c = 'n' then .ok { s with step := .n }
  else if isDigit c then .ok { s with step := .s1, lit := [c] }
  else .error (.invalidCharacter c .beginValue)

/-- The function `stateBeginString` of `scanner.go`. -/
def Scanner.beginString (s : Scanner) (c : Char) : Except JSONError Scanner :=
  if isSpace c then .ok { s with step := .beginString }
  else if c = dquote then .ok { s with step := .inString, lit := [] }
  else .error (.invalidCharacter c .beginObjectKey)

/-- A number literal ends before `c`: the number is complete and `c` is read by
`stateEndValue`. -/
def Scanner.endNumber (s : Scanner) (c : Char) : Except JSONError Scanner :=
  Scanner.endValue (Scanner.complete s (.number (String.mk s.lit))) c

/-- One byte of a literal `true`, `false` or `null`. -/
def Scanner.literal (s : Scanner) (c want : Char) (next : ScanStep) (context : ScanContext) :
    Except JSONError Scanner :=
  if c = want then .ok { s with step := next } else .error (.invalidCharacter c context)

/-- One call `s.step(s, c)`: the scanner reads one byte. -/
def Scanner.scan (s : Scanner) (c : Char) : Except JSONError Scanner :=
  match s.step with
  | .beginValue => s.beginValue c
  | .beginValueOrEmpty =>
    if isSpace c then .ok s
    else if c = ']' then s.endValue c
    else s.beginValue c
  | .beginStringOrEmpty =>
    if isSpace c then .ok s
    else if c = rbrace then
      match s.parseState with
      | _ :: rest => .ok (Scanner.complete { s with parseState := rest } (.object []))
      | [] => .ok s
    else s.beginString c
  | .beginString => s.beginString c
  | .endValue => s.endValue c
  | .inString =>
    if c = dquote then .ok (s.complete (.string (String.mk (unquote s.lit))))
    else if c = backslash then .ok { s with step := .inStringEsc, lit := s.lit ++ [c] }
    else if c.toNat < 32 then .error (.invalidCharacter c .inStringLiteral)
    else .ok { s with lit := s.lit ++ [c] }
  | .inStringEsc =>
    if c = 'b' ∨ c = 'f' ∨ c = 'n' ∨ c = 'r' ∨ c = 't' ∨ c = backslash ∨ c = '/' ∨ c = dquote then
      .ok { s with step := .inString, lit := s.lit ++ [c] }
    else if c = 'u' then .ok { s with step := .inStringEscU, lit := s.lit ++ [c] }
    else .error (.invalidCharacter c .inStringEscape)
  | .inStringEscU =>
    if isHex c then .ok { s with step := .inStringEscU1, lit := s.lit ++ [c] }
    else .error (.invalidCharacter c .inUnicodeEscape)
  | .inStringEscU1 =>
    if isHex c then .ok { s with step := .inStringEscU12, lit := s.lit ++ [c] }
    else .error (.invalidCharacter c .inUnicodeEscape)
  | .inStringEscU12 =>
    if isHex c then .ok { s with step := .inStringEscU123, lit := s.lit ++ [c] }
    else .error (.invalidCharacter c .inUnicodeEscape)
  | .inStringEscU123 =>
    if isHex c then .ok { s with step := .inString, lit := s.lit ++ [c] }
    else .error (.invalidCharacter c .inUnicodeEscape)
  | .neg =>
    if c = '0' then .ok { s with step := .s0, lit := s.lit ++ [c] }
    else if isDigit c then .ok { s with step := .s1, lit := s.lit ++ [c] }
    else .error (.invalidCharacter c .inNumericLiteral)
  | .s1 =>
    if isDigit c then .ok { s with lit := s.lit ++ [c] }
    else if c = '.' then .ok { s with step := .dot, lit := s.lit ++ [c] }
    else if c = 'e' ∨ c = 'E' then .ok { s with step := .e, lit := s.lit ++ [c] }
    else s.endNumber c
  | .s0 =>
    if c = '.' then .ok { s with step := .dot, lit := s.lit ++ [c] }
    else if c = 'e' ∨ c = 'E' then .ok { s with step := .e, lit := s.lit ++ [c] }
    else s.endNumber c
  | .dot =>
    if isDigit c then .ok { s with step := .dot0, lit := s.lit ++ [c] }
    else .error (.invalidCharacter c .afterDecimalPoint)
  | .dot0 =>
    if isDigit c then .ok { s with lit := s.lit ++ [c] }
    else if c = 'e' ∨ c = 'E' then .ok { s with step := .e, lit := s.lit ++ [c] }
    else s.endNumber c
  | .e =>
    if c = '+' ∨ c = '-' then .ok { s with step := .eSign, lit := s.lit ++ [c] }
    else if isDigit c then .ok { s with step := .e0, lit := s.lit ++ [c] }
    else .error (.invalidCharacter c .inExponent)
  | .eSign =>
    if isDigit c then .ok { s with step := .e0, lit := s.lit ++ [c] }
    else .error (.invalidCharacter c .inExponent)
  | .e0 =>
    if isDigit c then .ok { s with lit := s.lit ++ [c] }
    else s.endNumber c
  | .t => s.literal c 'r' .tr (.inLiteralTrue 'r')
  | .tr => s.literal c 'u' .tru (.inLiteralTrue 'u')
  | .tru =>
    if c = 'e' then .ok (s.complete (.bool true))
    else .error (.invalidCharacter c (.inLiteralTrue 'e'))
  | .f => s.literal c 'a' .fa (.inLiteralFalse 'a')
  | .fa => s.literal c 'l' .fal (.inLiteralFalse 'l')
  | .fal => s.literal c 's' .fals (.inLiteralFalse 's')
  | .fals =>
    if c = 'e' then .ok (s.complete (.bool false))
    else .error (.invalidCharacter c (.inLiteralFalse 'e'))
  | .n => s.literal c 'u' .nu (.inLiteralNull 'u')
  | .nu => s.literal c 'l' .nul (.inLiteralNull 'l')
  | .nul =>
    if c = 'l' then .ok (s.complete .null)
    else .error (.invalidCharacter c (.inLiteralNull 'l'))

/-- The loop of `checkValid`: the scanner reads the bytes one after the other
and stops at the first one it rejects. -/
def Scanner.run (s : Scanner) : List Char → Except JSONError Scanner
  | [] => .ok s
  | c :: rest =>
    match s.scan c with
    | .error err => .error err
    | .ok s1 => Scanner.run s1 rest

/-- The method `eof` of the scanner: a final space is fed to end a pending
number; the text is accepted when the top-level value is then complete. -/
def Scanner.eof (s : Scanner) : Except JSONError JSON :=
  match s.scan ' ' with
  | .error err => .error err
  | .ok s1 =>
    match s1.top with
    | some v => .ok v
    | none => .error .unexpectedEnd

/-- The scanner as `scan.reset()` leaves it. -/
def Scanner.reset : Scanner :=
  { step := .beginValue, parseState := [], lit := [], top := none }

/-- The function `checkValid` of `scanner.go` together with the value the
decoder then reads: the JSON value a text denotes, or the syntax error. -/
def parseJSON (data : String) : Except JSONError JSON :=
  match Scanner.run Scanner.reset data.data with
  | .error err => .error err
  | .ok s => s.eof

/-! ## encoding/json: storing a value into the Go types of this package (`decode.go`) -/

/-- The `Value` field of the `UnmarshalTypeError` raised for a JSON value that
does not fit its target. -/
def JSON.kind : JSON → String
  | .null => "null"
  | .bool _ => "bool"
  | .number _ => "number"
  | .string _ => "string"
  | .array _ => "array"
  | .object _ => "object"

/-- The byte `c & caseMask` of `fold.go`: bit 5, which tells the two cases
of an ASCII letter apart, is cleared. -/
def caseMasked (c : Char) : Nat :=
  c.toNat - c.toNat % 64 / 32 * 32

/-- Whether byte `tb` of a JSON key matches byte `sb` of a field name in
`equalFoldRight` of `fold.go`: ASCII letters match without regard to case, and
the Kelvin sign and the long s match `k` and `s`. -/
def foldEq (sb tb : Char) : Bool :=
  if tb.toNat < 128 then
    sb = tb || ((65 ≤ caseMasked sb && caseMasked sb ≤ 90) && caseMasked sb = caseMasked tb)
  else
    ((sb = 's' || sb = 'S') && tb.toNat = 383) || ((sb = 'k' || sb = 'K') && tb.toNat = 8490)

/-- The fold function `encoding/json` keeps for a field whose name is made of
ASCII letters, digits and underscores: `name` is the field's JSON name, `key`
the key read from the input. -/
def equalFold : List Char → List Char → Bool
  | [], [] => true
  | sb :: s, tb :: t => foldEq sb tb && equalFold s t
  | _, _ => false

/-- Whether the JSON key `key` selects the struct field named `name`: an exact
match, or else a match under `equalFold`. -/
def fieldMatches (name key : String) : Bool :=
  name = key || equalFold name.data key.data

/-- The method `saveError` of `decodeState`: only the first error is kept. -/
def saveError (saved new : Option JSONError) : Option JSONError :=
  match saved with
  | some e => some e
  | none => new

/-- A JSON value is stored into a Go `string` holding `cur` (`literalStore`,
and `object`/`array` for containers): a string is copied, `null` leaves the
target as it is, anything else is a type error and leaves the target as it is. -/
def storeString (field : String) (cur : String) (v : JSON) : String × Option JSONError :=
  match v with
  | .string s => (s, none)
  | .null => (cur, none)
  | other => (cur, some (.unmarshalType other.kind field .string))

/-- The local type `authAccessToken` of `parseToken`. -/
structure authAccessToken where
  AccessToken : String
deriving DecidableEq, Repr

/-- One member of a JSON object is stored into an `authAccessToken`. -/
def authAccessToken.storeMember (acc : authAccessToken × Option JSONError)
    (m : String × JSON) : authAccessToken × Option JSONError :=
  if fieldMatches "access_token" m.1 then
    let r := storeString "authAccessToken.access_token" acc.1.AccessToken m.2
    ({ AccessToken := r.1 }, saveError acc.2 r.2)
  else acc

/-- A JSON value is stored into an `authAccessToken`. -/
def authAccessToken.store (cur : authAccessToken) (v : JSON) :
    authAccessToken × Option JSONError :=
  match v with
  | .object ms => ms.foldl authAccessToken.storeMember (cur, none)
  | .null => (cur, none)
  | other => (cur, some (.unmarshalType other.kind "" .authAccessToken))

/-- The local type `authEerror` of `validateError`. -/
structure authEerror where
  Code : String
  Detail : String
  Status : String
  Title : String
deriving DecidableEq, Repr

/-- The zero value of `authEerror`. -/
def authEerror.zero : authEerror := { Code := "", Detail := "", Status := "", Title := "" }

/-- One member of a JSON object is stored into an `authEerror`. -/
def authEerror.storeMember (acc : authEerror × Option JSONError)
    (m : String × JSON) : authEerror × Option JSONError :=
  if fieldMatches "code" m.1 then
    let r := storeString "authEerror.code" acc.1.Code m.2
    ({ acc.1 with Code := r.1 }, saveError acc.2 r.2)
  else if fieldMatches "detail" m.1 then
    let r := storeString "authEerror.detail" acc.1.Detail m.2
    ({ acc.1 with Detail := r.1 }, saveError acc.2 r.2)
  else if fieldMatches "status" m.1 then
    let r := storeString "authEerror.status" acc.1.Status m.2
    ({ acc.1 with Status := r.1 }, saveError acc.2 r.2)
  else if fieldMatches "title" m.1 then
    let r := storeString "authEerror.title" acc.1.Title m.2
    ({ acc.1 with Title := r.1 }, saveError acc.2 r.2)
  else acc

/-- A JSON value is stored into an `authEerror` that holds `cur`; `field` is
the enclosing struct field, reported in a type error. -/
def authEerror.store (field : String) (cur : authEerror) (v : JSON) :
    authEerror × Option JSONError :=
  match v with
  | .object ms => ms.foldl authEerror.storeMember (cur, none)
  | .null => (cur, none)
  | other => (cur, some (.unmarshalType other.kind field .authEerror))

/-- A Go slice of `authEerror`: `arr` is the backing array (its length is the
capacity) and `len` the length of the slice. -/
structure ErrorSlice where
  arr : List authEerror
  len : Nat
deriving DecidableEq, Repr

/-- The `nil` slice. -/
def ErrorSlice.nil : ErrorSlice := { arr := [], len := 0 }

/-- The elements of the slice, as `range` visits them. -/
def ErrorSlice.toList (s : ErrorSlice) : List authEerror := s.arr.take s.len

/-- One turn of the loop of `(*decodeState).array` for a slice target: element
`i` of the JSON array is stored into element `i` of the slice, the slice being
grown first when `i` reaches its capacity and lengthened when `i` reaches its
length. -/
def ErrorSlice.storeElem (field : String) (acc : ErrorSlice × Nat × Option JSONError)
    (v : JSON) : ErrorSlice × Nat × Option JSONError :=
  let s := acc.1
  let i := acc.2.1
  let arr1 :=
    if s.arr.length ≤ i then
      let newcap := if s.arr.length + s.arr.length / 2 < 4 then 4 else s.arr.length + s.arr.length / 2
      s.arr.take s.len ++ List.replicate (newcap - s.len) authEerror.zero
    else s.arr
  let len1 := if s.len ≤ i then i + 1 else s.len
  let r := authEerror.store field (arr1.getD i authEerror.zero) v
  ({ arr := arr1.set i r.1, len := len1 }, i + 1, saveError acc.2.2 r.2)

/-- A JSON value is stored into a `[]authEerror` (`array` and `literalStore`
of `decode.go`): an array is stored element by element from index 0 into the
slice as it stands, which is then cut to the number of elements read; `null`
makes the slice `nil`; anything else is a type error. -/
def ErrorSlice.store (field : String) (cur : ErrorSlice) (v : JSON) :
    ErrorSlice × Option JSONError :=
  match v with
  | .array es =>
    let r := es.foldl (ErrorSlice.storeElem field) (cur, 0, none)
    let s := r.1
    let i := r.2.1
    let s1 : ErrorSlice := if i < s.len then { arr := s.arr, len := i } else s
    let s2 : ErrorSlice := if i = 0 then { arr := [], len := 0 } else s1
    (s2, r.2.2)
  | .null => (ErrorSlice.nil, none)
  | other => (cur, some (.unmarshalType other.kind field .authEerrorSlice))

/-- The local type `errorResponse` of `validateError`. -/
structure errorResponse where
  Errors : ErrorSlice
deriving DecidableEq, Repr

/-- One member of a JSON object is stored into an `errorResponse`. -/
def errorResponse.storeMember (acc : errorResponse × Option JSONError)
    (m : String × JSON) : errorResponse × Option JSONError :=
  if fieldMatches "errors" m.1 then
    let r := ErrorSlice.store "errorResponse.errors" acc.1.Errors m.2
    ({ Errors := r.1 }, saveError acc.2 r.2)
  else acc

/-- A JSON value is stored into an `errorResponse`. -/
def errorResponse.store (cur : errorResponse) (v : JSON) :
    errorResponse × Option JSONError :=
  match v with
  | .object ms => ms.foldl errorResponse.storeMember (cur, none)
  | .null => (cur, none)
  | other => (cur, some (.unmarshalType other.kind "" .errorResponse))

/-- The call `json.Unmarshal(data, &r)` for `var r authAccessToken`: the text
is checked first, and only a valid text is stored; the error is the syntax
error or the first type error met while storing. -/
def unmarshalAccessToken (data : String) : authAccessToken × Option JSONError :=
  match parseJSON data with
  | .error err => ({ AccessToken := "" }, some err)
  | .ok v => authAccessToken.store { AccessToken := "" } v

/-- The call `json.Unmarshal(body, &e)` for `var e errorResponse`. -/
def unmarshalErrorResponse (data : String) : errorResponse × Option JSONError :=
  match parseJSON data with
  | .error err => ({ Errors := ErrorSlice.nil }, some err)
  | .ok v => errorResponse.store { Errors := ErrorSlice.nil } v

/-! ## Errors (`fmt.Errorf`, `github.com/pkg/errors`) -/

/-- The reasons for which `url.Parse` rejects a URL in this model. -/
inductive URLError where
  | missingProtocolScheme
  | colonInFirstSegment
  | invalidEscape (text : String)
deriving DecidableEq, Repr

/-- The message of the error inside a `*url.Error`. -/
def URLError.text : URLError → String
  | .missingProtocolScheme => "missing protocol scheme"
  | .colonInFirstSegment => "first path segment in URL cannot contain colon"
  | .invalidEscape text => "invalid URL escape " ++ String.mk [dquote] ++ text ++ String.mk [dquote]

/-- A non-nil Go `error` value met in this package: an error of
`encoding/json`, an error made by `fmt.Errorf`, an error wrapped by
`errors.Wrapf`, a `*url.Error` of `url.Parse`, and an error reported by a
collaborator (the HTTP client, the reader of the response body, the
configuration provider). -/
inductive GoError where
  | json (err : JSONError)
  | errorf (msg : String)
  | wrapf (cause : GoError) (msg : String)
  | url (rawurl : String) (err : URLError)
  | external (msg : String)
deriving DecidableEq, Repr

/-- The method `Error`: `errors.Wrapf(cause, …)` prints its own message, a
colon and the message of the cause. -/
def GoError.Error : GoError → String
  | .json err => err.Error
  | .errorf msg => msg
  | .wrapf cause msg => msg ++ ": " ++ cause.Error
  | .url rawurl err => "parse " ++ rawurl ++ ": " ++ err.text
  | .external msg => msg

/-! ## `strings.TrimSpace` -/

/-- The function `unicode.IsSpace`: the characters with the Unicode property
White_Space. -/
def unicodeIsSpace (c : Char) : Bool :=
  let n := c.toNat
  (9 ≤ n && n ≤ 13) || n = 32 || n = 133 || n = 160 || n = 5760 ||
    (8192 ≤ n && n ≤ 8202) || n = 8232 || n = 8233 || n = 8239 || n = 8287 || n = 12288

/-- The function `strings.TrimSpace`: leading and trailing white space removed. -/
def TrimSpace (s : String) : String :=
  String.mk ((s.data.dropWhile unicodeIsSpace).reverse.dropWhile unicodeIsSpace).reverse

/-! ## `token/auth_service_account.go`, `token/cluster_token.go`: the shared helpers -/

/-- The constant `http.StatusOK`. -/
def StatusOK : Int := 200

/-- The line `validateError` prints for one entry:
`fmt.Sprintf("%s: %s %s, %s\n", error.Title, error.Status, error.Code, error.Detail)`. -/
def errorLine (error : authEerror) : String :=
  error.Title ++ ": " ++ error.Status ++ " " ++ error.Code ++ ", " ++ error.Detail ++ "\n"

/-- The function `validateError` of `auth_service_account.go`. -/
def validateError (status : Int) (body : String) : Option GoError :=
  if status ≠ StatusOK then
    match unmarshalErrorResponse body with
    | (_, some err) => some (.wrapf (.json err) "could not unmarshal the response")
    | (e, none) =>
      let output := e.Errors.toList.foldl (fun output error => output ++ errorLine error) ""
      some (.errorf output)
  else none

/-- The function `parseToken` of `cluster_token.go`. -/
def parseToken (data : String) : String × Option GoError :=
  match unmarshalAccessToken data with
  | (_, some err) => ("", some (.wrapf (.json err) "error unmarshalling the response"))
  | (r, none) => (TrimSpace r.AccessToken, none)

/-! ## `token/users.go`: the user record -/

/-- The innermost anonymous struct of `userData`: `struct { Cluster string }`
with the JSON name `cluster`. -/
structure userDataAttributes where
  Cluster : String
deriving DecidableEq, Repr

/-- The anonymous struct of `userData.Data`: `struct { Attributes struct {…} }`. -/
structure userDataData where
  Attributes : userDataAttributes
deriving DecidableEq, Repr

/-- The type `userData` of `users.go`. The fields `Data` and `Attributes` have
no tag, so their JSON names are `Data` and `Attributes`. -/
structure userData where
  Data : userDataData
deriving DecidableEq, Repr

/-- The zero value of `userData`. -/
def userData.zero : userData := { Data := { Attributes := { Cluster := "" } } }

/-- One member of a JSON object is stored into the `Attributes` struct. -/
def userDataAttributes.storeMember (acc : userDataAttributes × Option JSONError)
    (m : String × JSON) : userDataAttributes × Option JSONError :=
  if fieldMatches "cluster" m.1 then
    let r := storeString ".cluster" acc.1.Cluster m.2
    ({ Cluster := r.1 }, saveError acc.2 r.2)
  else acc

/-- A JSON value is stored into the `Attributes` struct. -/
def userDataAttributes.store (cur : userDataAttributes) (v : JSON) :
    userDataAttributes × Option JSONError :=
  match v with
  | .object ms => ms.foldl userDataAttributes.storeMember (cur, none)
  | .null => (cur, none)
  | other => (cur, some (.unmarshalType other.kind ".Attributes" .userDataAttributes))

/-- One member of a JSON object is stored into the `Data` struct. -/
def userDataData.storeMember (acc : userDataData × Option JSONError)
    (m : String × JSON) : userDataData × Option JSONError :=
  if fieldMatches "Attributes" m.1 then
    let r := userDataAttributes.store acc.1.Attributes m.2
    ({ Attributes := r.1 }, saveError acc.2 r.2)
  else acc

/-- A JSON value is stored into the `Data` struct. -/
def userDataData.store (cur : userDataData) (v : JSON) : userDataData × Option JSONError :=
  match v with
  | .object ms => ms.foldl userDataData.storeMember (cur, none)
  | .null => (cur, none)
  | other => (cur, some (.unmarshalType other.kind "userData.Data" .userDataData))

/-- One member of a JSON object is stored into a `userData`. -/
def userData.storeMember (acc : userData × Option JSONError)
    (m : String × JSON) : userData × Option JSONError :=
  if fieldMatches "Data" m.1 then
    let r := userDataData.store acc.1.Data m.2
    ({ Data := r.1 }, saveError acc.2 r.2)
  else acc

/-- A JSON value is stored into a `userData`. -/
def userData.store (cur : userData) (v : JSON) : userData × Option JSONError :=
  match v with
  | .object ms => ms.foldl userData.storeMember (cur, none)
  | .null => (cur, none)
  | other => (cur, some (.unmarshalType other.kind "" .userData))

/-- The call `json.Unmarshal(body, &response)` for `var response userData`. -/
def unmarshalUserData (data : String) : userData × Option JSONError :=
  match parseJSON data with
  | .error err => (userData.zero, some err)
  | .ok v => userData.store userData.zero v

/-! ## `net/url`: escaping (`url.go`)

`net/url` works on bytes. A text that has been un-escaped is kept as its list
of bytes, because `%XX` can stand for any byte. -/

/-- The bytes of the UTF-8 encoding of a character. -/
def utf8Bytes (c : Char) : List Nat :=
  let n := c.toNat
  if n < 128 then [n]
  else if n < 2048 then [192 + n / 64, 128 + n % 64]
  else if n < 65536 then [224 + n / 4096, 128 + n / 64 % 64, 128 + n % 64]
  else [240 + n / 262144, 128 + n / 4096 % 64, 128 + n / 64 % 64, 128 + n % 64]

/-- The bytes of a Go string. -/
def stringBytes (s : String) : List Nat :=
  s.data.foldr (fun c acc => utf8Bytes c ++ acc) []

/-- The parts of a URL that `shouldEscape` tells apart, as far as the model
uses them. -/
inductive Encoding where
  | encodePath
  | encodeQueryComponent
  | encodeFragment
deriving DecidableEq, Repr

/-- The function `shouldEscape` of `url.go` on a byte. -/
def shouldEscape (c : Nat) (mode : Encoding) : Bool :=
  if (65 ≤ c ∧ c ≤ 90) ∨ (97 ≤ c ∧ c ≤ 122) ∨ (48 ≤ c ∧ c ≤ 57) then false
  else if c = 45 ∨ c = 95 ∨ c = 46 ∨ c = 126 then false
  else if c = 36 ∨ c = 38 ∨ c = 43 ∨ c = 44 ∨ c = 47 ∨ c = 58 ∨ c = 59 ∨ c = 61 ∨ c = 63 ∨ c = 64 then
    match mode with
    | .encodePath => c = 63
    | .encodeQueryComponent => true
    | .encodeFragment => false
  else true

/-- One hexadecimal digit, upper case. -/
def upperhex (n : Nat) : Char :=
  if n < 10 then Char.ofNat (48 + n) else Char.ofNat (55 + n)

/-- One byte as `escape` writes it. -/
def escapeByte (mode : Encoding) (c : Nat) : List Char :=
  if shouldEscape c mode then
    if c = 32 ∧ mode = .encodeQueryComponent then ['+']
    else ['%', upperhex (c / 16), upperhex (c % 16)]
  else [Char.ofNat c]

/-- The function `escape` of `url.go`. -/
def escape (s : List Nat) (mode : Encoding) : String :=
  String.mk (s.foldr (fun c acc => escapeByte mode c ++ acc) [])

/-- The function `url.QueryEscape`. -/
def QueryEscape (s : List Nat) : String :=
  escape s .encodeQueryComponent

/-- The function `unescape` of `url.go`: `%XX` becomes the byte it denotes and,
in a query component, `+` becomes a space; a `%` that is not followed by two
hexadecimal digits is an error, which carries the escape cut to three
characters. -/
def unescape (mode : Encoding) : List Char → Except URLError (List Nat)
  | [] => .ok []
  | c :: rest =>
    if c = '%' then
      match rest with
      | a :: b :: rest2 =>
        if isHex a ∧ isHex b then
          match unescape mode rest2 with
          | .ok t => .ok ((hexVal a * 16 + hexVal b) :: t)
          | .error err => .error err
        else .error (.invalidEscape (String.mk [c, a, b]))
      | short => .error (.invalidEscape (String.mk (c :: short)))
    else
      match unescape mode rest with
      | .ok t =>
        if c = '+' ∧ mode = .encodeQueryComponent then .ok (32 :: t) else .ok (utf8Bytes c ++ t)
      | .error err => .error err

/-! ## `net/url`: query values -/

/-- The type `url.Values`, a map from keys to lists of values, as the list of
its entries, one per key. -/
abbrev Values := List (List Nat × List (List Nat))

/-- The statement `m[key] = append(m[key], value)`. -/
def Values.Add : Values → List Nat → List Nat → Values
  | [], key, value => [(key, [value])]
  | (k, vs) :: rest, key, value =>
    if k = key then (k, vs ++ [value]) :: rest else (k, vs) :: Values.Add rest key value

/-- The method `Values.Set`: the key gets the one value, in place of any it had. -/
def Values.Set : Values → List Nat → List Nat → Values
  | [], key, value => [(key, [value])]
  | (k, vs) :: rest, key, value =>
    if k = key then (k, [value]) :: rest else (k, vs) :: Values.Set rest key value

/-- The text before the first occurrence of one of the bytes `&` and `;`, and
the text after it; `none` for the text after when there is no such byte. -/
def cutPair : List Char → List Char × Option (List Char)
  | [] => ([], none)
  | c :: rest =>
    if c = '&' ∨ c = ';' then ([], some rest)
    else
      let r := cutPair rest
      (c :: r.1, r.2)

/-- The function `split(s, c, true)` of `url.go`: the text before the first
`c` and the text after it; the whole text and nothing when there is no `c`. -/
def split (c : Char) : List Char → List Char × List Char
  | [] => ([], [])
  | x :: rest =>
    if x = c then ([], rest)
    else
      let r := split c rest
      (x :: r.1, r.2)

/-- One turn of the loop of `parseQuery`, on the pair `pair`: an empty pair is
skipped, a pair with a bad escape is skipped as well, any other pair is added. -/
def parseQueryPair (m : Values) (pair : List Char) : Values :=
  if pair = [] then m
  else
    let kv := split '=' pair
    match unescape .encodeQueryComponent kv.1 with
    | .error _ => m
    | .ok key =>
      match unescape .encodeQueryComponent kv.2 with
      | .error _ => m
      | .ok value => Values.Add m key value

/-- The pairs of a query, which `parseQuery` separates at `&` and at `;`. -/
def queryPairs : List Char → List (List Char)
  | [] => []
  | c :: rest =>
    if c = '&' ∨ c = ';' then [] :: queryPairs rest
    else
      match queryPairs rest with
      | [] => [[c]]
      | p :: ps => (c :: p) :: ps

/-- The function `url.ParseQuery` without its error, as `(*URL).Query` uses it:
the values of the pairs that could be decoded. -/
def ParseQuery (query : String) : Values :=
  (queryPairs query.data).foldl parseQueryPair []

/-- Whether the Go string `a` sorts before `b` or equals it: byte-wise
lexicographic order, the order of `sort.Strings`. -/
def bytesLE : List Nat → List Nat → Bool
  | [], _ => true
  | _ :: _, [] => false
  | x :: a, y :: b => x < y || (x = y && bytesLE a b)

/-- An entry is put at its place among entries sorted by key. -/
def insertByKey (e : List Nat × List (List Nat)) : Values → Values
  | [] => [e]
  | f :: rest => if bytesLE e.1 f.1 then e :: f :: rest else f :: insertByKey e rest

/-- The entries of a `Values` in the order of their keys. -/
def sortByKey (v : Values) : Values :=
  v.foldr insertByKey []

/-- The pairs `key=value` that `Values.Encode` writes, in order: for each key
in sorted order, one pair for each of its values. -/
def encodePairs (v : Values) : List String :=
  (sortByKey v).foldr
    (fun e acc => e.2.map (fun value => QueryEscape e.1 ++ "=" ++ QueryEscape value) ++ acc) []

/-- The method `Values.Encode`: the pairs joined by `&`. -/
def Values.Encode (v : Values) : String :=
  "&".intercalate (encodePairs v)

/-! ## `net/url`: parsing and printing a URL

The authority of a URL (user information, host and port) is kept as the one
string written between `//` and the path: Go checks it and un-escapes it when
parsing and escapes it when printing, the model keeps it as written and so
accepts some URLs that Go rejects for their authority. -/

/-- The type `url.URL`. `Authority` stands for the fields `User` and `Host`. -/
structure URL where
  Scheme : String
  Opaque : String
  Authority : String
  Path : List Nat
  RawPath : String
  ForceQuery : Bool
  RawQuery : String
  Fragment : List Nat
deriving DecidableEq, Repr

/-- The value `new(URL)`. -/
def URL.zero : URL :=
  { Scheme := "", Opaque := "", Authority := "", Path := [], RawPath := "",
    ForceQuery := false, RawQuery := "", Fragment := [] }

/-- Whether `c` is an ASCII letter. -/
def isAlpha (c : Char) : Bool :=
  (97 ≤ c.toNat && c.toNat ≤ 122) || (65 ≤ c.toNat && c.toNat ≤ 90)

/-- The loop of `getscheme` of `url.go` at index `i`, `s` being what is left of
`rawurl` from there: the scheme and the text after its colon, or no scheme and
the whole text. -/
def getschemeLoop (rawurl : List Char) (i : Nat) : List Char → Except URLError (List Char × List Char)
  | [] => .ok ([], rawurl)
  | c :: s =>
    if isAlpha c then getschemeLoop rawurl (i + 1) s
    else if isDigit c ∨ c = '+' ∨ c = '-' ∨ c = '.' then
      if i = 0 then .ok ([], rawurl) else getschemeLoop rawurl (i + 1) s
    else if c = ':' then
      if i = 0 then .error .missingProtocolScheme else .ok (rawurl.take i, s)
    else .ok ([], rawurl)

/-- The function `getscheme` of `url.go`. -/
def getscheme (rawurl : List Char) : Except URLError (List Char × List Char) :=
  getschemeLoop rawurl 0 rawurl

/-- The function `split(s, "/", false)` of `url.go`: the text before the first
slash, and the text from that slash on. -/
def splitAtSlash : List Char → List Char × List Char
  | [] => ([], [])
  | x :: rest =>
    if x = '/' then ([], x :: rest)
    else
      let r := splitAtSlash rest
      (x :: r.1, r.2)

/-- The method `setPath` of `url.go`: the path is un-escaped, and the text as
written is kept in `RawPath` when it is not the default escaping of the path. -/
def URL.setPath (u : URL) (p : List Char) : Except URLError URL :=
  match unescape .encodePath p with
  | .error err => .error err
  | .ok path =>
    if String.mk p = escape path .encodePath then .ok { u with Path := path, RawPath := "" }
    else .ok { u with Path := path, RawPath := String.mk p }

/-- The query is cut off what follows the scheme: a lone final `?` sets
`ForceQuery`, otherwise the text after the first `?` is the raw query. The
result is the text before the query, `ForceQuery` and `RawQuery`. -/
def cutQuery (rest : List Char) : List Char × Bool × String :=
  if rest.getLast? = some '?' ∧ rest.count '?' = 1 then (rest.dropLast, true, "")
  else ((split '?' rest).1, false, String.mk (split '?' rest).2)

/-- The second half of `parse` of `url.go`, on the text `rest` between the
scheme and the query: a rootless text after a scheme is opaque; a first path
segment with a colon is refused; an authority is read after `//`; the rest is
the path. -/
def parseRest (u : URL) (rest : List Char) : Except URLError URL :=
  if rest.head? ≠ some '/' ∧ u.Scheme ≠ "" then .ok { u with Opaque := String.mk rest }
  else if rest.head? ≠ some '/' ∧ ':' ∈ (split '/' rest).1 then .error .colonInFirstSegment
  else if (u.Scheme ≠ "" ∨ rest.take 3 ≠ ['/', '/', '/']) ∧ rest.take 2 = ['/', '/'] then
    URL.setPath { u with Authority := String.mk (splitAtSlash (rest.drop 2)).1 }
      (splitAtSlash (rest.drop 2)).2
  else URL.setPath u rest

/-- The function `parse(rawurl, false)` of `url.go`, on a URL without its
fragment. -/
def parse (rawurl : List Char) : Except URLError URL :=
  if rawurl = ['*'] then .ok { URL.zero with Path := [42] }
  else
    match getscheme rawurl with
    | .error err => .error err
    | .ok (scheme, rest) =>
      parseRest
        { URL.zero with
          Scheme := String.mk (scheme.map Char.toLower),
          ForceQuery := (cutQuery rest).2.1,
          RawQuery := (cutQuery rest).2.2 }
        (cutQuery rest).1

/-- The function `url.Parse`: the fragment is cut off at the first `#` and
un-escaped, the rest is parsed by `parse`. -/
def Parse (rawurl : String) : Except GoError URL :=
  let r := split '#' rawurl.data
  match parse r.1 with
  | .error err => .error (.url (String.mk r.1) err)
  | .ok u =>
    if r.2 = [] then .ok u
    else
      match unescape .encodeFragment r.2 with
      | .error err => .error (.url rawurl err)
      | .ok frag => .ok { u with Fragment := frag }

/-- The function `validEncodedPath` of `url.go`. -/
def validEncodedPath (s : String) : Bool :=
  s.data.all fun c =>
    c = '!' || c = '$' || c = '&' || c = squote || c = '(' || c = ')' || c = '*' || c = '+' ||
      c = ',' || c = ';' || c = '=' || c = ':' || c = '@' || c = '[' || c = ']' || c = '%' ||
      (utf8Bytes c).all fun b => !shouldEscape b .encodePath

/-- Whether `RawPath` un-escapes to `Path`, the test of `EscapedPath`. -/
def URL.rawPathFits (u : URL) : Bool :=
  match unescape .encodePath u.RawPath.data with
  | .ok p => p = u.Path
  | .error _ => false

/-- The method `EscapedPath` of `url.go`. -/
def URL.EscapedPath (u : URL) : String :=
  if u.RawPath ≠ "" ∧ validEncodedPath u.RawPath = true ∧ u.rawPathFits = true then u.RawPath
  else if u.Path = [42] then "*"
  else escape u.Path .encodePath

/-- The method `String` of `url.go`. -/
def URL.String (u : URL) : String :=
  let scheme := if u.Scheme ≠ "" then u.Scheme ++ ":" else ""
  let path := u.EscapedPath
  let body :=
    if u.Opaque ≠ "" then scheme ++ u.Opaque
    else
      let auth :=
        if u.Scheme ≠ "" ∨ u.Authority ≠ "" then
          (if u.Authority ≠ "" ∨ u.Path ≠ [] then "//" else "") ++ u.Authority
        else ""
      let slash := if path ≠ "" ∧ path.data.head? ≠ some '/' ∧ u.Authority ≠ "" then "/" else ""
      let dot :=
        if scheme ++ auth ++ slash = "" ∧ ':' ∈ (split '/' path.data).1 then "./" else ""
      scheme ++ auth ++ slash ++ dot ++ path
  let query := if u.ForceQuery = true ∨ u.RawQuery ≠ "" then "?" ++ u.RawQuery else ""
  let fragment := if u.Fragment ≠ [] then "#" ++ escape u.Fragment .encodeFragment else ""
  body ++ query ++ fragment

/-! ## `path/filepath` -/

/-- The elements of a path, which slashes separate. -/
def pathElements : List Char → List (List Char)
  | [] => [[]]
  | c :: rest =>
    if c = '/' then [] :: pathElements rest
    else
      match pathElements rest with
      | [] => [[c]]
      | e :: es => (c :: e) :: es

/-- One element is added to the elements kept so far by `filepath.Clean`, the
last one first: an empty element and `.` are dropped, `..` removes the element
before it, is dropped at the root and is kept otherwise. -/
def cleanElement (rooted : Bool) (kept : List (List Char)) (e : List Char) : List (List Char) :=
  if e = [] ∨ e = ['.'] then kept
  else if e = ['.', '.'] then
    match kept with
    | [] => if rooted then [] else [e]
    | k :: ks => if k = ['.', '.'] then e :: k :: ks else ks
  else e :: kept

/-- The function `filepath.Clean`, for the slash-separated paths of Unix. -/
def Clean (path : String) : String :=
  if path = "" then "."
  else
    let rooted : Bool := path.data.head? = some '/'
    let kept := ((pathElements path.data).foldl (cleanElement rooted) []).reverse
    let out := "/".intercalate (kept.map String.mk)
    if rooted then "/" ++ out else if out = "" then "." else out

/-- The function `filepath.Join`: the non-empty elements joined by slashes,
then cleaned; the empty string when there is none. -/
def Join (elem : List String) : String :=
  match elem.filter (fun e => e ≠ "") with
  | [] => ""
  | es => Clean ("/".intercalate es)

/-! ## `net/http`: requests, and the network as a parameter -/

/-- The fields of `http.Request` that this package sets. A `nil` body is the
empty string. -/
structure Request where
  Method : String
  URL : URL
  Header : List (String × String)
  Body : String
deriving DecidableEq, Repr

/-- The function `http.NewRequest` for the methods `GET` and `POST`: the URL is
parsed, and an empty port is removed from its host. -/
def NewRequest (method urlStr body : String) : Except GoError Request :=
  match Parse urlStr with
  | .error err => .error err
  | .ok u =>
    let host :=
      if u.Authority.data.getLast? = some ':' then String.mk u.Authority.data.dropLast
      else u.Authority
    .ok { Method := method, URL := { u with Authority := host }, Header := [], Body := body }

/-- The method `Header.Add` for a key in canonical form. -/
def Request.AddHeader (req : Request) (key value : String) : Request :=
  { req with Header := req.Header ++ [(key, value)] }

/-- The method `Header.Get`: the first value of the key, or the empty string. -/
def Request.GetHeader (req : Request) (key : String) : String :=
  match req.Header.find? (fun h => h.1 = key) with
  | some h => h.2
  | none => ""

/-- What `http.DefaultClient.Do(req)` followed by `ioutil.ReadAll(res.Body)`
gives: `Do` fails, or it answers with a status and reading the body fails, or
the body is read. -/
inductive RoundTrip where
  | doFailed (err : GoError)
  | readFailed (StatusCode : Int) (err : GoError)
  | response (StatusCode : Int) (body : String)
deriving DecidableEq, Repr

/-- The values of `configuration.Data` that this package reads through
`GetAuthURL`, `GetAuthGrantType`, `GetAuthClientID` and `GetClientSecret`. -/
structure Config where
  AuthURL : String
  AuthGrantType : String
  AuthClientID : String
  ClientSecret : String
deriving DecidableEq, Repr

/-- The collaborators of the package: the network, the process-wide
configuration provider `configuration.GetData`, and `strconv.Quote`, which
`%q` applies and whose result depends on the Unicode tables. -/
structure Env where
  Do : Request → RoundTrip
  GetData : Except GoError Config
  Quote : String → String

/-! ## `token/auth_service_account.go`: the service-account token client -/

/-- The type `ClusterTokenClient`. -/
structure ClusterTokenClient where
  Config : Config
  AuthServiceAccountToken : String
deriving DecidableEq, Repr

/-- The outcome of a call of `Get` on a client of type `α`: the client as the
call leaves it, the error returned, and the requests handed to
`http.DefaultClient.Do`, in order. -/
structure Outcome (α : Type) where
  client : α
  err : Option GoError
  sent : List Request

/-- The form body `ClusterTokenClient.Get` posts. -/
def ClusterTokenClient.payload (c : ClusterTokenClient) : String :=
  "grant_type=" ++ c.Config.AuthGrantType ++ "&client_id=" ++
    c.Config.AuthClientID ++ "&client_secret=" ++ c.Config.ClientSecret

/-- The method `(*ClusterTokenClient).Get` of `auth_service_account.go`. -/
def ClusterTokenClient.Get (env : Env) (c : ClusterTokenClient) : Outcome ClusterTokenClient :=
  let payload := c.payload
  match NewRequest "POST" (c.Config.AuthURL ++ "/api/token") payload with
  | .error err =>
    { client := c, err := some (.wrapf err "error creating request object"), sent := [] }
  | .ok req0 =>
    let req := req0.AddHeader "Content-Type" "application/x-www-form-urlencoded"
    match env.Do req with
    | .doFailed err =>
      { client := c, err := some (.wrapf err "error while doing the request"), sent := [req] }
    | .readFailed _ err =>
      { client := c, err := some (.wrapf err "error reading response"), sent := [req] }
    | .response status body =>
      match validateError status body with
      | some err =>
        { client := c,
          err := some (.wrapf err ("error from server " ++ env.Quote c.Config.AuthURL)),
          sent := [req] }
      | none =>
        let r := parseToken body
        { client := { c with AuthServiceAccountToken := r.1 }, err := r.2, sent := [req] }

/-! ## `token/cluster_token.go`: the user cluster-token client -/

/-- The type `OpenShiftTokenClient`. -/
structure OpenShiftTokenClient where
  Config : Config
  AccessToken : String
  OpenShiftToken : String
deriving DecidableEq, Repr

/-- The request `(*OpenShiftTokenClient).Get` builds once its two checks have
passed: the auth URL with the path `/api/token` and the query parameter `for`,
as a `GET` with the two headers. The error is the one `Get` returns when the
request cannot be built. -/
def OpenShiftTokenClient.request (c : OpenShiftTokenClient) (cluster : String) :
    Except GoError Request :=
  match Parse c.Config.AuthURL with
  | .error err => .error (.wrapf err "error parsing auth url")
  | .ok u0 =>
    let u1 : URL := { u0 with Path := stringBytes "/api/token" }
    let q := Values.Set (ParseQuery u1.RawQuery) (stringBytes "for") (stringBytes cluster)
    let u : URL := { u1 with RawQuery := q.Encode }
    match NewRequest "GET" u.String "" with
    | .error err => .error (.wrapf err "error creating request object")
    | .ok req0 =>
      let req1 := req0.AddHeader "Content-Type" "application/x-www-form-urlencoded"
      .ok (req1.AddHeader "Authorization" ("Bearer " ++ c.AccessToken))

/-- The method `(*OpenShiftTokenClient).Get` of `cluster_token.go`. -/
def OpenShiftTokenClient.Get (env : Env) (c : OpenShiftTokenClient) (cluster : String) :
    Outcome OpenShiftTokenClient :=
  if c.AccessToken = "" then
    { client := c, err := some (.errorf "access token can't be empty"), sent := [] }
  else if cluster = "" then
    { client := c, err := some (.errorf "cluster URL can't be empty"), sent := [] }
  else
    match c.request cluster with
    | .error err => { client := c, err := some err, sent := [] }
    | .ok req =>
      match env.Do req with
      | .doFailed err =>
        { client := c, err := some (.wrapf err "error while doing the request"), sent := [req] }
      | .readFailed _ err =>
        { client := c, err := some (.wrapf err "error reading response"), sent := [req] }
      | .response status body =>
        match validateError status body with
        | some err =>
          { client := c,
            err := some (.wrapf err ("error from server " ++ env.Quote c.Config.AuthURL)),
            sent := [req] }
        | none =>
          let r := parseToken body
          { client := { c with OpenShiftToken := r.1 }, err := r.2, sent := [req] }

/-! ## `token/users.go`: the user-cluster resolver -/

/-- The request `GetUserCluster` builds for the configuration `config`, or the
error it returns when the request cannot be built. -/
def userRequest (config : Config) (userID : String) : Except GoError Request :=
  match Parse config.AuthURL with
  | .error err => .error (.wrapf err "error parsing auth url")
  | .ok u0 =>
    let u : URL := { u0 with Path := stringBytes (Join ["/api/users", userID]) }
    match NewRequest "GET" u.String "" with
    | .error err => .error (.wrapf err "error creating request object")
    | .ok req0 => .ok (req0.AddHeader "Content-Type" "application/x-www-form-urlencoded")

/-- The function `GetUserCluster` of `users.go`: the cluster and the error it
returns, and the requests it hands to `http.DefaultClient.Do`. -/
def GetUserCluster (env : Env) (userID : String) : (String × Option GoError) × List Request :=
  match env.GetData with
  | .error err => (("", some (.wrapf err "failed to setup the configuration")), [])
  | .ok config =>
    match userRequest config userID with
    | .error err => (("", some err), [])
    | .ok req =>
      match env.Do req with
      | .doFailed err => (("", some (.wrapf err "error while doing the request")), [req])
      | .readFailed _ err => (("", some (.wrapf err "error reading response")), [req])
      | .response status body =>
        match validateError status body with
        | some err =>
          (("", some (.wrapf err ("error from server " ++ env.Quote config.AuthURL))), [req])
        | none =>
          match unmarshalUserData body with
          | (_, some err) =>
            (("", some (.wrapf (.json err) "error unmarshalling the response")), [req])
          | (response, none) => ((response.Data.Attributes.Cluster, none), [req])

/-! ## Reading a JSON value by member name

The notions in which the behaviour of the decoders is stated. -/

/-- The values of the members of a JSON object whose key selects the Go field
with JSON name `name` (an exact match, or a match under `equalFold`, which
ignores the case of ASCII letters and takes the Kelvin sign and the long s for
`k` and `s`), in the order written; a value that is not an object has none. -/
def JSON.membersNamed (name : String) : JSON → List JSON
  | .object ms => (ms.filter (fun m => fieldMatches name m.1)).map (fun m => m.2)
  | _ => []

/-- The text of a JSON string; `none` for any other value. -/
def JSON.string? : JSON → Option String
  | .string s => some s
  | _ => none

/-- Whether a JSON value is a string or `null`. -/
def JSON.isStringOrNull : JSON → Bool
  | .string _ => true
  | .null => true
  | _ => false

/-- Whether a JSON value is an object or `null`. -/
def JSON.isObjectOrNull : JSON → Bool
  | .object _ => true
  | .null => true
  | _ => false

/-- The last string among the JSON values `vs`, or the empty string when none
of them is a string. -/
def lastString (vs : List JSON) : String :=
  ((vs.filterMap JSON.string?).getLast?).getD ""

/-- The values `vs` are stored one after the other into a Go string that holds
`cur`, `saved` being the error saved so far. -/
def storeStrings (field : String) (acc : String × Option JSONError) (vs : List JSON) :
    String × Option JSONError :=
  vs.foldl (fun acc v => ((storeString field acc.1 v).1, saveError acc.2 (storeString field acc.1 v).2)) acc

/-- The JSON values at `data.attributes.cluster` of a JSON value: the members
named `cluster` of the members named `Attributes` of the members named `Data`,
names being matched as the decoder matches them, in the order written. -/
def clusterValues (v : JSON) : List JSON :=
  ((v.membersNamed "Data").flatMap (JSON.membersNamed "Attributes")).flatMap
    (JSON.membersNamed "cluster")

/-- Whether a JSON value has the shape of the `Attributes` struct: an object
or `null`, whose members named `cluster` are strings or `null`. -/
def attributesShape (a : JSON) : Bool :=
  a.isObjectOrNull && (a.membersNamed "cluster").all JSON.isStringOrNull

/-- Whether a JSON value has the shape of the `Data` struct: an object or
`null`, whose members named `Attributes` have the shape of that struct. -/
def dataShape (d : JSON) : Bool :=
  d.isObjectOrNull && (d.membersNamed "Attributes").all attributesShape

/-- Whether a JSON value has the shape of a user record: an object or `null`,
whose members named `Data` have the shape of that struct. -/
def userRecordShape (v : JSON) : Bool :=
  v.isObjectOrNull && (v.membersNamed "Data").all dataShape

/-- The values `vs` are stored one after the other by `g` into a Go value,
`acc` holding the value and the error saved so far. -/
def storeAll {β : Type} (g : β → JSON → β × Option JSONError) (acc : β × Option JSONError)
    (vs : List JSON) : β × Option JSONError :=
  vs.foldl (fun acc v => ((g acc.1 v).1, saveError acc.2 (g acc.1 v).2)) acc

/-- The last string among `vs`, or `cur` when none of them is a string. -/
def lastStringFrom (cur : String) (vs : List JSON) : String :=
  ((vs.filterMap JSON.string?).getLast?).getD cur

/-- A text without `?` and without `#`: what `url.Parse` leaves before the
query of a URL. -/
def NoQueryMark (l : List Char) : Prop :=
  ∀ c ∈ l, c ≠ '?' ∧ c ≠ '#'

/-- A character `getscheme` accepts in a scheme. -/
def schemeChar (c : Char) : Prop :=
  isAlpha c = true ∨ isDigit c = true ∨ c = '+' ∨ c = '-' ∨ c = '.'

/-- The parts of a URL that `String` prints before the query hold neither `?`
nor `#`: true of every URL that `url.Parse` returns. -/
def URL.beforeQuery (u : URL) : Prop :=
  NoQueryMark u.Scheme.data ∧ NoQueryMark u.Opaque.data ∧ NoQueryMark u.Authority.data ∧
    NoQueryMark u.RawPath.data

/-- The text `l` has the query `enc` after its first `?`, nothing but plain
text before it, and ends as `enc` ends. -/
def QueryAt (enc : List Char) (l : List Char) : Prop :=
  (split '?' l).2 = enc ∧ NoQueryMark (split '?' l).1 ∧ l.getLast? = enc.getLast?

/-- A user ID that `filepath.Join` leaves as it is: it is not empty, and none
of the elements that slashes separate in it is empty, `.` or `..` (so it has no
slash at either end and no two slashes in a row). -/
def plainUserID (userID : String) : Prop :=
  userID ≠ "" ∧ ∀ e ∈ pathElements userID.data, e ≠ [] ∧ e ≠ ['.'] ∧ e ≠ ['.', '.']

/-- What the raw path of a parsed URL is like: it is empty, or it starts with a
slash (after a scheme or an authority, or else without reading as one), or it
is the rootless path of a URL without scheme and authority and has no colon in
its first segment. -/
def URL.rawPathShape (u : URL) : Prop :=
  u.RawPath = "" ∨
    (u.RawPath.data.head? = some '/' ∧
      (u.Scheme ≠ "" ∨ u.Authority ≠ "" ∨
        ¬ (u.RawPath.data.take 3 ≠ ['/', '/', '/'] ∧ u.RawPath.data.take 2 = ['/', '/']))) ∨
    (u.RawPath.data.head? ≠ some '/' ∧ u.Scheme = "" ∧ u.Authority = "" ∧
      ':' ∉ (split '/' u.RawPath.data).1)

/-- What `url.Parse` guarantees of the URL it returns, besides `beforeQuery`:
the scheme is empty or is made of scheme characters after a first letter, the
authority holds no slash, the raw query holds no `#`, and the raw path has the
shape `rawPathShape`. -/
def URL.parsed (u : URL) : Prop :=
  (u.Scheme = "" ∨ ∃ c cs, u.Scheme.data = c :: cs ∧ isAlpha c = true ∧
      ∀ x ∈ u.Scheme.data, schemeChar x) ∧
    '/' ∉ u.Authority.data ∧ '#' ∉ u.RawQuery.data ∧ u.rawPathShape

/-! ## The response validator -/

/-- What `validateError` returns, case by case. -/
theorem validateError_cases (status : Int) (body : String) :
    (status = StatusOK ∧ validateError status body = none) ∨
    (status ≠ StatusOK ∧ ∃ e err, unmarshalErrorResponse body = (e, some err) ∧
        validateError status body =
          some (.wrapf (.json err) "could not unmarshal the response")) ∨
    (status ≠ StatusOK ∧ ∃ e, unmarshalErrorResponse body = (e, none) ∧
        validateError status body =
          some (.errorf (e.Errors.toList.foldl (fun output error => output ++ errorLine error) ""))) := by
  unfold validateError
  by_cases h : status = StatusOK
  · left; simp [h]
  · right
    rcases hu : unmarshalErrorResponse body with ⟨e, _ | err⟩
    · right; exact ⟨h, e, rfl, by simp [h]⟩
    · left; exact ⟨h, e, err, rfl, by simp [h]⟩

/-- C1: `validateError` returns no error exactly when the status is
`http.StatusOK` (200), whatever the body is; for every other status it returns
a non-nil error, whatever the body is. -/
theorem validateError_nil_iff_StatusOK (status : Int) (body : String) :
    (validateError status body = none ↔ status = 200) ∧
    (status ≠ 200 → ∃ err, validateError status body = some err) := by
  rcases validateError_cases status body with ⟨h, hv⟩ | ⟨h, e, err, _, hv⟩ | ⟨h, e, _, hv⟩
  · exact ⟨by simp [hv]; exact h, fun hn => absurd h hn⟩
  · exact ⟨by simp [hv]; exact h, fun _ => ⟨_, hv⟩⟩
  · exact ⟨by simp [hv]; exact h, fun _ => ⟨_, hv⟩⟩

/-- The loop of `validateError` appends the lines of the entries, in order, to
what `output` held. -/
theorem foldl_errorLine (es : List authEerror) (init : String) :
    es.foldl (fun output error => output ++ errorLine error) init =
      init ++ (es.map errorLine).foldr (· ++ ·) "" := by
  induction es generalizing init with
  | nil => simp
  | cons x xs ih => simp [ih, String.append_assoc]

/-- C2: for a non-success status and a body that parses as an error envelope
`e`, the message of the error `validateError` returns is exactly the
concatenation, in entry order, of `<title>: <status> <code>, <detail>\n` for
each entry; with no entry the error is still non-nil and its message is empty. -/
theorem validateError_message_is_concatenation (status : Int) (body : String)
    (e : errorResponse) (hs : status ≠ 200) (hb : unmarshalErrorResponse body = (e, none)) :
    ∃ err, validateError status body = some err ∧
      err.Error = (e.Errors.toList.map (fun entry =>
        entry.Title ++ ": " ++ entry.Status ++ " " ++ entry.Code ++ ", " ++ entry.Detail ++ "\n")).foldr
          (· ++ ·) "" ∧
      (e.Errors.toList = [] → err.Error = "") := by
  rcases validateError_cases status body with ⟨h, _⟩ | ⟨_, e1, err, hu, _⟩ | ⟨_, e1, hu, hv⟩
  · exact absurd h hs
  · rw [hb] at hu; cases hu
  · rw [hb] at hu
    cases hu
    refine ⟨_, hv, ?_, ?_⟩
    · simp only [GoError.Error, foldl_errorLine, String.empty_append]
      rfl
    · intro hnil
      simp [GoError.Error, hnil]

/-- Witness of C2: the envelope of the end-to-end scenario, with one entry. -/
theorem validateError_message_is_concatenation_witness :
    ∃ err, validateError 400
        "\x7b\"errors\":[\x7b\"title\":\"Bad Request\",\"status\":\"400\",\"code\":\"invalid_grant\",\"detail\":\"client secret mismatch\"\x7d]\x7d" = some err ∧
      err.Error = "Bad Request: 400 invalid_grant, client secret mismatch\n" := by
  obtain ⟨err, h1, h2, _⟩ := validateError_message_is_concatenation 400
    "\x7b\"errors\":[\x7b\"title\":\"Bad Request\",\"status\":\"400\",\"code\":\"invalid_grant\",\"detail\":\"client secret mismatch\"\x7d]\x7d"
    { Errors := { arr := [{ Code := "invalid_grant", Detail := "client secret mismatch",
                            Status := "400", Title := "Bad Request" },
                          authEerror.zero, authEerror.zero, authEerror.zero], len := 1 } }
    (by decide) (by decide)
  exact ⟨err, h1, by rw [h2]; decide⟩

/-- The last character of `a ++ b` is the last character of `b`, when `b` has one. -/
theorem getLast?_append_string (a b : String) (x : Char) (h : b.data.getLast? = some x) :
    (a ++ b).data.getLast? = some x := by
  simp [String.data_append, List.getLast?_append, h]

/-- No message of `encoding/json` ends in a newline, and none is empty. -/
theorem JSONError.Error_last (e : JSONError) :
    ∃ x, e.Error.data.getLast? = some x ∧ x ≠ '\n' := by
  cases e with
  | unexpectedEnd => exact ⟨'t', by decide, by decide⟩
  | invalidCharacter c context =>
    cases context <;>
      first
      | exact ⟨_, getLast?_append_string _ _ _ (by rfl), by decide⟩
      | exact ⟨_, getLast?_append_string _ _ _ (getLast?_append_string _ _ _ (by rfl)), by decide⟩
  | unmarshalType value field type =>
    simp only [JSONError.Error]
    split <;> cases type <;> exact ⟨_, getLast?_append_string _ _ _ (by rfl), by decide⟩


/-- The aggregated message of an envelope is empty or ends in a newline. -/
theorem errorLines_last (es : List authEerror) :
    (es.map errorLine).foldr (· ++ ·) "" = "" ∨
      ((es.map errorLine).foldr (· ++ ·) "").data.getLast? = some '\n' := by
  induction es with
  | nil => left; rfl
  | cons x xs ih =>
    right
    simp only [List.map_cons, List.foldr_cons]
    rcases ih with h | h
    · rw [h, String.append_empty]
      exact getLast?_append_string _ _ _ (by rfl)
    · exact getLast?_append_string _ _ _ h

/-- C3: for a non-success status and a body that cannot be parsed as an error
envelope, `validateError` returns the parse failure wrapped with
`could not unmarshal the response`, and no envelope that does parse, whatever
its entries and the status, makes `validateError` return an error with the
same message. -/
theorem validateError_unparseable_distinguishable (status : Int) (body : String)
    (e : errorResponse) (jerr : JSONError) (hs : status ≠ 200)
    (hb : unmarshalErrorResponse body = (e, some jerr)) :
    ∃ err, validateError status body = some err ∧
      err = .wrapf (.json jerr) "could not unmarshal the response" ∧
      err.Error = "could not unmarshal the response: " ++ jerr.Error ∧
      ∀ (status2 : Int) (body2 : String) (e2 : errorResponse) (err2 : GoError),
        unmarshalErrorResponse body2 = (e2, none) →
        validateError status2 body2 = some err2 → err2.Error ≠ err.Error := by
  rcases validateError_cases status body with ⟨h, _⟩ | ⟨_, e1, err, hu, hv⟩ | ⟨_, e1, hu, _⟩
  · exact absurd h hs
  · rw [hb] at hu
    cases hu
    refine ⟨_, hv, rfl, ?_, ?_⟩
    · simp [GoError.Error, String.append_assoc]
    · intro status2 body2 e2 err2 hb2 hv2 heq
      obtain ⟨x, hx, hxn⟩ := JSONError.Error_last jerr
      have hlast : (GoError.wrapf (.json jerr) "could not unmarshal the response").Error.data.getLast?
          = some x := getLast?_append_string _ _ _ hx
      rcases validateError_cases status2 body2 with ⟨_, hn⟩ | ⟨_, e3, err3, hu3, _⟩ | ⟨_, e3, hu3, hv3⟩
      · rw [hn] at hv2; cases hv2
      · rw [hb2] at hu3; cases hu3
      · rw [hv3] at hv2
        cases hv2
        rw [← heq] at hlast
        simp only [GoError.Error, foldl_errorLine, String.empty_append] at hlast
        rcases errorLines_last e3.Errors.toList with h0 | h1
        · rw [h0] at hlast; cases hlast
        · rw [h1] at hlast
          exact hxn (Option.some.inj hlast).symm
  · rw [hb] at hu; cases hu

/-- Witness of C3: the body `oops` under status 500. -/
theorem validateError_unparseable_distinguishable_witness :
    ∃ err, validateError 500 "oops" = some err ∧
      err.Error =
        "could not unmarshal the response: invalid character 'o' looking for beginning of value" := by
  obtain ⟨err, h1, _, h3, _⟩ := validateError_unparseable_distinguishable 500 "oops"
    { Errors := ErrorSlice.nil } (.invalidCharacter 'o' .beginValue) (by decide) (by decide)
  exact ⟨err, h1, by rw [h3]; decide⟩

/-! ## The token parser -/

/-- Storing strings and nulls keeps the last string, and saves no error. -/
theorem storeStrings_good (field : String) (vs : List JSON) (cur : String)
    (h : ∀ v ∈ vs, v.isStringOrNull = true) :
    storeStrings field (cur, none) vs = (((vs.filterMap JSON.string?).getLast?).getD cur, none) := by
  induction vs generalizing cur with
  | nil => rfl
  | cons v vs ih =>
    have hv := h v (List.mem_cons_self _ _)
    have hvs : ∀ w ∈ vs, w.isStringOrNull = true := fun w hw => h w (List.mem_cons_of_mem _ hw)
    cases v with
    | string s =>
      simp only [storeStrings, List.foldl_cons, storeString, saveError] at ih ⊢
      rw [ih s hvs]
      simp [JSON.string?, List.getLast?_cons]
    | null =>
      simp only [storeStrings, List.foldl_cons, storeString, saveError] at ih ⊢
      rw [ih cur hvs]
      simp [JSON.string?]
    | bool b => simp [JSON.isStringOrNull] at hv
    | number l => simp [JSON.isStringOrNull] at hv
    | array es => simp [JSON.isStringOrNull] at hv
    | object ms => simp [JSON.isStringOrNull] at hv

/-- A saved error stays saved. -/
theorem storeStrings_saved (field : String) (vs : List JSON) (cur : String) (err : JSONError) :
    ∃ e, (storeStrings field (cur, some err) vs).2 = some e := by
  induction vs generalizing cur with
  | nil => exact ⟨err, rfl⟩
  | cons v vs ih =>
    simp only [storeStrings, List.foldl_cons, saveError] at ih ⊢
    exact ih _

/-- A value that is neither a string nor `null` leaves an error. -/
theorem storeStrings_bad (field : String) (vs : List JSON) (acc : String × Option JSONError)
    (h : ∃ v ∈ vs, v.isStringOrNull = false) :
    ∃ e, (storeStrings field acc vs).2 = some e := by
  induction vs generalizing acc with
  | nil => obtain ⟨v, hv, _⟩ := h; cases hv
  | cons v vs ih =>
    obtain ⟨cur, saved⟩ := acc
    cases saved with
    | some err => exact storeStrings_saved field _ cur err
    | none =>
      by_cases hv : v.isStringOrNull = true
      · have h2 : ∃ w ∈ vs, w.isStringOrNull = false := by
          obtain ⟨w, hw, hb⟩ := h
          rcases List.mem_cons.mp hw with rfl | hw
          · rw [hv] at hb; cases hb
          · exact ⟨w, hw, hb⟩
        simp only [storeStrings, List.foldl_cons] at ih ⊢
        exact ih _ h2
      · cases v with
        | string s => simp [JSON.isStringOrNull] at hv
        | null => simp [JSON.isStringOrNull] at hv
        | bool b => exact storeStrings_saved field vs cur _
        | number l => exact storeStrings_saved field vs cur _
        | array es => exact storeStrings_saved field vs cur _
        | object ms => exact storeStrings_saved field vs cur _

/-- Storing the members of an object into an `authAccessToken` stores the
values of the members named `access_token` into its field. -/
theorem authAccessToken_foldl_storeMember (ms : List (String × JSON))
    (cur : authAccessToken) (saved : Option JSONError) :
    ms.foldl authAccessToken.storeMember (cur, saved) =
      ({ AccessToken := (storeStrings "authAccessToken.access_token" (cur.AccessToken, saved)
          ((JSON.object ms).membersNamed "access_token")).1 },
        (storeStrings "authAccessToken.access_token" (cur.AccessToken, saved)
          ((JSON.object ms).membersNamed "access_token")).2) := by
  induction ms generalizing cur saved with
  | nil => rfl
  | cons m ms ih =>
    simp only [List.foldl_cons, JSON.membersNamed, List.filter_cons] at ih ⊢
    by_cases hm : fieldMatches "access_token" m.1 = true
    · simp only [authAccessToken.storeMember, hm, if_true, List.map_cons, storeStrings,
        List.foldl_cons] at ih ⊢
      rw [ih]
    · simp only [authAccessToken.storeMember, hm, if_false] at ih ⊢
      rw [ih]
      simp


/-- What `json.Unmarshal` into an `authAccessToken` gives for a valid text. -/
theorem unmarshalAccessToken_ok (body : String) (v : JSON) (h : parseJSON body = .ok v) :
    unmarshalAccessToken body = authAccessToken.store { AccessToken := "" } v := by
  simp [unmarshalAccessToken, h]

/-- C4 (amended): what `parseToken` returns, by the shape of the body.
A body that is a JSON object in which every member named `access_token`
(exactly, or as `encoding/json` folds keys) is a string or `null` gives,
with no error, the last such string with white space trimmed at both ends, and
the empty string when there is none. A JSON object with a member of that name
that is a number, a boolean, an array or an object gives the empty string and
an error, and so do a text that is not valid JSON and a valid text that is
neither an object nor `null`; the text `null` gives the empty string and no
error. -/
theorem parseToken_by_shape (body : String) :
    (∀ ms, parseJSON body = .ok (.object ms) →
      (∀ v ∈ (JSON.object ms).membersNamed "access_token", v.isStringOrNull = true) →
      parseToken body =
        (TrimSpace (lastString ((JSON.object ms).membersNamed "access_token")), none)) ∧
    (∀ ms, parseJSON body = .ok (.object ms) →
      (∃ v ∈ (JSON.object ms).membersNamed "access_token", v.isStringOrNull = false) →
      ∃ err, parseToken body = ("", some err)) ∧
    (∀ jerr, parseJSON body = .error jerr →
      parseToken body = ("", some (.wrapf (.json jerr) "error unmarshalling the response"))) ∧
    (∀ v, parseJSON body = .ok v → v.isObjectOrNull = false →
      ∃ err, parseToken body = ("", some err)) ∧
    (parseJSON body = .ok .null → parseToken body = ("", none)) := by
  refine ⟨?_, ?_, ?_, ?_, ?_⟩
  · intro ms hp hgood
    have hs := storeStrings_good "authAccessToken.access_token" _ "" hgood
    simp only [parseToken, unmarshalAccessToken_ok body _ hp, authAccessToken.store,
      authAccessToken_foldl_storeMember, hs, lastString]
  · intro ms hp hbad
    obtain ⟨e, he⟩ := storeStrings_bad "authAccessToken.access_token" _ ("", none) hbad
    simp only [parseToken, unmarshalAccessToken_ok body _ hp, authAccessToken.store,
      authAccessToken_foldl_storeMember, he]
    exact ⟨_, rfl⟩
  · intro jerr hp
    simp [parseToken, unmarshalAccessToken, hp]
  · intro v hp hv
    have hst : authAccessToken.store { AccessToken := "" } v =
        ({ AccessToken := "" }, some (.unmarshalType v.kind "" .authAccessToken)) := by
      cases v <;> simp_all [JSON.isObjectOrNull, authAccessToken.store]
    exact ⟨.wrapf (.json (.unmarshalType v.kind "" .authAccessToken))
      "error unmarshalling the response",
      by simp only [parseToken, unmarshalAccessToken_ok body _ hp, hst]⟩
  · intro hp
    simp only [parseToken, unmarshalAccessToken_ok body _ hp, authAccessToken.store]
    rfl

/-- Witness of C4: the body with the token `  abc123  ` gives `abc123`, and
the empty object gives the empty string, both with no error. -/
theorem parseToken_by_shape_witness :
    parseToken "\x7b\"access_token\": \"  abc123  \"\x7d" = ("abc123", none) ∧
    parseToken "\x7b\x7d" = ("", none) := by
  constructor
  · have h := (parseToken_by_shape "\x7b\"access_token\": \"  abc123  \"\x7d").1
      [("access_token", .string "  abc123  ")] rfl (by decide)
    rw [h]; decide
  · have h := (parseToken_by_shape "\x7b\x7d").1 [] rfl (by decide)
    rw [h]; decide

/-- Counterexample to C4 as stated: the body `{"access_token": 123}` is a JSON
object, and `parseToken` returns an error for it. -/
theorem parseToken_object_with_number_fails :
    parseJSON "\x7b\"access_token\": 123\x7d" = .ok (.object [("access_token", .number "123")]) ∧
    parseToken "\x7b\"access_token\": 123\x7d" =
      ("", some (.wrapf (.json (.unmarshalType "number" "authAccessToken.access_token" .string))
        "error unmarshalling the response")) := by
  exact ⟨rfl, by decide⟩

/-! ## The token clients -/

/-- C5: when the access token held is empty or the cluster argument is empty,
`OpenShiftTokenClient.Get` returns a non-nil error, hands no request to the
HTTP client and leaves the client, its `OpenShiftToken` included, as it was;
when the access token is empty the error is the one for the access token,
whatever the cluster is. -/
theorem OpenShiftTokenClient_Get_precondition (env : Env) (c : OpenShiftTokenClient)
    (cluster : String) (h : c.AccessToken = "" ∨ cluster = "") :
    (∃ err, (c.Get env cluster).err = some err) ∧
    (c.Get env cluster).sent = [] ∧
    (c.Get env cluster).client = c ∧
    (c.Get env cluster).client.OpenShiftToken = c.OpenShiftToken ∧
    (c.AccessToken = "" → (c.Get env cluster).err = some (.errorf "access token can't be empty")) ∧
    (c.AccessToken ≠ "" → (c.Get env cluster).err = some (.errorf "cluster URL can't be empty")) := by
  by_cases ha : c.AccessToken = ""
  · simp [OpenShiftTokenClient.Get, ha]
  · have hc : cluster = "" := h.resolve_left ha
    simp [OpenShiftTokenClient.Get, ha, hc]

/-- Witness of C5: both the access token and the cluster are empty, and the
error is the one for the access token. -/
theorem OpenShiftTokenClient_Get_precondition_witness :
    (OpenShiftTokenClient.Get
        { Do := fun _ => .response 200 "", GetData := .error (.external ""), Quote := fun s => s }
        { Config := { AuthURL := "http://auth.example.com", AuthGrantType := "", AuthClientID := "",
                      ClientSecret := "" },
          AccessToken := "", OpenShiftToken := "old" } "").err =
      some (.errorf "access token can't be empty") :=
  (OpenShiftTokenClient_Get_precondition _ _ "" (Or.inl rfl)).2.2.2.2.1 rfl

/-- Counterexample to C6 as stated: the server answers 200 with the body `{}`;
both clients return no error and hold an empty token. -/
theorem Get_nil_with_empty_token :
    (ClusterTokenClient.Get
        { Do := fun _ => .response 200 "\x7b\x7d", GetData := .error (.external ""),
          Quote := fun s => s }
        { Config := { AuthURL := "http://auth.example.com", AuthGrantType := "client_credentials",
                      AuthClientID := "id", ClientSecret := "secret" },
          AuthServiceAccountToken := "" }).err = none ∧
    (ClusterTokenClient.Get
        { Do := fun _ => .response 200 "\x7b\x7d", GetData := .error (.external ""),
          Quote := fun s => s }
        { Config := { AuthURL := "http://auth.example.com", AuthGrantType := "client_credentials",
                      AuthClientID := "id", ClientSecret := "secret" },
          AuthServiceAccountToken := "" }).client.AuthServiceAccountToken = "" ∧
    (OpenShiftTokenClient.Get
        { Do := fun _ => .response 200 "\x7b\x7d", GetData := .error (.external ""),
          Quote := fun s => s }
        { Config := { AuthURL := "http://auth.example.com", AuthGrantType := "client_credentials",
                      AuthClientID := "id", ClientSecret := "secret" },
          AccessToken := "tok", OpenShiftToken := "" } "https://api.example.com").err = none ∧
    (OpenShiftTokenClient.Get
        { Do := fun _ => .response 200 "\x7b\x7d", GetData := .error (.external ""),
          Quote := fun s => s }
        { Config := { AuthURL := "http://auth.example.com", AuthGrantType := "client_credentials",
                      AuthClientID := "id", ClientSecret := "secret" },
          AccessToken := "tok", OpenShiftToken := "" } "https://api.example.com").client.OpenShiftToken
      = "" := by
  refine ⟨?_, ?_, ?_, ?_⟩ <;> decide


/-- When `validateError` returns no error, the status is 200. -/
theorem validateError_none_status (status : Int) (body : String)
    (h : validateError status body = none) : status = 200 := by
  rcases validateError_cases status body with ⟨hs, _⟩ | ⟨_, _, _, _, hv⟩ | ⟨_, _, _, hv⟩
  · exact hs
  · rw [hv] at h; cases h
  · rw [hv] at h; cases h

/-- C6 (amended): whenever `ClusterTokenClient.Get` or
`OpenShiftTokenClient.Get` returns no error, the one request it sent was
answered with status 200 and a body that `parseToken` accepts, and the token
field holds the token `parseToken` reads from that body: the `access_token` of
the body with white space trimmed, which is the empty string when the body has
none. -/
theorem Get_nil_token_is_parsed (env : Env) :
    (∀ c : ClusterTokenClient, (c.Get env).err = none →
      ∃ req body, (c.Get env).sent = [req] ∧ env.Do req = .response 200 body ∧
        parseToken body = ((c.Get env).client.AuthServiceAccountToken, none)) ∧
    (∀ (c : OpenShiftTokenClient) (cluster : String), (c.Get env cluster).err = none →
      ∃ req body, (c.Get env cluster).sent = [req] ∧ env.Do req = .response 200 body ∧
        parseToken body = ((c.Get env cluster).client.OpenShiftToken, none)) := by
  constructor
  · intro c h
    rcases hreq : NewRequest "POST" (c.Config.AuthURL ++ "/api/token") c.payload with err | req0
    · simp [ClusterTokenClient.Get, hreq] at h
    · rcases hdo : env.Do (req0.AddHeader "Content-Type" "application/x-www-form-urlencoded")
        with err | ⟨st, err⟩ | ⟨status, body⟩
      · simp [ClusterTokenClient.Get, hreq, hdo] at h
      · simp [ClusterTokenClient.Get, hreq, hdo] at h
      · rcases hv : validateError status body with _ | verr
        · have hs := validateError_none_status status body hv
          subst hs
          simp only [ClusterTokenClient.Get, hreq, hdo, hv] at h ⊢
          exact ⟨_, body, rfl, hdo, Prod.ext rfl h⟩
        · simp [ClusterTokenClient.Get, hreq, hdo, hv] at h
  · intro c cluster h
    by_cases ha : c.AccessToken = ""
    · simp [OpenShiftTokenClient.Get, ha] at h
    · by_cases hc : cluster = ""
      · simp [OpenShiftTokenClient.Get, ha, hc] at h
      · rcases hreq : c.request cluster with err | req
        · simp [OpenShiftTokenClient.Get, ha, hc, hreq] at h
        · rcases hdo : env.Do req with err | ⟨st, err⟩ | ⟨status, body⟩
          · simp [OpenShiftTokenClient.Get, ha, hc, hreq, hdo] at h
          · simp [OpenShiftTokenClient.Get, ha, hc, hreq, hdo] at h
          · rcases hv : validateError status body with _ | verr
            · have hs := validateError_none_status status body hv
              subst hs
              simp only [OpenShiftTokenClient.Get, ha, hc, hreq, hdo, hv, if_false] at h ⊢
              exact ⟨_, body, rfl, hdo, Prod.ext rfl h⟩
            · simp [OpenShiftTokenClient.Get, ha, hc, hreq, hdo, hv] at h

/-- Witness of C6: the server answers 200 with a token, `Get` returns no error
and the client holds the token. -/
theorem Get_nil_token_is_parsed_witness :
    ∃ req body,
      (ClusterTokenClient.Get
        { Do := fun _ => .response 200 "\x7b\"access_token\":\"tok\"\x7d",
          GetData := .error (.external ""), Quote := fun s => s }
        { Config := { AuthURL := "http://auth.example.com", AuthGrantType := "client_credentials",
                      AuthClientID := "id", ClientSecret := "secret" },
          AuthServiceAccountToken := "" }).sent = [req] ∧
      (fun _ => RoundTrip.response 200 "\x7b\"access_token\":\"tok\"\x7d") req
        = RoundTrip.response 200 body ∧
      parseToken body = ("tok", none) :=
  (Get_nil_token_is_parsed
      { Do := fun _ => .response 200 "\x7b\"access_token\":\"tok\"\x7d",
        GetData := .error (.external ""), Quote := fun s => s }).1
    { Config := { AuthURL := "http://auth.example.com", AuthGrantType := "client_credentials",
                  AuthClientID := "id", ClientSecret := "secret" },
      AuthServiceAccountToken := "" } (by decide)

/-- C7: when the service-account token POST is answered with a non-success
status and a body that parses as an error envelope, `ClusterTokenClient.Get`
returns the error of `validateError` wrapped with
`error from server <quoted auth URL>`, so that its message is that text, a
colon and the concatenated lines of the entries, and it leaves the client, its
`AuthServiceAccountToken` included, as it was before the call. -/
theorem ClusterTokenClient_Get_server_error (env : Env) (c : ClusterTokenClient)
    (req0 : Request) (status : Int) (body : String) (e : errorResponse)
    (hreq : NewRequest "POST" (c.Config.AuthURL ++ "/api/token") c.payload = .ok req0)
    (hdo : env.Do (req0.AddHeader "Content-Type" "application/x-www-form-urlencoded") =
      .response status body)
    (hs : status ≠ 200) (hb : unmarshalErrorResponse body = (e, none)) :
    ∃ verr err, validateError status body = some verr ∧ (c.Get env).err = some err ∧
      err = .wrapf verr ("error from server " ++ env.Quote c.Config.AuthURL) ∧
      err.Error = "error from server " ++ env.Quote c.Config.AuthURL ++ ": " ++
        (e.Errors.toList.map (fun entry =>
          entry.Title ++ ": " ++ entry.Status ++ " " ++ entry.Code ++ ", " ++ entry.Detail ++ "\n")).foldr
            (· ++ ·) "" ∧
      (c.Get env).client = c ∧
      (c.Get env).client.AuthServiceAccountToken = c.AuthServiceAccountToken ∧
      (c.AuthServiceAccountToken = "" → (c.Get env).client.AuthServiceAccountToken = "") := by
  rcases validateError_cases status body with ⟨h, _⟩ | ⟨_, e1, jerr, hu, _⟩ | ⟨_, e1, hu, hv⟩
  · exact absurd h hs
  · rw [hb] at hu; cases hu
  · rw [hb] at hu
    cases hu
    refine ⟨_, _, hv, ?_, rfl, ?_, ?_, ?_, ?_⟩
    · simp only [ClusterTokenClient.Get, hreq, hdo, hv]
    · simp only [GoError.Error, foldl_errorLine, String.empty_append]
      rfl
    · simp only [ClusterTokenClient.Get, hreq, hdo, hv]
    · simp only [ClusterTokenClient.Get, hreq, hdo, hv]
    · intro h0
      simp only [ClusterTokenClient.Get, hreq, hdo, hv, h0]

/-- Witness of C7: the end-to-end scenario, status 400 with the one entry
`Bad Request: 400 invalid_grant, client secret mismatch`. -/
theorem ClusterTokenClient_Get_server_error_witness :
    ∃ err,
      (ClusterTokenClient.Get
        { Do := fun _ => .response 400
            "\x7b\"errors\":[\x7b\"title\":\"Bad Request\",\"status\":\"400\",\"code\":\"invalid_grant\",\"detail\":\"client secret mismatch\"\x7d]\x7d",
          GetData := .error (.external ""),
          Quote := fun s => String.mk [dquote] ++ s ++ String.mk [dquote] }
        { Config := { AuthURL := "http://auth.example.com", AuthGrantType := "client_credentials",
                      AuthClientID := "id", ClientSecret := "secret" },
          AuthServiceAccountToken := "" }).err = some err ∧
      err.Error = "error from server \"http://auth.example.com\": " ++
        "Bad Request: 400 invalid_grant, client secret mismatch" ++ "\n" := by
  obtain ⟨req0, hreq⟩ : ∃ req0, NewRequest "POST" ("http://auth.example.com" ++ "/api/token")
      (ClusterTokenClient.payload
        { Config := { AuthURL := "http://auth.example.com", AuthGrantType := "client_credentials",
                      AuthClientID := "id", ClientSecret := "secret" },
          AuthServiceAccountToken := "" }) = .ok req0 := ⟨_, rfl⟩
  obtain ⟨verr, err, _, h1, _, h2, _⟩ := ClusterTokenClient_Get_server_error
    { Do := fun _ => .response 400
        "\x7b\"errors\":[\x7b\"title\":\"Bad Request\",\"status\":\"400\",\"code\":\"invalid_grant\",\"detail\":\"client secret mismatch\"\x7d]\x7d",
      GetData := .error (.external ""),
      Quote := fun s => String.mk [dquote] ++ s ++ String.mk [dquote] }
    { Config := { AuthURL := "http://auth.example.com", AuthGrantType := "client_credentials",
                  AuthClientID := "id", ClientSecret := "secret" },
      AuthServiceAccountToken := "" }
    req0 400 _
    { Errors := { arr := [{ Code := "invalid_grant", Detail := "client secret mismatch",
                            Status := "400", Title := "Bad Request" },
                          authEerror.zero, authEerror.zero, authEerror.zero], len := 1 } }
    hreq rfl (by decide) (by decide)
  exact ⟨err, h1, by rw [h2]; decide⟩

/-! ## The user-cluster resolver -/

/-- Values that `g` stores without error are stored one after the other. -/
theorem storeAll_good {β : Type} (g : β → JSON → β × Option JSONError) (f : β → JSON → β)
    (good : JSON → Bool) (hg : ∀ cur v, good v = true → g cur v = (f cur v, none))
    (vs : List JSON) (cur : β) (h : ∀ v ∈ vs, good v = true) :
    storeAll g (cur, none) vs = (vs.foldl f cur, none) := by
  induction vs generalizing cur with
  | nil => rfl
  | cons v vs ih =>
    have hv := hg cur v (h v (List.mem_cons_self _ _))
    simp only [storeAll, List.foldl_cons, hv, saveError] at ih ⊢
    exact ih _ (fun w hw => h w (List.mem_cons_of_mem _ hw))

/-- An error that has been saved stays. -/
theorem storeAll_saved {β : Type} (g : β → JSON → β × Option JSONError) (vs : List JSON)
    (cur : β) (err : JSONError) : (storeAll g (cur, some err) vs).2 = some err := by
  induction vs generalizing cur with
  | nil => rfl
  | cons v vs ih =>
    simp only [storeAll, List.foldl_cons, saveError] at ih ⊢
    exact ih _

/-- A value that `g` rejects leaves an error. -/
theorem storeAll_bad {β : Type} (g : β → JSON → β × Option JSONError) (good : JSON → Bool)
    (hb : ∀ cur v, good v = false → ∃ e, (g cur v).2 = some e)
    (vs : List JSON) (acc : β × Option JSONError) (h : ∃ v ∈ vs, good v = false) :
    ∃ e, (storeAll g acc vs).2 = some e := by
  induction vs generalizing acc with
  | nil => obtain ⟨v, hv, _⟩ := h; cases hv
  | cons v vs ih =>
    obtain ⟨cur, saved⟩ := acc
    cases saved with
    | some err => exact ⟨err, storeAll_saved g _ cur err⟩
    | none =>
      by_cases hv : good v = true
      · have h2 : ∃ w ∈ vs, good w = false := by
          obtain ⟨w, hw, hwb⟩ := h
          rcases List.mem_cons.mp hw with rfl | hw
          · rw [hv] at hwb; cases hwb
          · exact ⟨w, hw, hwb⟩
        simp only [storeAll, List.foldl_cons] at ih ⊢
        exact ih _ h2
      · obtain ⟨e, he⟩ := hb cur v (by simpa using hv)
        simp only [storeAll, List.foldl_cons, he, saveError] at ih ⊢
        exact ⟨e, storeAll_saved g vs _ e⟩

/-- Looking for the last string in two lists, one after the other. -/
theorem lastStringFrom_append (cur : String) (xs ys : List JSON) :
    lastStringFrom (lastStringFrom cur xs) ys = lastStringFrom cur (xs ++ ys) := by
  simp only [lastStringFrom, List.filterMap_append, List.getLast?_append]
  cases (List.filterMap JSON.string? ys).getLast? <;> simp

/-- Storing strings and nulls into a string keeps the last string. -/
theorem foldl_string_getD (vs : List JSON) (cur : String) :
    vs.foldl (fun cur v => (v.string?).getD cur) cur = lastStringFrom cur vs := by
  induction vs generalizing cur with
  | nil => rfl
  | cons v vs ih =>
    rw [List.foldl_cons, ih]
    have h : lastStringFrom ((v.string?).getD cur) vs = lastStringFrom (lastStringFrom cur [v]) vs := by
      cases v <;> rfl
    rw [h, lastStringFrom_append]
    rfl

/-- A string or `null` is stored into a string without error. -/
theorem storeString_good (field : String) (cur : String) (v : JSON)
    (h : v.isStringOrNull = true) : storeString field cur v = ((v.string?).getD cur, none) := by
  cases v <;> simp_all [JSON.isStringOrNull, storeString, JSON.string?]

/-- Anything else stored into a string is an error. -/
theorem storeString_bad (field : String) (cur : String) (v : JSON)
    (h : v.isStringOrNull = false) : ∃ e, (storeString field cur v).2 = some e := by
  cases v <;> simp_all [JSON.isStringOrNull, storeString]

/-- Storing the members of an object into the `Attributes` struct stores the
values of the members named `cluster` into its field. -/
theorem userDataAttributes_foldl_storeMember (ms : List (String × JSON))
    (cur : userDataAttributes) (saved : Option JSONError) :
    ms.foldl userDataAttributes.storeMember (cur, saved) =
      ({ Cluster := (storeAll (storeString ".cluster") (cur.Cluster, saved)
          ((JSON.object ms).membersNamed "cluster")).1 },
        (storeAll (storeString ".cluster") (cur.Cluster, saved)
          ((JSON.object ms).membersNamed "cluster")).2) := by
  induction ms generalizing cur saved with
  | nil => rfl
  | cons m ms ih =>
    simp only [List.foldl_cons, JSON.membersNamed, List.filter_cons] at ih ⊢
    by_cases hm : fieldMatches "cluster" m.1 = true
    · simp only [userDataAttributes.storeMember, hm, if_true, List.map_cons, storeAll,
        List.foldl_cons] at ih ⊢
      rw [ih]
    · simp only [userDataAttributes.storeMember, hm, if_false] at ih ⊢
      rw [ih]
      simp

/-- Storing the members of an object into the `Data` struct stores the values
of the members named `Attributes` into its field. -/
theorem userDataData_foldl_storeMember (ms : List (String × JSON))
    (cur : userDataData) (saved : Option JSONError) :
    ms.foldl userDataData.storeMember (cur, saved) =
      ({ Attributes := (storeAll userDataAttributes.store (cur.Attributes, saved)
          ((JSON.object ms).membersNamed "Attributes")).1 },
        (storeAll userDataAttributes.store (cur.Attributes, saved)
          ((JSON.object ms).membersNamed "Attributes")).2) := by
  induction ms generalizing cur saved with
  | nil => rfl
  | cons m ms ih =>
    simp only [List.foldl_cons, JSON.membersNamed, List.filter_cons] at ih ⊢
    by_cases hm : fieldMatches "Attributes" m.1 = true
    · simp only [userDataData.storeMember, hm, if_true, List.map_cons, storeAll,
        List.foldl_cons] at ih ⊢
      rw [ih]
    · simp only [userDataData.storeMember, hm, if_false] at ih ⊢
      rw [ih]
      simp

/-- Storing the members of an object into a `userData` stores the values of
the members named `Data` into its field. -/
theorem userData_foldl_storeMember (ms : List (String × JSON))
    (cur : userData) (saved : Option JSONError) :
    ms.foldl userData.storeMember (cur, saved) =
      ({ Data := (storeAll userDataData.store (cur.Data, saved)
          ((JSON.object ms).membersNamed "Data")).1 },
        (storeAll userDataData.store (cur.Data, saved)
          ((JSON.object ms).membersNamed "Data")).2) := by
  induction ms generalizing cur saved with
  | nil => rfl
  | cons m ms ih =>
    simp only [List.foldl_cons, JSON.membersNamed, List.filter_cons] at ih ⊢
    by_cases hm : fieldMatches "Data" m.1 = true
    · simp only [userData.storeMember, hm, if_true, List.map_cons, storeAll,
        List.foldl_cons] at ih ⊢
      rw [ih]
    · simp only [userData.storeMember, hm, if_false] at ih ⊢
      rw [ih]
      simp

/-- What `store` does with a value that has the shape of the `Attributes`
struct. -/
theorem userDataAttributes_store_good (cur : userDataAttributes) (v : JSON)
    (h : attributesShape v = true) :
    userDataAttributes.store cur v =
      ({ Cluster := lastStringFrom cur.Cluster (v.membersNamed "cluster") }, none) := by
  simp only [attributesShape, Bool.and_eq_true, List.all_eq_true] at h
  obtain ⟨hv, hms⟩ := h
  cases v with
  | object ms =>
    have hs := storeAll_good (storeString ".cluster") (fun cur v => (v.string?).getD cur)
      JSON.isStringOrNull (storeString_good ".cluster") _ cur.Cluster hms
    simp only [userDataAttributes.store, userDataAttributes_foldl_storeMember, hs,
      foldl_string_getD]
  | null => rfl
  | bool b => simp [JSON.isObjectOrNull] at hv
  | number l => simp [JSON.isObjectOrNull] at hv
  | string s => simp [JSON.isObjectOrNull] at hv
  | array es => simp [JSON.isObjectOrNull] at hv

/-- A value that has not the shape of the `Attributes` struct leaves an error. -/
theorem userDataAttributes_store_bad (cur : userDataAttributes) (v : JSON)
    (h : attributesShape v = false) : ∃ e, (userDataAttributes.store cur v).2 = some e := by
  cases v with
  | object ms =>
    have hb : ∃ w ∈ (JSON.object ms).membersNamed "cluster", w.isStringOrNull = false := by
      simpa [attributesShape, JSON.isObjectOrNull] using h
    obtain ⟨e, he⟩ := storeAll_bad (storeString ".cluster") JSON.isStringOrNull
      (storeString_bad ".cluster") _ (cur.Cluster, none) hb
    exact ⟨e, by simp only [userDataAttributes.store, userDataAttributes_foldl_storeMember, he]⟩
  | null => simp [attributesShape, JSON.isObjectOrNull, JSON.membersNamed] at h
  | bool b => exact ⟨_, rfl⟩
  | number l => exact ⟨_, rfl⟩
  | string s => exact ⟨_, rfl⟩
  | array es => exact ⟨_, rfl⟩

/-- Storing values of the shape of `Attributes` keeps the last string named
`cluster` among them. -/
theorem foldl_attributes (vs : List JSON) (cur : userDataAttributes) :
    vs.foldl (fun (cur : userDataAttributes) v =>
        ({ Cluster := lastStringFrom cur.Cluster (v.membersNamed "cluster") } : userDataAttributes)) cur =
      { Cluster := lastStringFrom cur.Cluster (vs.flatMap (JSON.membersNamed "cluster")) } := by
  induction vs generalizing cur with
  | nil => rfl
  | cons v vs ih =>
    rw [List.foldl_cons, ih]
    simp only [lastStringFrom_append, List.flatMap_cons]

/-- What `store` does with a value that has the shape of the `Data` struct. -/
theorem userDataData_store_good (cur : userDataData) (v : JSON) (h : dataShape v = true) :
    userDataData.store cur v =
      ({ Attributes := { Cluster := (lastStringFrom cur.Attributes.Cluster
          ((v.membersNamed "Attributes").flatMap (JSON.membersNamed "cluster"))) } }, none) := by
  simp only [dataShape, Bool.and_eq_true, List.all_eq_true] at h
  obtain ⟨hv, hms⟩ := h
  cases v with
  | object ms =>
    have hs := storeAll_good userDataAttributes.store
      (fun cur v => { Cluster := lastStringFrom cur.Cluster (v.membersNamed "cluster") })
      attributesShape userDataAttributes_store_good _ cur.Attributes hms
    simp only [userDataData.store, userDataData_foldl_storeMember, hs, foldl_attributes]
  | null => rfl
  | bool b => simp [JSON.isObjectOrNull] at hv
  | number l => simp [JSON.isObjectOrNull] at hv
  | string s => simp [JSON.isObjectOrNull] at hv
  | array es => simp [JSON.isObjectOrNull] at hv

/-- A value that has not the shape of the `Data` struct leaves an error. -/
theorem userDataData_store_bad (cur : userDataData) (v : JSON)
    (h : dataShape v = false) : ∃ e, (userDataData.store cur v).2 = some e := by
  cases v with
  | object ms =>
    have hb : ∃ w ∈ (JSON.object ms).membersNamed "Attributes", attributesShape w = false := by
      simpa [dataShape, JSON.isObjectOrNull] using h
    obtain ⟨e, he⟩ := storeAll_bad userDataAttributes.store attributesShape
      userDataAttributes_store_bad _ (cur.Attributes, none) hb
    exact ⟨e, by simp only [userDataData.store, userDataData_foldl_storeMember, he]⟩
  | null => simp [dataShape, JSON.isObjectOrNull, JSON.membersNamed] at h
  | bool b => exact ⟨_, rfl⟩
  | number l => exact ⟨_, rfl⟩
  | string s => exact ⟨_, rfl⟩
  | array es => exact ⟨_, rfl⟩

/-- Storing values of the shape of `Data` keeps the last string at
`Attributes.cluster` among them. -/
theorem foldl_data (vs : List JSON) (cur : userDataData) :
    vs.foldl (fun (cur : userDataData) v =>
        ({ Attributes := { Cluster := (lastStringFrom cur.Attributes.Cluster
            ((v.membersNamed "Attributes").flatMap (JSON.membersNamed "cluster"))) } } :
          userDataData)) cur =
      { Attributes := { Cluster := (lastStringFrom cur.Attributes.Cluster
          ((vs.flatMap (JSON.membersNamed "Attributes")).flatMap (JSON.membersNamed "cluster"))) } } := by
  induction vs generalizing cur with
  | nil => rfl
  | cons v vs ih =>
    rw [List.foldl_cons, ih]
    simp only [lastStringFrom_append, List.flatMap_cons, List.flatMap_append]

/-- What `json.Unmarshal` into a `userData` gives for a text that has the shape
of a user record: the last string at `data.attributes.cluster`, and no error. -/
theorem userData_store_good (v : JSON) (h : userRecordShape v = true) :
    userData.store userData.zero v =
      ({ Data := { Attributes := { Cluster := lastString (clusterValues v) } } }, none) := by
  simp only [userRecordShape, Bool.and_eq_true, List.all_eq_true] at h
  obtain ⟨hv, hms⟩ := h
  cases v with
  | object ms =>
    have hs := storeAll_good userDataData.store
      (fun cur v => { Attributes := { Cluster := (lastStringFrom cur.Attributes.Cluster
          ((v.membersNamed "Attributes").flatMap (JSON.membersNamed "cluster"))) } })
      dataShape userDataData_store_good _ userData.zero.Data hms
    simp only [userData.store, userData_foldl_storeMember, hs, foldl_data]
    rfl
  | null => rfl
  | bool b => simp [JSON.isObjectOrNull] at hv
  | number l => simp [JSON.isObjectOrNull] at hv
  | string s => simp [JSON.isObjectOrNull] at hv
  | array es => simp [JSON.isObjectOrNull] at hv

/-- A text that has not the shape of a user record leaves an error. -/
theorem userData_store_bad (v : JSON) (h : userRecordShape v = false) :
    ∃ e, (userData.store userData.zero v).2 = some e := by
  cases v with
  | object ms =>
    have hb : ∃ w ∈ (JSON.object ms).membersNamed "Data", dataShape w = false := by
      simpa [userRecordShape, JSON.isObjectOrNull] using h
    obtain ⟨e, he⟩ := storeAll_bad userDataData.store dataShape
      userDataData_store_bad _ (userData.zero.Data, none) hb
    exact ⟨e, by simp only [userData.store, userData_foldl_storeMember, he]⟩
  | null => simp [userRecordShape, JSON.isObjectOrNull, JSON.membersNamed] at h
  | bool b => exact ⟨_, rfl⟩
  | number l => exact ⟨_, rfl⟩
  | string s => exact ⟨_, rfl⟩
  | array es => exact ⟨_, rfl⟩

/-- What `GetUserCluster` returns once the lookup has been answered with
status 200 and the body `body`. -/
theorem GetUserCluster_on_response (env : Env) (userID : String) (config : Config)
    (req : Request) (body : String) (hc : env.GetData = .ok config)
    (hr : userRequest config userID = .ok req) (hd : env.Do req = .response 200 body) :
    (GetUserCluster env userID).1 =
      match unmarshalUserData body with
      | (_, some err) => ("", some (.wrapf (.json err) "error unmarshalling the response"))
      | (response, none) => (response.Data.Attributes.Cluster, none) := by
  have hv : validateError 200 body = none := by simp [validateError, StatusOK]
  simp only [GetUserCluster, hc, hr, hd, hv]
  rcases unmarshalUserData body with ⟨r, _ | err⟩ <;> rfl

/-- C10: when the user lookup is answered with status 200, `GetUserCluster`
returns, with no error, the string at `data.attributes.cluster` of a body that
has the shape of a user record (the last one, should the body repeat a key),
and the empty string when such a body has no string there; it returns the
empty string and a non-nil error when the body is not valid JSON or has not
the shape of a user record. -/
theorem GetUserCluster_success (env : Env) (userID : String) (config : Config)
    (req : Request) (body : String) (hc : env.GetData = .ok config)
    (hr : userRequest config userID = .ok req) (hd : env.Do req = .response 200 body) :
    (∀ v, parseJSON body = .ok v → userRecordShape v = true →
      (GetUserCluster env userID).1 = (lastString (clusterValues v), none)) ∧
    (∀ v, parseJSON body = .ok v → userRecordShape v = true →
      (clusterValues v).filterMap JSON.string? = [] →
      (GetUserCluster env userID).1 = ("", none)) ∧
    (∀ v, parseJSON body = .ok v → userRecordShape v = false →
      ∃ err, (GetUserCluster env userID).1 = ("", some err)) ∧
    (∀ jerr, parseJSON body = .error jerr →
      (GetUserCluster env userID).1 =
        ("", some (.wrapf (.json jerr) "error unmarshalling the response"))) := by
  have hg := GetUserCluster_on_response env userID config req body hc hr hd
  refine ⟨?_, ?_, ?_, ?_⟩
  · intro v hp hs
    rw [hg]
    simp only [unmarshalUserData, hp, userData_store_good v hs]
  · intro v hp hs hnone
    rw [hg]
    simp only [unmarshalUserData, hp, userData_store_good v hs, lastString, hnone]
    rfl
  · intro v hp hs
    obtain ⟨e, he⟩ := userData_store_bad v hs
    rw [hg]
    refine ⟨.wrapf (.json e) "error unmarshalling the response", ?_⟩
    simp only [unmarshalUserData, hp]
    rcases hst : userData.store userData.zero v with ⟨r, _ | e2⟩
    · rw [hst] at he; cases he
    · rw [hst] at he; cases he; rfl
  · intro jerr hp
    rw [hg]
    simp only [unmarshalUserData, hp]

/-- Witness of C10: the body
`{"data":{"attributes":{"cluster":"https://api.cluster1.com"}}}` for the user
`u1` gives `https://api.cluster1.com` and no error. -/
theorem GetUserCluster_success_witness :
    (GetUserCluster
      { Do := fun _ => .response 200
          "\x7b\"data\":\x7b\"attributes\":\x7b\"cluster\":\"https://api.cluster1.com\"\x7d\x7d\x7d",
        GetData := .ok { AuthURL := "http://auth.example.com", AuthGrantType := "client_credentials",
                         AuthClientID := "id", ClientSecret := "secret" },
        Quote := fun s => s } "u1").1 = ("https://api.cluster1.com", none) := by
  obtain ⟨req, hr⟩ : ∃ req, userRequest
      { AuthURL := "http://auth.example.com", AuthGrantType := "client_credentials",
        AuthClientID := "id", ClientSecret := "secret" } "u1" = .ok req := ⟨_, rfl⟩
  have h := (GetUserCluster_success
    { Do := fun _ => .response 200
        "\x7b\"data\":\x7b\"attributes\":\x7b\"cluster\":\"https://api.cluster1.com\"\x7d\x7d\x7d",
      GetData := .ok { AuthURL := "http://auth.example.com", AuthGrantType := "client_credentials",
                       AuthClientID := "id", ClientSecret := "secret" },
      Quote := fun s => s } "u1" _ req _ rfl hr rfl).1
    (.object [("data", .object [("attributes",
      .object [("cluster", .string "https://api.cluster1.com")])])]) rfl (by decide)
  rw [h]
  decide

/-! ## The form body of the service-account exchange -/

/-- C9, the code at the failing input: for the client secret `a&b=c` the body
that `ClusterTokenClient.Get` posts is the plain concatenation
`grant_type=client_credentials&client_id=id&client_secret=a&b=c`, sent as
`application/x-www-form-urlencoded`; decoded as a form it has four fields, the
secret `a` and a field `b` with the value `c`, not the three configured values. -/
theorem ClusterTokenClient_Get_body_not_escaped :
    ((ClusterTokenClient.Get
        { Do := fun _ => .response 200 "\x7b\"access_token\":\"tok\"\x7d",
          GetData := .error (.external ""), Quote := fun s => s }
        { Config := { AuthURL := "http://auth.example.com", AuthGrantType := "client_credentials",
                      AuthClientID := "id", ClientSecret := "a&b=c" },
          AuthServiceAccountToken := "" }).sent.map
        (fun req => (req.Body, req.GetHeader "Content-Type", ParseQuery req.Body))) =
      [("grant_type=client_credentials&client_id=id&client_secret=a&b=c",
        "application/x-www-form-urlencoded",
        [(stringBytes "grant_type", [stringBytes "client_credentials"]),
         (stringBytes "client_id", [stringBytes "id"]),
         (stringBytes "client_secret", [stringBytes "a"]),
         (stringBytes "b", [stringBytes "c"])])] ∧
    ParseQuery (ClusterTokenClient.payload
        { Config := { AuthURL := "http://auth.example.com", AuthGrantType := "client_credentials",
                      AuthClientID := "id", ClientSecret := "a&b=c" },
          AuthServiceAccountToken := "" }) ≠
      [(stringBytes "grant_type", [stringBytes "client_credentials"]),
       (stringBytes "client_id", [stringBytes "id"]),
       (stringBytes "client_secret", [stringBytes "a&b=c"])] := by
  constructor
  · rfl
  · decide

/-! ## The request of the user cluster-token client -/

/-- The character `Char.ofNat m` has the code `m`, or the code 0. -/
theorem toNat_ofNat_cases (m : Nat) : (Char.ofNat m).toNat = m ∨ (Char.ofNat m).toNat = 0 := by
  unfold Char.ofNat
  split
  · left; rfl
  · right; rfl

/-- The character `Char.ofNat m` differs from a character of another code. -/
theorem ofNat_ne (m : Nat) (c : Char) (h0 : c.toNat ≠ 0) (hm : m ≠ c.toNat) :
    Char.ofNat m ≠ c := by
  intro h
  rcases toNat_ofNat_cases m with h1 | h1
  · rw [h] at h1; exact hm h1.symm
  · rw [h] at h1; exact h0 h1

/-- Lower-casing does not produce a character below `A` out of another one. -/
theorem toLower_ne (c x : Char) (hx : x.toNat < 65) (h0 : x.toNat ≠ 0) (h : c ≠ x) :
    c.toLower ≠ x := by
  unfold Char.toLower
  simp only
  split
  · apply ofNat_ne _ _ h0; omega
  · exact h

theorem NoQueryMark.nil : NoQueryMark [] := by
  intro c hc; cases hc

theorem NoQueryMark.append {a b : List Char} (ha : NoQueryMark a) (hb : NoQueryMark b) :
    NoQueryMark (a ++ b) := by
  intro c hc
  rcases List.mem_append.mp hc with h | h
  · exact ha c h
  · exact hb c h

theorem NoQueryMark.of_subset {a b : List Char} (hb : NoQueryMark b) (h : ∀ c ∈ a, c ∈ b) :
    NoQueryMark a :=
  fun c hc => hb c (h c hc)

/-- The text `split` returns before the separator does not hold it. -/
theorem split_fst_not_mem (c : Char) (l : List Char) : c ∉ (split c l).1 := by
  induction l with
  | nil => simp [split]
  | cons x rest ih =>
    unfold split
    split
    · simp
    · rename_i hx
      simp only [List.mem_cons, not_or]
      exact ⟨fun h => hx h.symm, ih⟩

theorem split_fst_mem (c x : Char) (l : List Char) (h : x ∈ (split c l).1) : x ∈ l := by
  induction l with
  | nil => simp [split] at h
  | cons y rest ih =>
    unfold split at h
    split at h
    · simp at h
    · rcases List.mem_cons.mp h with h1 | h1
      · exact h1 ▸ List.mem_cons_self _ _
      · exact List.mem_cons_of_mem _ (ih h1)

theorem split_snd_mem (c x : Char) (l : List Char) (h : x ∈ (split c l).2) : x ∈ l := by
  induction l with
  | nil => simp [split] at h
  | cons y rest ih =>
    unfold split at h
    split at h
    · exact List.mem_cons_of_mem _ h
    · exact List.mem_cons_of_mem _ (ih h)

theorem splitAtSlash_fst_mem (x : Char) (l : List Char) (h : x ∈ (splitAtSlash l).1) : x ∈ l := by
  induction l with
  | nil => simp [splitAtSlash] at h
  | cons y rest ih =>
    unfold splitAtSlash at h
    split at h
    · simp at h
    · rcases List.mem_cons.mp h with h1 | h1
      · exact h1 ▸ List.mem_cons_self _ _
      · exact List.mem_cons_of_mem _ (ih h1)

theorem splitAtSlash_snd_mem (x : Char) (l : List Char) (h : x ∈ (splitAtSlash l).2) : x ∈ l := by
  induction l with
  | nil => simp [splitAtSlash] at h
  | cons y rest ih =>
    unfold splitAtSlash at h
    split at h
    · exact h
    · exact List.mem_cons_of_mem _ (ih h)

/-- The text is cut at the first separator. -/
theorem split_append (c : Char) (a b : List Char) (h : c ∉ a) : split c (a ++ c :: b) = (a, b) := by
  induction a with
  | nil => simp [split]
  | cons x rest ih =>
    have hx : x ≠ c := fun hx => h (hx ▸ List.mem_cons_self _ _)
    have hr : c ∉ rest := fun hr => h (List.mem_cons_of_mem _ hr)
    simp [split, hx, ih hr]

/-- A text without the separator is not cut. -/
theorem split_not_mem (c : Char) (a : List Char) (h : c ∉ a) : split c a = (a, []) := by
  induction a with
  | nil => simp [split]
  | cons x rest ih =>
    have hx : x ≠ c := fun hx => h (hx ▸ List.mem_cons_self _ _)
    have hr : c ∉ rest := fun hr => h (List.mem_cons_of_mem _ hr)
    simp [split, hx, ih hr]

/-- A character of a scheme is neither `?` nor `#`. -/
theorem schemeChar_ne (c : Char) (h : schemeChar c) : c ≠ '?' ∧ c ≠ '#' := by
  constructor
  · rintro rfl
    rcases h with h | h | h | h | h <;> revert h <;> decide
  · rintro rfl
    rcases h with h | h | h | h | h <;> revert h <;> decide

/-- The scheme `getscheme` returns is made of scheme characters, and the text
it returns after it is part of the URL. -/
theorem getschemeLoop_fields (s pre sch rest : List Char) (hpre : ∀ c ∈ pre, schemeChar c)
    (h : getschemeLoop (pre ++ s) pre.length s = .ok (sch, rest)) :
    (∀ c ∈ sch, schemeChar c) ∧ (∀ x ∈ rest, x ∈ pre ++ s) := by
  induction s generalizing pre with
  | nil =>
    simp only [getschemeLoop, Except.ok.injEq, Prod.mk.injEq] at h
    obtain ⟨h1, h2⟩ := h
    subst h1; subst h2
    exact ⟨fun c hc => (by cases hc), fun x hx => hx⟩
  | cons c s ih =>
    have hstep : pre ++ c :: s = (pre ++ [c]) ++ s := by simp
    have hlen : pre.length + 1 = (pre ++ [c]).length := by simp
    unfold getschemeLoop at h
    split at h
    · rename_i hc
      rw [hstep, hlen] at h
      have := ih (pre ++ [c]) (by
        intro x hx
        rcases List.mem_append.mp hx with hx | hx
        · exact hpre x hx
        · simp at hx; subst hx; exact Or.inl hc) h
      rw [hstep]; exact this
    · split at h
      · rename_i hc
        split at h
        · simp only [Except.ok.injEq, Prod.mk.injEq] at h
          obtain ⟨h1, h2⟩ := h
          subst h1; subst h2
          exact ⟨fun c hc => (by cases hc), fun x hx => hx⟩
        · rw [hstep, hlen] at h
          have := ih (pre ++ [c]) (by
            intro x hx
            rcases List.mem_append.mp hx with hx | hx
            · exact hpre x hx
            · simp at hx; subst hx; exact Or.inr hc) h
          rw [hstep]; exact this
      · split at h
        · split at h
          · cases h
          · simp only [Except.ok.injEq, Prod.mk.injEq] at h
            obtain ⟨h1, h2⟩ := h
            subst h1; subst h2
            refine ⟨?_, fun x hx => by simp [hx]⟩
            intro x hx
            rw [List.take_left'] at hx
            · exact hpre x hx
            · rfl
        · simp only [Except.ok.injEq, Prod.mk.injEq] at h
          obtain ⟨h1, h2⟩ := h
          subst h1; subst h2
          exact ⟨fun c hc => (by cases hc), fun x hx => hx⟩


/-- The method `setPath` touches the path only. -/
theorem setPath_fields (u u1 : URL) (p : List Char) (h : URL.setPath u p = .ok u1) :
    u1.Scheme = u.Scheme ∧ u1.Opaque = u.Opaque ∧ u1.Authority = u.Authority ∧
      u1.RawQuery = u.RawQuery ∧ (u1.RawPath = "" ∨ u1.RawPath = String.mk p) := by
  unfold URL.setPath at h
  split at h
  · cases h
  · split at h
    · cases h; exact ⟨rfl, rfl, rfl, rfl, Or.inl rfl⟩
    · cases h; exact ⟨rfl, rfl, rfl, rfl, Or.inr rfl⟩

/-- The text `cutQuery` leaves before the query holds no `?`. -/
theorem cutQuery_fst_not_mem (rest : List Char) : '?' ∉ (cutQuery rest).1 := by
  unfold cutQuery
  split
  · rename_i h
    obtain ⟨hl, hc⟩ := h
    have hd : rest.dropLast ++ ['?'] = rest := List.dropLast_append_getLast? _ (by simp [hl])
    intro hm
    have h1 : List.count '?' (rest.dropLast ++ ['?']) = 1 := by rw [hd]; exact hc
    rw [List.count_append] at h1
    have h2 : 0 < List.count '?' rest.dropLast := List.count_pos_iff.mpr hm
    simp at h1
    omega
  · exact split_fst_not_mem _ _

/-- The text `cutQuery` leaves before the query is part of the text. -/
theorem cutQuery_fst_mem (rest : List Char) (x : Char) (h : x ∈ (cutQuery rest).1) : x ∈ rest := by
  unfold cutQuery at h
  split at h
  · exact List.mem_of_mem_dropLast h
  · exact split_fst_mem _ _ _ h

/-- The second half of `parse` keeps the scheme and the query, and fills the
other parts from the text before the query. -/
theorem parseRest_fields (u u1 : URL) (rest : List Char) (h : parseRest u rest = .ok u1)
    (hu : u.beforeQuery) (hr : NoQueryMark rest) :
    u1.beforeQuery ∧ u1.RawQuery = u.RawQuery := by
  obtain ⟨hs, ho, ha, hp⟩ := hu
  unfold parseRest at h
  split at h
  · cases h
    exact ⟨⟨hs, hr, ha, hp⟩, rfl⟩
  · split at h
    · cases h
    · split at h
      · obtain ⟨h1, h2, h3, h4, h5⟩ := setPath_fields _ _ _ h
        refine ⟨⟨h1 ▸ hs, h2 ▸ ho, ?_, ?_⟩, h4⟩
        · rw [h3]
          exact hr.of_subset (fun c hc => List.mem_of_mem_drop (splitAtSlash_fst_mem _ _ hc))
        · rcases h5 with h5 | h5
          · rw [h5]; exact NoQueryMark.nil
          · rw [h5]
            exact hr.of_subset (fun c hc => List.mem_of_mem_drop (splitAtSlash_snd_mem _ _ hc))
      · obtain ⟨h1, h2, h3, h4, h5⟩ := setPath_fields _ _ _ h
        refine ⟨⟨h1 ▸ hs, h2 ▸ ho, h3 ▸ ha, ?_⟩, h4⟩
        rcases h5 with h5 | h5
        · rw [h5]; exact NoQueryMark.nil
        · rw [h5]; exact hr

/-- A URL parsed from a text without `#` holds neither `?` nor `#` before its
query. -/
theorem parse_fields (rawurl : List Char) (u : URL) (h : parse rawurl = .ok u)
    (hh : '#' ∉ rawurl) : u.beforeQuery := by
  unfold parse at h
  split at h
  · cases h
    exact ⟨NoQueryMark.nil, NoQueryMark.nil, NoQueryMark.nil, NoQueryMark.nil⟩
  · split at h
    · cases h
    · rename_i scheme rest hg
      have hf := getschemeLoop_fields rawurl [] scheme rest (fun c hc => by cases hc) hg
      obtain ⟨hsch, hrest⟩ := hf
      have hr : NoQueryMark (cutQuery rest).1 := by
        intro c hc
        refine ⟨fun hq => cutQuery_fst_not_mem rest (hq ▸ hc), fun hq => hh ?_⟩
        have := hrest c (cutQuery_fst_mem rest c hc)
        simpa [hq] using this
      refine (parseRest_fields _ _ _ h ⟨?_, NoQueryMark.nil, NoQueryMark.nil, NoQueryMark.nil⟩ hr).1
      intro c hc
      simp only [List.mem_map] at hc
      obtain ⟨x, hx, rfl⟩ := hc
      have hne := schemeChar_ne x (hsch x hx)
      exact ⟨toLower_ne x '?' (by decide) (by decide) hne.1,
        toLower_ne x '#' (by decide) (by decide) hne.2⟩

/-- Every URL that `url.Parse` returns holds neither `?` nor `#` before its
query. -/
theorem Parse_fields (rawurl : String) (u : URL) (h : Parse rawurl = .ok u) : u.beforeQuery := by
  unfold Parse at h
  simp only at h
  split at h
  · cases h
  · rename_i u0 hp
    have h0 := parse_fields _ u0 hp (split_fst_not_mem _ _)
    split at h
    · cases h; exact h0
    · split at h
      · cases h
      · cases h; exact h0


/-- The second half of `parse` keeps the query. -/
theorem parseRest_rawQuery (u u1 : URL) (rest : List Char) (h : parseRest u rest = .ok u1) :
    u1.RawQuery = u.RawQuery := by
  unfold parseRest at h
  split at h
  · cases h; rfl
  · split at h
    · cases h
    · split at h
      · exact (setPath_fields _ _ _ h).2.2.2.1
      · exact (setPath_fields _ _ _ h).2.2.2.1

/-- Dropping a first character that is not `?` keeps the query in place. -/
theorem QueryAt.tail {enc l : List Char} {c : Char} (h : QueryAt enc (c :: l)) (hc : c ≠ '?')
    (he : enc ≠ []) : QueryAt enc l := by
  obtain ⟨h1, h2, h3⟩ := h
  simp only [split, hc, if_false] at h1 h2
  have hl : l ≠ [] := by
    rintro rfl
    simp only [split] at h1
    exact he h1.symm
  refine ⟨h1, fun x hx => h2 x (List.mem_cons_of_mem _ hx), ?_⟩
  rw [← h3]
  cases l with
  | nil => exact absurd rfl hl
  | cons y ys => simp [List.getLast?_cons_cons]

/-- What `getscheme` returns after the scheme still has the query in place. -/
theorem getschemeLoop_query (enc rawurl s sch rest : List Char) (i : Nat) (he : enc ≠ [])
    (hs : QueryAt enc s) (hraw : QueryAt enc rawurl)
    (h : getschemeLoop rawurl i s = .ok (sch, rest)) : QueryAt enc rest := by
  induction s generalizing i with
  | nil =>
    simp only [getschemeLoop, Except.ok.injEq, Prod.mk.injEq] at h
    exact h.2 ▸ hraw
  | cons c s ih =>
    by_cases hq : c = '?'
    · subst hq
      have : getschemeLoop rawurl i ('?' :: s) = .ok ([], rawurl) := by
        simp [getschemeLoop, isAlpha, isDigit]
      rw [this] at h
      simp only [Except.ok.injEq, Prod.mk.injEq] at h
      exact h.2 ▸ hraw
    · have hs1 := hs.tail hq he
      unfold getschemeLoop at h
      split at h
      · exact ih (i + 1) hs1 h
      · split at h
        · split at h
          · simp only [Except.ok.injEq, Prod.mk.injEq] at h
            exact h.2 ▸ hraw
          · exact ih (i + 1) hs1 h
        · split at h
          · split at h
            · cases h
            · simp only [Except.ok.injEq, Prod.mk.injEq] at h
              exact h.2 ▸ hs1
          · simp only [Except.ok.injEq, Prod.mk.injEq] at h
            exact h.2 ▸ hraw

/-- A text with the query `enc` in place is parsed into a URL whose raw query
is `enc`. -/
theorem parse_rawQuery (enc rawurl : List Char) (u : URL) (he : enc ≠ []) (hq : '?' ∉ enc)
    (hraw : QueryAt enc rawurl) (h : parse rawurl = .ok u) : u.RawQuery = String.mk enc := by
  unfold parse at h
  split at h
  · rename_i hstar
    subst hstar
    obtain ⟨h1, _, _⟩ := hraw
    simp [split] at h1
    exact absurd h1.symm (fun h0 => he h0.symm)
  · split at h
    · cases h
    · rename_i scheme rest hg
      have hr := getschemeLoop_query enc rawurl rawurl scheme rest 0 he hraw hraw hg
      obtain ⟨h1, _, h3⟩ := hr
      have hlast : ¬ (rest.getLast? = some '?' ∧ rest.count '?' = 1) := by
        rintro ⟨hl, _⟩
        rw [h3] at hl
        exact hq (List.mem_of_getLast?_eq_some hl)
      rw [parseRest_rawQuery _ _ _ h]
      simp only [cutQuery, hlast, if_false, h1]

/-- The text `before ++ "?" ++ enc`, followed by nothing or by `#` and a
fragment, is parsed by `url.Parse` into a URL whose raw query is `enc`. -/
theorem Parse_rawQuery (before enc frag : List Char) (u : URL) (hb : NoQueryMark before)
    (he : enc ≠ []) (hen : NoQueryMark enc) (hf : frag = [] ∨ frag.head? = some '#')
    (h : Parse (String.mk (before ++ '?' :: enc ++ frag)) = .ok u) :
    u.RawQuery = String.mk enc := by
  have hmark : '#' ∉ before ++ '?' :: enc := by
    intro hm
    rcases List.mem_append.mp hm with hm | hm
    · exact (hb _ hm).2 rfl
    · rcases List.mem_cons.mp hm with hm | hm
      · revert hm; decide
      · exact (hen _ hm).2 rfl
  have hsplit : (split '#' (before ++ '?' :: enc ++ frag)).1 = before ++ '?' :: enc := by
    rcases hf with hf | hf
    · subst hf
      rw [List.append_nil, split_not_mem _ _ hmark]
    · cases frag with
      | nil => simp at hf
      | cons x xs =>
        simp only [List.head?_cons, Option.some.injEq] at hf
        subst hf
        have : before ++ '?' :: enc ++ '#' :: xs = (before ++ '?' :: enc) ++ '#' :: xs := by simp
        rw [this, split_append _ _ _ hmark]
  have hraw : QueryAt enc (before ++ '?' :: enc) := by
    have hnb : '?' ∉ before := fun hm => (hb _ hm).1 rfl
    refine ⟨by rw [split_append _ _ _ hnb], by rw [split_append _ _ _ hnb]; exact hb, ?_⟩
    rw [List.getLast?_append, List.getLast?_cons]
    cases henc : enc.getLast? with
    | none => simp [List.getLast?_eq_none_iff] at henc; exact absurd henc he
    | some x => simp
  unfold Parse at h
  simp only [hsplit] at h
  split at h
  · cases h
  · rename_i u0 hp
    have h0 := parse_rawQuery enc _ u0 he (fun hm => (hen _ hm).1 rfl) hraw hp
    split at h
    · cases h; exact h0
    · split at h
      · cases h
      · cases h; exact h0


/-- A hexadecimal digit is neither `?` nor `#`. -/
theorem upperhex_ne (n : Nat) : upperhex n ≠ '?' ∧ upperhex n ≠ '#' := by
  unfold upperhex
  split
  · exact ⟨ofNat_ne _ _ (by decide) (by simp; omega), ofNat_ne _ _ (by decide) (by simp; omega)⟩
  · exact ⟨ofNat_ne _ _ (by decide) (by simp; omega), ofNat_ne _ _ (by decide) (by simp; omega)⟩

/-- In a part of a URL where `?` and `#` are escaped, an escaped byte holds
neither. -/
theorem escapeByte_noMark (mode : Encoding) (c : Nat) (h63 : shouldEscape 63 mode = true)
    (h35 : shouldEscape 35 mode = true) : NoQueryMark (escapeByte mode c) := by
  unfold escapeByte
  split
  · split
    · intro x hx
      simp only [List.mem_singleton] at hx
      subst hx
      exact ⟨by decide, by decide⟩
    · intro x hx
      simp only [List.mem_cons, List.mem_singleton, List.not_mem_nil, or_false] at hx
      rcases hx with rfl | rfl | rfl
      · exact ⟨by decide, by decide⟩
      · exact upperhex_ne _
      · exact upperhex_ne _
  · rename_i hc
    intro x hx
    simp only [List.mem_singleton] at hx
    subst hx
    constructor
    · apply ofNat_ne _ _ (by decide)
      intro h
      have h1 : c = 63 := h
      subst h1
      exact hc h63
    · apply ofNat_ne _ _ (by decide)
      intro h
      have h1 : c = 35 := h
      subst h1
      exact hc h35

/-- In a part of a URL where `?` and `#` are escaped, an escaped text holds
neither. -/
theorem escape_noMark (mode : Encoding) (s : List Nat) (h63 : shouldEscape 63 mode = true)
    (h35 : shouldEscape 35 mode = true) : NoQueryMark (escape s mode).data := by
  unfold escape
  induction s with
  | nil => exact NoQueryMark.nil
  | cons c s ih =>
    simp only [List.foldr_cons]
    exact (escapeByte_noMark mode c h63 h35).append ih

/-- The escaped path of a URL that holds no `?` and no `#` before its query
holds none either. -/
theorem EscapedPath_noMark (u : URL) (hu : u.beforeQuery) : NoQueryMark u.EscapedPath.data := by
  unfold URL.EscapedPath
  split
  · exact hu.2.2.2
  · split
    · intro x hx
      simp at hx
      subst hx
      exact ⟨by decide, by decide⟩
    · exact escape_noMark _ _ (by decide) (by decide)

/-- The text `String` prints for a URL with a query: plain text, `?`, the raw
query, and then nothing or `#` and the fragment. -/
theorem String_shape (u : URL) (hu : u.beforeQuery) (hq : u.RawQuery ≠ "") :
    ∃ before frag, u.String = String.mk (before ++ '?' :: u.RawQuery.data ++ frag) ∧
      NoQueryMark before ∧ (frag = [] ∨ frag.head? = some '#') := by
  obtain ⟨hs, ho, ha, hp⟩ := hu
  have hpath := EscapedPath_noMark u ⟨hs, ho, ha, hp⟩
  have hlit : ∀ s : String, s = ":" ∨ s = "//" ∨ s = "/" ∨ s = "./" ∨ s = "" → NoQueryMark s.data := by
    intro s h
    rcases h with rfl | rfl | rfl | rfl | rfl <;> intro x hx <;> simp at hx
    · subst hx; exact ⟨by decide, by decide⟩
    · subst hx; exact ⟨by decide, by decide⟩
    · subst hx; exact ⟨by decide, by decide⟩
    · rcases hx with rfl | rfl <;> exact ⟨by decide, by decide⟩
  have happ : ∀ a b : String, NoQueryMark a.data → NoQueryMark b.data → NoQueryMark (a ++ b).data := by
    intro a b h1 h2
    rw [String.data_append]
    exact h1.append h2
  have hite : ∀ (p : Prop) [Decidable p] (a b : String), NoQueryMark a.data → NoQueryMark b.data →
      NoQueryMark (if p then a else b).data := by
    intro p _ a b h1 h2
    split
    · exact h1
    · exact h2
  have hscheme : NoQueryMark (if u.Scheme ≠ "" then u.Scheme ++ ":" else "").data :=
    hite _ _ _ (happ _ _ hs (hlit _ (Or.inl rfl))) NoQueryMark.nil
  refine ⟨(if u.Opaque ≠ "" then (if u.Scheme ≠ "" then u.Scheme ++ ":" else "") ++ u.Opaque
      else
        (if u.Scheme ≠ "" then u.Scheme ++ ":" else "") ++
          (if u.Scheme ≠ "" ∨ u.Authority ≠ "" then
            (if u.Authority ≠ "" ∨ u.Path ≠ [] then "//" else "") ++ u.Authority
          else "") ++
          (if u.EscapedPath ≠ "" ∧ u.EscapedPath.data.head? ≠ some '/' ∧ u.Authority ≠ "" then "/"
            else "") ++
          (if (if u.Scheme ≠ "" then u.Scheme ++ ":" else "") ++
              (if u.Scheme ≠ "" ∨ u.Authority ≠ "" then
                (if u.Authority ≠ "" ∨ u.Path ≠ [] then "//" else "") ++ u.Authority
              else "") ++
              (if u.EscapedPath ≠ "" ∧ u.EscapedPath.data.head? ≠ some '/' ∧ u.Authority ≠ "" then "/"
                else "") = "" ∧ ':' ∈ (split '/' u.EscapedPath.data).1 then "./" else "") ++
          u.EscapedPath).data,
    (if u.Fragment ≠ [] then "#" ++ escape u.Fragment .encodeFragment else "").data, ?_, ?_, ?_⟩
  · unfold URL.String
    simp only [hq, ne_eq, not_false_eq_true, or_true, if_true]
    apply String.ext
    simp only [String.data_append]
    simp
  · refine hite _ _ _ (happ _ _ hscheme ho) ?_
    refine happ _ _ (happ _ _ (happ _ _ (happ _ _ hscheme ?_) ?_) ?_) hpath
    · exact hite _ _ _
        (happ _ _ (hite _ _ _ (hlit _ (Or.inr (Or.inl rfl))) NoQueryMark.nil) ha) NoQueryMark.nil
    · exact hite _ _ _ (hlit _ (Or.inr (Or.inr (Or.inl rfl)))) NoQueryMark.nil
    · exact hite _ _ _ (hlit _ (Or.inr (Or.inr (Or.inr (Or.inl rfl))))) NoQueryMark.nil
  · split
    · right; rfl
    · left; rfl


/-- The query `Get` sets when the auth URL has none of its own. -/
theorem Encode_for (b : List Nat) :
    Values.Encode (Values.Set (ParseQuery "") (stringBytes "for") b) = "for=" ++ QueryEscape b := by
  have h1 : ParseQuery "" = [] := rfl
  have h2 : QueryEscape (stringBytes "for") = "for" := by decide
  simp only [h1, Values.Set, Values.Encode, encodePairs, sortByKey, List.foldr_cons, List.foldr_nil,
    insertByKey, List.map_cons, List.map_nil, List.append_nil, h2]
  rfl

/-- The requests `Get` sends are the one request it has built. -/
theorem OpenShiftTokenClient.Get_sent (env : Env) (c : OpenShiftTokenClient) (cluster : String)
    (req : Request) (h : req ∈ (c.Get env cluster).sent) : c.request cluster = .ok req := by
  by_cases ha : c.AccessToken = ""
  · simp [OpenShiftTokenClient.Get, ha] at h
  · by_cases hc : cluster = ""
    · simp [OpenShiftTokenClient.Get, ha, hc] at h
    · rcases hreq : c.request cluster with err | req1
      · simp [OpenShiftTokenClient.Get, ha, hc, hreq] at h
      · have hs : (c.Get env cluster).sent = [req1] := by
          simp only [OpenShiftTokenClient.Get, ha, hc, hreq, if_false]
          rcases env.Do req1 with err | ⟨st, err⟩ | ⟨status, body⟩
          · rfl
          · rfl
          · simp only
            rcases validateError status body with _ | verr <;> rfl
        rw [hs] at h
        simp only [List.mem_singleton] at h
        rw [h]

/-- C8 (amended): for a parseable auth base URL that has no query of its own,
every request `OpenShiftTokenClient.Get` sends (it sends one only when the
access token and the cluster are non-empty) is a `GET` whose query string is
exactly `for=` followed by the query-escaped cluster, and whose `Authorization`
header is `Bearer ` followed by the access token as it is. -/
theorem OpenShiftTokenClient_Get_request (env : Env) (c : OpenShiftTokenClient)
    (cluster : String) (u0 : URL) (req : Request)
    (hp : Parse c.Config.AuthURL = .ok u0) (hq : u0.RawQuery = "")
    (hs : req ∈ (c.Get env cluster).sent) :
    (c.AccessToken ≠ "" ∧ cluster ≠ "") ∧
    req.Method = "GET" ∧
    req.URL.RawQuery = "for=" ++ QueryEscape (stringBytes cluster) ∧
    req.GetHeader "Authorization" = "Bearer " ++ c.AccessToken := by
  have hne0 : c.AccessToken ≠ "" ∧ cluster ≠ "" := by
    constructor
    · intro ha; simp [OpenShiftTokenClient.Get, ha] at hs
    · intro hc
      by_cases ha : c.AccessToken = ""
      · simp [OpenShiftTokenClient.Get, ha] at hs
      · simp [OpenShiftTokenClient.Get, ha, hc] at hs
  refine ⟨hne0, ?_⟩
  have hreq := OpenShiftTokenClient.Get_sent env c cluster req hs
  have hu0 := Parse_fields _ _ hp
  unfold OpenShiftTokenClient.request at hreq
  simp only [hp, hq, Encode_for] at hreq
  split at hreq
  · cases hreq
  · rename_i req0 hnew
    cases hreq
    unfold NewRequest at hnew
    split at hnew
    · cases hnew
    · rename_i u1 hparse
      cases hnew
      have henc : NoQueryMark ("for=" ++ QueryEscape (stringBytes cluster)).data := by
        rw [String.data_append]
        refine NoQueryMark.append ?_ (escape_noMark _ _ (by decide) (by decide))
        intro x hx
        simp at hx
        rcases hx with rfl | rfl | rfl | rfl <;> exact ⟨by decide, by decide⟩
      have hne : ("for=" ++ QueryEscape (stringBytes cluster)).data ≠ [] := by
        rw [String.data_append]
        simp
      have hne2 : ("for=" ++ QueryEscape (stringBytes cluster)) ≠ "" := by
        intro h0
        apply hne
        rw [h0]
      obtain ⟨before, frag, hstr, hb, hf⟩ := String_shape
        { u0 with Path := stringBytes "/api/token",
                  RawQuery := "for=" ++ QueryEscape (stringBytes cluster) }
        hu0 hne2
      rw [hstr] at hparse
      have hrq := Parse_rawQuery before _ frag u1 hb hne henc hf hparse
      refine ⟨rfl, hrq, ?_⟩
      simp [Request.GetHeader, Request.AddHeader, List.find?]

/-- Witness of C8: the auth URL `http://auth.example.com`, the access token
`tok` and the cluster `https://api.example.com`. -/
theorem OpenShiftTokenClient_Get_request_witness :
    ∃ req,
      (OpenShiftTokenClient.Get
        { Do := fun _ => .response 200 "\x7b\"access_token\":\"t\"\x7d",
          GetData := .error (.external ""), Quote := fun s => s }
        { Config := { AuthURL := "http://auth.example.com", AuthGrantType := "client_credentials",
                      AuthClientID := "id", ClientSecret := "secret" },
          AccessToken := "tok", OpenShiftToken := "" } "https://api.example.com").sent = [req] ∧
      req.Method = "GET" ∧ req.URL.RawQuery = "for=https%3A%2F%2Fapi.example.com" ∧
      req.GetHeader "Authorization" = "Bearer tok" := by
  obtain ⟨req, hs⟩ : ∃ req,
      (OpenShiftTokenClient.Get
        { Do := fun _ => .response 200 "\x7b\"access_token\":\"t\"\x7d",
          GetData := .error (.external ""), Quote := fun s => s }
        { Config := { AuthURL := "http://auth.example.com", AuthGrantType := "client_credentials",
                      AuthClientID := "id", ClientSecret := "secret" },
          AccessToken := "tok", OpenShiftToken := "" } "https://api.example.com").sent = [req] :=
    ⟨_, rfl⟩
  obtain ⟨u0, hp⟩ : ∃ u0, Parse "http://auth.example.com" = .ok u0 := ⟨_, rfl⟩
  have hq : u0.RawQuery = "" := by
    have : Parse "http://auth.example.com" = .ok
        { URL.zero with Scheme := "http", Authority := "auth.example.com" } := rfl
    rw [this] at hp
    cases hp
    rfl
  obtain ⟨_, h1, h2, h3⟩ := OpenShiftTokenClient_Get_request _ _ "https://api.example.com" u0 req
    hp hq (by rw [hs]; exact List.mem_singleton.mpr rfl)
  refine ⟨req, hs, h1, ?_, h3⟩
  rw [h2]
  decide

/-- Counterexample to C8 as stated: the auth base URL
`http://auth.example.com?x=1` is parseable, and the request built for the
cluster `https://api.example.com` has the query string
`for=https%3A%2F%2Fapi.example.com&x=1`, not `for=https%3A%2F%2Fapi.example.com`
alone. -/
theorem OpenShiftTokenClient_Get_keeps_base_query :
    (OpenShiftTokenClient.Get
        { Do := fun _ => .response 200 "\x7b\"access_token\":\"t\"\x7d",
          GetData := .error (.external ""), Quote := fun s => s }
        { Config := { AuthURL := "http://auth.example.com?x=1", AuthGrantType := "client_credentials",
                      AuthClientID := "id", ClientSecret := "secret" },
          AccessToken := "tok", OpenShiftToken := "" } "https://api.example.com").sent.map
        (fun req => (req.Method, req.URL.RawQuery)) =
      [("GET", "for=https%3A%2F%2Fapi.example.com&x=1")] ∧
    "for=https%3A%2F%2Fapi.example.com&x=1" ≠
      "for=" ++ QueryEscape (stringBytes "https://api.example.com") := by
  constructor <;> decide

/-! ## The request of the user-cluster resolver -/

/-- The character `Char.ofNat m` has the code `m`, for a code below the
surrogates. -/
theorem toNat_ofNat_small (m : Nat) (h : m < 55296) : (Char.ofNat m).toNat = m := by
  unfold Char.ofNat
  rw [dif_pos (Or.inl h)]
  rfl

/-- An upper-case hexadecimal digit is read back as the number it stands for. -/
theorem upperhex_roundtrip : ∀ n, n < 16 → isHex (upperhex n) = true ∧ hexVal (upperhex n) = n := by
  decide

/-- A byte that `escape` leaves as it is in a path is an ASCII character other
than `%`. -/
theorem shouldEscape_false_path (c : Nat) (h : shouldEscape c .encodePath = false) :
    c < 128 ∧ c ≠ 37 := by
  by_contra hc
  have : 128 ≤ c ∨ c = 37 := by omega
  rcases this with h1 | h1
  · have : shouldEscape c .encodePath = true := by
      unfold shouldEscape
      rw [if_neg (by omega), if_neg (by omega), if_neg (by omega)]
    rw [this] at h; cases h
  · subst h1
    revert h; decide

/-- An escaped byte of a path is read back as the byte. -/
theorem unescape_escapeByte (c : Nat) (hc : c < 256) (rest : List Char) (t : List Nat)
    (h : unescape .encodePath rest = .ok t) :
    unescape .encodePath (escapeByte .encodePath c ++ rest) = .ok (c :: t) := by
  unfold escapeByte
  by_cases hs : shouldEscape c .encodePath = true
  · have h1 := upperhex_roundtrip (c / 16) (by omega)
    have h2 := upperhex_roundtrip (c % 16) (by omega)
    have hv : hexVal (upperhex (c / 16)) * 16 + hexVal (upperhex (c % 16)) = c := by
      rw [h1.2, h2.2]; omega
    simp only [hs, if_true, reduceCtorEq, and_false, if_false, List.cons_append, List.nil_append,
      unescape, h1.1, h2.1, and_self, h, hv]
  · have hs' : shouldEscape c .encodePath = false := by simpa using hs
    obtain ⟨h128, h37⟩ := shouldEscape_false_path c hs'
    have hne : Char.ofNat c ≠ '%' := ofNat_ne c '%' (by decide) (by simpa using h37)
    have hn : (Char.ofNat c).toNat = c := toNat_ofNat_small c (by omega)
    simp only [hs', Bool.false_eq_true, if_false, List.cons_append, List.nil_append]
    unfold unescape
    simp only [hne, if_false, h, reduceCtorEq, and_false, utf8Bytes, hn, h128, if_true,
      List.cons_append, List.nil_append]

/-- Escaping a path and un-escaping it gives the path back. -/
theorem unescape_escape_path (bs : List Nat) (h : ∀ b ∈ bs, b < 256) :
    unescape .encodePath (escape bs .encodePath).data = .ok bs := by
  unfold escape
  induction bs with
  | nil => rfl
  | cons c bs ih =>
    simp only [List.foldr_cons]
    exact unescape_escapeByte c (h c (List.mem_cons_self _ _)) _ _
      (ih (fun b hb => h b (List.mem_cons_of_mem _ hb)))

/-- The bytes of a Go string are bytes. -/
theorem stringBytes_lt (s : String) : ∀ b ∈ stringBytes s, b < 256 := by
  unfold stringBytes
  induction s.data with
  | nil => intro b hb; cases hb
  | cons c cs ih =>
    intro b hb
    simp only [List.foldr_cons, List.mem_append] at hb
    rcases hb with hb | hb
    · have hv : c.toNat < 1114112 := by
        have := c.valid
        unfold Char.toNat
        rcases this with h | h
        · omega
        · omega
      unfold utf8Bytes at hb
      simp only at hb
      split at hb
      · simp at hb; omega
      · split at hb
        · simp at hb; omega
        · split at hb
          · simp at hb; omega
          · simp at hb; omega
    · exact ih b hb


/-- The characters of the strings of `l`, each after the separator `s`, after
those of `acc`. -/
theorem intercalate_go_data (acc s : String) (l : List String) :
    (String.intercalate.go acc s l).data = acc.data ++ l.flatMap (fun a => s.data ++ a.data) := by
  induction l generalizing acc with
  | nil => simp [String.intercalate.go]
  | cons a l ih =>
    simp only [String.intercalate.go, ih, String.data_append, List.flatMap_cons, List.append_assoc]

/-- The characters of strings joined by a separator. -/
theorem intercalate_data_cons (s x : String) (xs : List String) :
    (s.intercalate (x :: xs)).data = x.data ++ xs.flatMap (fun a => s.data ++ a.data) := by
  simp only [String.intercalate, intercalate_go_data]

/-- A path has at least one element. -/
theorem pathElements_ne_nil (s : List Char) : pathElements s ≠ [] := by
  cases s with
  | nil => simp [pathElements]
  | cons c rest =>
    unfold pathElements
    split
    · simp
    · split <;> simp

/-- The elements of a path hold no slash. -/
theorem pathElements_no_slash (s : List Char) : ∀ e ∈ pathElements s, '/' ∉ e := by
  induction s with
  | nil => intro e he; simp [pathElements] at he; subst he; simp
  | cons c rest ih =>
    intro e he
    unfold pathElements at he
    split at he
    · rcases List.mem_cons.mp he with h | h
      · subst h; simp
      · exact ih e h
    · rename_i hc
      split at he
      · simp at he; subst he
        simp; exact fun h => hc h.symm
      · rename_i e0 es heq
        rcases List.mem_cons.mp he with h | h
        · subst h
          have := ih e0 (by rw [heq]; exact List.mem_cons_self _ _)
          simp only [List.mem_cons, not_or]
          exact ⟨fun h => hc h.symm, this⟩
        · exact ih e (by rw [heq]; exact List.mem_cons_of_mem _ h)

/-- The first element of a path is the text before its first slash. -/
theorem pathElements_append (w r : List Char) (h : '/' ∉ w) :
    pathElements (w ++ '/' :: r) = w :: pathElements r := by
  induction w with
  | nil => simp [pathElements]
  | cons c w ih =>
    have hc : c ≠ '/' := fun hc => h (hc ▸ List.mem_cons_self _ _)
    have hw : '/' ∉ w := fun hw => h (List.mem_cons_of_mem _ hw)
    have h1 := ih hw
    simp only [List.cons_append, pathElements, hc, if_false]
    rw [show w.append ('/' :: r) = w ++ '/' :: r from rfl, h1]

/-- The elements of a path, each after a slash, make up the path after a slash. -/
theorem pathElements_join (s : List Char) :
    (pathElements s).flatMap (fun e => '/' :: e) = '/' :: s := by
  induction s with
  | nil => simp [pathElements]
  | cons c rest ih =>
    unfold pathElements
    split
    · rename_i hc
      subst hc
      simp only [List.flatMap_cons, ih, List.cons_append, List.nil_append]
    · split
      · rename_i heq
        exact absurd heq (pathElements_ne_nil rest)
      · rename_i e0 es heq
        rw [heq] at ih
        simp only [List.flatMap_cons, List.cons_append, List.cons.injEq, true_and] at ih ⊢
        rw [ih]


/-- At the root, `Clean` keeps only elements that are not empty and hold no
slash. -/
theorem cleanElement_kept (kept : List (List Char)) (e : List Char)
    (hk : ∀ k ∈ kept, k ≠ [] ∧ '/' ∉ k) (he : '/' ∉ e) :
    ∀ k ∈ cleanElement true kept e, k ≠ [] ∧ '/' ∉ k := by
  unfold cleanElement
  split
  · exact hk
  · rename_i h1
    split
    · cases kept with
      | nil => simp
      | cons k ks =>
        simp only
        split
        · intro x hx
          rcases List.mem_cons.mp hx with h | h
          · subst h; exact ⟨by simp_all, he⟩
          · exact hk x h
        · intro x hx
          exact hk x (List.mem_cons_of_mem _ hx)
    · intro x hx
      rcases List.mem_cons.mp hx with h | h
      · subst h
        exact ⟨fun h0 => h1 (Or.inl h0), he⟩
      · exact hk x h

/-- The elements `Clean` keeps of a rooted path are not empty and hold no slash. -/
theorem foldl_cleanElement_kept (es kept : List (List Char))
    (hk : ∀ k ∈ kept, k ≠ [] ∧ '/' ∉ k) (he : ∀ e ∈ es, '/' ∉ e) :
    ∀ k ∈ es.foldl (cleanElement true) kept, k ≠ [] ∧ '/' ∉ k := by
  induction es generalizing kept with
  | nil => exact hk
  | cons e es ih =>
    simp only [List.foldl_cons]
    exact ih _ (cleanElement_kept kept e hk (he e (List.mem_cons_self _ _)))
      (fun x hx => he x (List.mem_cons_of_mem _ hx))

/-- Elements that are not empty, `.` or `..` are all kept by `Clean`. -/
theorem foldl_cleanElement_plain (rooted : Bool) (es kept : List (List Char))
    (he : ∀ e ∈ es, e ≠ [] ∧ e ≠ ['.'] ∧ e ≠ ['.', '.']) :
    es.foldl (cleanElement rooted) kept = es.reverse ++ kept := by
  induction es generalizing kept with
  | nil => rfl
  | cons e es ih =>
    obtain ⟨h1, h2, h3⟩ := he e (List.mem_cons_self _ _)
    have hc : cleanElement rooted kept e = e :: kept := by
      simp [cleanElement, h1, h2, h3]
    simp only [List.foldl_cons, hc, ih _ (fun x hx => he x (List.mem_cons_of_mem _ hx)),
      List.reverse_cons, List.append_assoc, List.singleton_append]

/-- A cleaned rooted path starts with one slash, not with two. -/
theorem Clean_rooted (path : String) (rest : List Char) (h : path.data = '/' :: rest) :
    ∃ t, (Clean path).data = '/' :: t ∧ t.head? ≠ some '/' := by
  have hne : path ≠ "" := by
    intro h0; rw [h0] at h; cases h
  have hk := foldl_cleanElement_kept (pathElements path.data) [] (fun k hk => by cases hk)
    (pathElements_no_slash _)
  refine ⟨("/".intercalate
    (((pathElements path.data).foldl (cleanElement true) []).reverse.map String.mk)).data, ?_, ?_⟩
  · simp only [Clean, hne, if_false, h, List.head?_cons, decide_True, if_true, String.data_append]
    rfl
  · cases hrev : ((pathElements path.data).foldl (cleanElement true) []).reverse with
    | nil => simp [String.intercalate]
    | cons x xs =>
      have hx := hk x (by
        have : x ∈ ((pathElements path.data).foldl (cleanElement true) []).reverse := by
          rw [hrev]; exact List.mem_cons_self _ _
        exact List.mem_reverse.mp this)
      simp only [List.map_cons, intercalate_data_cons]
      cases x with
      | nil => exact absurd rfl hx.1
      | cons c cs =>
        simp only [List.cons_append, List.head?_cons, ne_eq, Option.some.injEq]
        intro hc
        exact hx.2 (hc ▸ List.mem_cons_self _ _)

/-- The path `GetUserCluster` sets starts with one slash, not with two. -/
theorem Join_shape (userID : String) :
    ∃ t, (Join ["/api/users", userID]).data = '/' :: t ∧ t.head? ≠ some '/' := by
  by_cases hu : userID = ""
  · subst hu
    exact Clean_rooted _ _ rfl
  · have hf : (["/api/users", userID].filter (fun e => e ≠ "")) = ["/api/users", userID] := by
      simp [List.filter, hu]
    simp only [Join, hf]
    exact Clean_rooted _ ("api/users".data ++ ('/' :: userID.data)) (by
      simp only [intercalate_data_cons, List.flatMap_cons, List.flatMap_nil, List.append_nil]
      rfl)

/-- For a user ID that is not empty and has no empty, `.` or `..` element, the
path `GetUserCluster` sets is `/api/users/` followed by the user ID. -/
theorem Join_plain (userID : String) (h : plainUserID userID) :
    Join ["/api/users", userID] = "/api/users/" ++ userID := by
  obtain ⟨hu, he⟩ := h
  have hf : (["/api/users", userID].filter (fun e => e ≠ "")) = ["/api/users", userID] := by
    simp [List.filter, hu]
  have hd : ("/".intercalate ["/api/users", userID]).data =
      [] ++ '/' :: (['a', 'p', 'i'] ++ '/' :: (['u', 's', 'e', 'r', 's'] ++ '/' :: userID.data)) := by
    simp only [intercalate_data_cons, List.flatMap_cons, List.flatMap_nil, List.append_nil]
    rfl
  have hne : "/".intercalate ["/api/users", userID] ≠ "" := by
    intro h0; rw [h0] at hd; cases hd
  have hpe : pathElements ("/".intercalate ["/api/users", userID]).data =
      [] :: ['a', 'p', 'i'] :: ['u', 's', 'e', 'r', 's'] :: pathElements userID.data := by
    rw [hd, pathElements_append _ _ (by simp), pathElements_append _ _ (by decide),
      pathElements_append _ _ (by decide)]
  have hfold : (pathElements ("/".intercalate ["/api/users", userID]).data).foldl
      (cleanElement true) [] =
      (pathElements userID.data).reverse ++ [['u', 's', 'e', 'r', 's'], ['a', 'p', 'i']] := by
    rw [hpe]
    simp only [List.foldl_cons]
    rw [show cleanElement true [] [] = [] from rfl,
      show cleanElement true [] ['a', 'p', 'i'] = [['a', 'p', 'i']] from by decide,
      show cleanElement true [['a', 'p', 'i']] ['u', 's', 'e', 'r', 's'] =
        [['u', 's', 'e', 'r', 's'], ['a', 'p', 'i']] from by decide]
    exact foldl_cleanElement_plain true _ _ he
  have hmap : ∀ l : List (List Char),
      (l.map String.mk).flatMap (fun a => '/' :: a.data) = l.flatMap (fun e => '/' :: e) := by
    intro l
    induction l with
    | nil => rfl
    | cons x xs ih => simp only [List.map_cons, List.flatMap_cons, ih]
  simp only [Join, hf]
  generalize "/".intercalate ["/api/users", userID] = J at hd hne hpe hfold ⊢
  have hroot : J.data.head? = some '/' := by rw [hd]; rfl
  apply String.ext
  simp only [Clean, hne, if_false, hroot, decide_True, if_true, hfold, String.data_append,
    List.reverse_append, List.reverse_reverse, List.reverse_cons, List.reverse_nil,
    List.nil_append, List.singleton_append, List.cons_append, List.map_cons,
    intercalate_data_cons, List.flatMap_cons]
  rw [hmap, pathElements_join]

/-- Lower-casing a letter gives a letter. -/
theorem toLower_isAlpha (c : Char) (h : isAlpha c = true) : isAlpha c.toLower = true := by
  unfold Char.toLower
  simp only
  split
  · rename_i hc
    have hn := toNat_ofNat_small (c.toNat + 32) (by omega)
    simp only [isAlpha, hn, Bool.or_eq_true, Bool.and_eq_true, decide_eq_true_eq]
    omega
  · exact h

/-- Lower-casing a character of a scheme gives a character of a scheme. -/
theorem toLower_schemeChar (c : Char) (h : schemeChar c) : schemeChar c.toLower := by
  by_cases ha : isAlpha c = true
  · exact Or.inl (toLower_isAlpha c ha)
  · have hc : c.toLower = c := by
      unfold Char.toLower
      simp only
      split
      · rename_i hr
        exfalso
        apply ha
        simp only [isAlpha, Bool.or_eq_true, Bool.and_eq_true, decide_eq_true_eq]
        omega
      · rfl
    rw [hc]; exact h

/-- The scheme `getscheme` returns is empty or starts with a letter. -/
theorem getschemeLoop_head (s pre sch rest : List Char)
    (hpre : pre = [] ∨ ∃ c cs, pre = c :: cs ∧ isAlpha c = true)
    (h : getschemeLoop (pre ++ s) pre.length s = .ok (sch, rest)) :
    sch = [] ∨ ∃ c cs, sch = c :: cs ∧ isAlpha c = true := by
  induction s generalizing pre with
  | nil =>
    simp only [getschemeLoop, Except.ok.injEq, Prod.mk.injEq] at h
    exact Or.inl h.1.symm
  | cons c s ih =>
    have hstep : pre ++ c :: s = (pre ++ [c]) ++ s := by simp
    have hlen : pre.length + 1 = (pre ++ [c]).length := by simp
    unfold getschemeLoop at h
    split at h
    · rename_i hc
      rw [hstep, hlen] at h
      refine ih (pre ++ [c]) (Or.inr ?_) h
      rcases hpre with rfl | ⟨x, xs, rfl, hx⟩
      · exact ⟨c, [], rfl, hc⟩
      · exact ⟨x, xs ++ [c], rfl, hx⟩
    · split at h
      · split at h
        · simp only [Except.ok.injEq, Prod.mk.injEq] at h
          exact Or.inl h.1.symm
        · rename_i hi
          rw [hstep, hlen] at h
          refine ih (pre ++ [c]) (Or.inr ?_) h
          rcases hpre with rfl | ⟨x, xs, rfl, hx⟩
          · exact absurd rfl hi
          · exact ⟨x, xs ++ [c], rfl, hx⟩
      · split at h
        · split at h
          · cases h
          · simp only [Except.ok.injEq, Prod.mk.injEq] at h
            rw [List.take_left' rfl] at h
            rcases hpre with rfl | hp
            · exact Or.inl h.1.symm
            · exact Or.inr (h.1 ▸ hp)
        · simp only [Except.ok.injEq, Prod.mk.injEq] at h
          exact Or.inl h.1.symm

/-- The authority `split` cuts off holds no slash. -/
theorem splitAtSlash_fst_no_slash (l : List Char) : '/' ∉ (splitAtSlash l).1 := by
  induction l with
  | nil => simp [splitAtSlash]
  | cons x rest ih =>
    unfold splitAtSlash
    split
    · simp
    · rename_i hx
      simp only [List.mem_cons, not_or]
      exact ⟨fun h => hx h.symm, ih⟩

/-- What `split` leaves after the authority is empty or starts with a slash. -/
theorem splitAtSlash_snd_head (l : List Char) :
    (splitAtSlash l).2 = [] ∨ (splitAtSlash l).2.head? = some '/' := by
  induction l with
  | nil => left; rfl
  | cons x rest ih =>
    unfold splitAtSlash
    split
    · rename_i hx
      right; simp [hx]
    · exact ih

/-- With no authority cut off, the text is empty or starts with a slash. -/
theorem splitAtSlash_fst_nil (l : List Char) (h : (splitAtSlash l).1 = []) :
    l = [] ∨ l.head? = some '/' := by
  cases l with
  | nil => left; rfl
  | cons x rest =>
    unfold splitAtSlash at h
    split at h
    · rename_i hx
      right; simp [hx]
    · simp at h

/-- The authority is cut off at the first slash. -/
theorem splitAtSlash_append (a p : List Char) (ha : '/' ∉ a) (hp : p = [] ∨ p.head? = some '/') :
    splitAtSlash (a ++ p) = (a, p) := by
  induction a with
  | nil =>
    rcases hp with rfl | hp
    · rfl
    · cases p with
      | nil => simp at hp
      | cons x xs =>
        simp only [List.head?_cons, Option.some.injEq] at hp
        simp [splitAtSlash, hp]
  | cons x rest ih =>
    have hx : x ≠ '/' := fun hx => ha (hx ▸ List.mem_cons_self _ _)
    have hr : '/' ∉ rest := fun hr => ha (List.mem_cons_of_mem _ hr)
    simp [splitAtSlash, hx, ih hr]


/-- A string is empty exactly when it has no character. -/
theorem mk_eq_empty (l : List Char) : String.mk l = "" ↔ l = [] := by
  constructor
  · intro h
    have := congrArg String.data h
    exact this
  · rintro rfl; rfl

/-- The second half of `parse` keeps the scheme and the query; the authority
it reads holds no slash, and the raw path it sets has the shape `rawPathShape`. -/
theorem parseRest_parsed (u u1 : URL) (rest : List Char) (h : parseRest u rest = .ok u1)
    (hA : u.Authority = "") (hR : u.RawPath = "") :
    u1.Scheme = u.Scheme ∧ u1.RawQuery = u.RawQuery ∧ '/' ∉ u1.Authority.data ∧
      u1.rawPathShape := by
  unfold parseRest at h
  split at h
  · cases h
    exact ⟨rfl, rfl, by simp [hA], Or.inl hR⟩
  · rename_i hc1
    split at h
    · cases h
    · rename_i hc2
      split at h
      · rename_i hc3
        obtain ⟨h1, h2, h3, h4, h5⟩ := setPath_fields _ _ _ h
        refine ⟨h1, h4, ?_, ?_⟩
        · rw [h3]; exact splitAtSlash_fst_no_slash _
        · rcases h5 with h5 | h5
          · exact Or.inl h5
          · rcases splitAtSlash_snd_head (rest.drop 2) with hs | hs
            · left; rw [h5, hs]
            · by_cases hsch : u.Scheme = ""
              · by_cases hauth : (splitAtSlash (rest.drop 2)).1 = []
                · exfalso
                  have h3' : rest.take 3 ≠ ['/', '/', '/'] := by
                    rcases hc3.1 with h0 | h0
                    · exact absurd hsch h0
                    · exact h0
                  have h2' := hc3.2
                  rcases splitAtSlash_fst_nil _ hauth with hd | hd
                  · rw [hd] at hs; simp [splitAtSlash] at hs
                  · match rest, h2', h3', hd with
                    | a :: b :: c :: r, h2', h3', hd =>
                      simp only [List.take_succ_cons, List.take_zero, List.cons.injEq, and_true] at h2'
                      simp only [List.drop_succ_cons, List.drop_zero, List.head?_cons,
                        Option.some.injEq] at hd
                      apply h3'
                      simp [h2'.1, h2'.2, hd]
                    | [a, b], _, _, hd => simp at hd
                    | [a], h2', _, _ => simp at h2'
                    | [], h2', _, _ => simp at h2'
                · right; left
                  refine ⟨by rw [h5]; exact hs, Or.inr (Or.inl ?_)⟩
                  rw [h3]
                  exact fun h0 => hauth ((mk_eq_empty _).mp h0)
              · right; left
                exact ⟨by rw [h5]; exact hs, Or.inl (by rw [h1]; exact hsch)⟩
      · rename_i hc3
        obtain ⟨h1, h2, h3, h4, h5⟩ := setPath_fields _ _ _ h
        refine ⟨h1, h4, by rw [h3, hA]; simp, ?_⟩
        rcases h5 with h5 | h5
        · exact Or.inl h5
        · by_cases hhead : rest.head? = some '/'
          · right; left
            refine ⟨by rw [h5]; exact hhead, ?_⟩
            by_cases hsch : u.Scheme = ""
            · right; right
              rw [h5]
              intro hcond
              exact hc3 ⟨Or.inr hcond.1, hcond.2⟩
            · left; rw [h1]; exact hsch
          · right; right
            have hsch : u.Scheme = "" := by
              by_contra h0
              exact hc1 ⟨hhead, h0⟩
            refine ⟨by rw [h5]; exact hhead, by rw [h1]; exact hsch, by rw [h3]; exact hA, ?_⟩
            rw [h5]
            exact fun hcol => hc2 ⟨hhead, hcol⟩

/-- The URL `parse` returns for a text without `#` has the shape `parsed`. -/
theorem parse_parsed (rawurl : List Char) (u : URL) (h : parse rawurl = .ok u)
    (hh : '#' ∉ rawurl) : u.parsed := by
  unfold parse at h
  split at h
  · cases h
    exact ⟨Or.inl rfl, by simp [URL.zero], by simp [URL.zero], Or.inl rfl⟩
  · split at h
    · cases h
    · rename_i scheme rest hg
      obtain ⟨hsch, hrest⟩ := getschemeLoop_fields rawurl [] scheme rest (fun c hc => by cases hc) hg
      have hhead := getschemeLoop_head rawurl [] scheme rest (Or.inl rfl) hg
      obtain ⟨h1, h2, h3, h4⟩ := parseRest_parsed _ _ _ h rfl rfl
      refine ⟨?_, h3, ?_, h4⟩
      · rw [h1]
        rcases hhead with rfl | ⟨c, cs, rfl, hc⟩
        · left; rfl
        · right
          refine ⟨c.toLower, cs.map Char.toLower, rfl, toLower_isAlpha c hc, ?_⟩
          intro x hx
          simp only [List.mem_map] at hx
          obtain ⟨y, hy, rfl⟩ := hx
          exact toLower_schemeChar y (hsch y hy)
      · rw [h2]
        unfold cutQuery
        split
        · simp
        · intro hm
          exact hh (hrest _ (split_snd_mem _ _ _ hm))

/-- Every URL that `url.Parse` returns has the shape `parsed`. -/
theorem Parse_parsed (rawurl : String) (u : URL) (h : Parse rawurl = .ok u) : u.parsed := by
  unfold Parse at h
  simp only at h
  split at h
  · cases h
  · rename_i u0 hp
    have h0 := parse_parsed _ u0 hp (split_fst_not_mem _ _)
    split at h
    · cases h; exact h0
    · split at h
      · cases h
      · cases h; exact h0

/-- After its first character, `getscheme` reads scheme characters up to the
colon and returns the text read as the scheme. -/
theorem getschemeLoop_run (s rawurl rest : List Char) (i : Nat) (hi : i ≠ 0)
    (hs : ∀ x ∈ s, schemeChar x) :
    getschemeLoop rawurl i (s ++ ':' :: rest) = .ok (rawurl.take (i + s.length), rest) := by
  induction s generalizing i with
  | nil =>
    simp [getschemeLoop, isAlpha, isDigit, hi]
  | cons x s ih =>
    have hx := hs x (List.mem_cons_self _ _)
    have ih1 := ih (i + 1) (by omega) (fun y hy => hs y (List.mem_cons_of_mem _ hy))
    have hlen : i + (x :: s).length = i + 1 + s.length := by simp; omega
    rw [hlen, List.cons_append]
    unfold getschemeLoop
    by_cases ha : isAlpha x = true
    · simp only [ha, if_true, ih1]
    · simp only [ha, Bool.false_eq_true, if_false]
      have hd : isDigit x = true ∨ x = '+' ∨ x = '-' ∨ x = '.' := by
        rcases hx with h | h
        · exact absurd h ha
        · exact h
      simp only [hd, if_true, hi, if_false, ih1]

/-- A text that starts with a letter followed by scheme characters and a colon
has that scheme. -/
theorem getscheme_scheme (c : Char) (cs rest : List Char) (hc : isAlpha c = true)
    (hs : ∀ x ∈ cs, schemeChar x) :
    getscheme (c :: cs ++ ':' :: rest) = .ok (c :: cs, rest) := by
  unfold getscheme
  rw [List.cons_append]
  unfold getschemeLoop
  simp only [hc, if_true]
  rw [getschemeLoop_run cs _ rest 1 (by omega) hs]
  congr 2
  rw [show 1 + cs.length = (c :: cs).length from by simp; omega]
  exact List.take_left' rfl

/-- A text that is empty or starts with a slash or a percent sign has no scheme. -/
theorem getscheme_none (s : List Char) (h : s = [] ∨ s.head? = some '/' ∨ s.head? = some '%') :
    getscheme s = .ok ([], s) := by
  cases s with
  | nil => rfl
  | cons x xs =>
    rcases h with h | h | h
    · cases h
    · simp only [List.head?_cons, Option.some.injEq] at h
      subst h
      simp [getscheme, getschemeLoop, isAlpha, isDigit]
    · simp only [List.head?_cons, Option.some.injEq] at h
      subst h
      simp [getscheme, getschemeLoop, isAlpha, isDigit]

/-- A text without `?` has no query to cut. -/
theorem cutQuery_plain (x : List Char) (h : '?' ∉ x) : (cutQuery x).1 = x := by
  unfold cutQuery
  split
  · rename_i hc
    exact absurd (List.mem_of_getLast?_eq_some hc.1) h
  · rw [split_not_mem _ _ h]

/-- The query is cut at the first `?`. -/
theorem cutQuery_query (x q : List Char) (h : '?' ∉ x) : (cutQuery (x ++ '?' :: q)).1 = x := by
  unfold cutQuery
  split
  · rename_i hc
    obtain ⟨hl, hcount⟩ := hc
    have hq : q = [] := by
      by_contra hne
      have hlast : q.getLast? = some '?' := by
        rw [List.getLast?_append, List.getLast?_cons] at hl
        cases hq : q.getLast? with
        | none => exact absurd (List.getLast?_eq_none_iff.mp hq) hne
        | some y => rw [hq] at hl; simpa using hl
      have hmem : '?' ∈ q := List.mem_of_getLast?_eq_some hlast
      have hpos : 0 < List.count '?' q := List.count_pos_iff.mpr hmem
      rw [List.count_append, List.count_cons_self] at hcount
      omega
    subst hq
    simp
  · rw [split_append _ _ _ h]

/-- The path `setPath` sets is the un-escaped text. -/
theorem setPath_path (u u1 : URL) (p : List Char) (path : List Nat)
    (h : URL.setPath u p = .ok u1) (hp : unescape .encodePath p = .ok path) : u1.Path = path := by
  unfold URL.setPath at h
  rw [hp] at h
  simp only at h
  split at h <;> cases h <;> rfl

/-- After `//` and an authority, the second half of `parse` reads the path
that follows. -/
theorem parseRest_authority (u u1 : URL) (a ep : List Char) (path : List Nat)
    (h : parseRest u ('/' :: '/' :: (a ++ ep)) = .ok u1) (hsa : u.Scheme ≠ "" ∨ a ≠ [])
    (ha : '/' ∉ a) (hep : ep.head? = some '/') (hp : unescape .encodePath ep = .ok path) :
    u1.Path = path := by
  have h3 : (u.Scheme ≠ "" ∨ ('/' :: '/' :: (a ++ ep)).take 3 ≠ ['/', '/', '/']) ∧
      ('/' :: '/' :: (a ++ ep)).take 2 = ['/', '/'] := by
    refine ⟨?_, rfl⟩
    rcases hsa with h0 | h0
    · exact Or.inl h0
    · right
      cases a with
      | nil => exact absurd rfl h0
      | cons x xs =>
        have hx : x ≠ '/' := fun hx => ha (hx ▸ List.mem_cons_self _ _)
        simp [hx]
  unfold parseRest at h
  rw [if_neg (by simp), if_neg (by simp), if_pos h3] at h
  simp only [List.drop_succ_cons, List.drop_zero, splitAtSlash_append a ep ha (Or.inr hep)] at h
  exact setPath_path _ _ _ _ h hp

/-- Without scheme and authority, the second half of `parse` reads the whole
text as the path. -/
theorem parseRest_relative (u u1 : URL) (ep : List Char) (path : List Nat)
    (h : parseRest u ep = .ok u1) (hs : u.Scheme = "")
    (h3 : ¬ (ep.take 3 ≠ ['/', '/', '/'] ∧ ep.take 2 = ['/', '/']))
    (hp : unescape .encodePath ep = .ok path) : u1.Path = path := by
  unfold parseRest at h
  rw [if_neg (by simp [hs])] at h
  split at h
  · cases h
  · rw [if_neg (by simp only [hs, ne_eq, not_true_eq_false, false_or]; exact h3)] at h
    exact setPath_path _ _ _ _ h hp


/-- The function `parse`, on a text of which the scheme and the query are
known, is its second half applied to what lies between them. -/
theorem parse_parseRest (rawurl sch rest x : List Char) (u1 : URL) (hstar : rawurl ≠ ['*'])
    (hg : getscheme rawurl = .ok (sch, rest)) (hx : (cutQuery rest).1 = x)
    (h : parse rawurl = .ok u1) :
    ∃ u : URL, u.Scheme = String.mk (sch.map Char.toLower) ∧ parseRest u x = .ok u1 := by
  unfold parse at h
  rw [if_neg hstar, hg] at h
  simp only [hx] at h
  exact ⟨_, rfl, h⟩

/-- The function `url.Parse` gives the path that `parse` reads in the text
before the fragment. -/
theorem Parse_path_of_parse (text frag : List Char) (u1 : URL) (hh : '#' ∉ text)
    (hf : frag = [] ∨ frag.head? = some '#') (h : Parse (String.mk (text ++ frag)) = .ok u1) :
    ∃ u, parse text = .ok u ∧ u1.Path = u.Path := by
  have hsplit : (split '#' (text ++ frag)).1 = text := by
    rcases hf with hf | hf
    · subst hf
      rw [List.append_nil, split_not_mem _ _ hh]
    · cases frag with
      | nil => simp at hf
      | cons x xs =>
        simp only [List.head?_cons, Option.some.injEq] at hf
        subst hf
        rw [split_append _ _ _ hh]
  unfold Parse at h
  simp only [hsplit] at h
  split at h
  · cases h
  · rename_i u0 hp
    refine ⟨u0, hp, ?_⟩
    split at h
    · cases h; rfl
    · split at h
      · cases h
      · cases h; rfl

/-- A text `//authority` and a path, after a scheme or with an authority that
is not empty, is parsed into a URL of that path. -/
theorem Parse_authority_form (sch a ep q frag : List Char) (u1 : URL) (path : List Nat)
    (hsch : sch = [] ∨ ∃ c cs, sch = c :: cs ∧ isAlpha c = true ∧ ∀ x ∈ sch, schemeChar x)
    (hsa : sch ≠ [] ∨ a ≠ []) (ha : '/' ∉ a) (han : NoQueryMark a) (hepn : NoQueryMark ep)
    (hep : ep.head? = some '/') (hp : unescape .encodePath ep = .ok path)
    (hq : q = [] ∨ ∃ q1, q = '?' :: q1) (hqn : '#' ∉ q)
    (hf : frag = [] ∨ frag.head? = some '#')
    (h : Parse (String.mk ((if sch = [] then [] else sch ++ [':']) ++
      ('/' :: '/' :: (a ++ ep)) ++ q ++ frag)) = .ok u1) :
    u1.Path = path := by
  have hbody : NoQueryMark ('/' :: '/' :: (a ++ ep)) := by
    intro x hx
    rcases List.mem_cons.mp hx with rfl | hx
    · exact ⟨by decide, by decide⟩
    · rcases List.mem_cons.mp hx with rfl | hx
      · exact ⟨by decide, by decide⟩
      · exact (han.append hepn) x hx
  have hschn : NoQueryMark (if sch = [] then [] else sch ++ [':']) := by
    split
    · exact NoQueryMark.nil
    · rcases hsch with h0 | ⟨c, cs, h0, _, hall⟩
      · rename_i hne; exact absurd h0 hne
      · intro x hx
        rcases List.mem_append.mp hx with hx | hx
        · exact schemeChar_ne x (hall x hx)
        · simp at hx; subst hx; exact ⟨by decide, by decide⟩
  have hh : '#' ∉ (if sch = [] then [] else sch ++ [':']) ++ ('/' :: '/' :: (a ++ ep)) ++ q := by
    intro hm
    rcases List.mem_append.mp hm with hm | hm
    · exact ((hschn.append hbody) _ hm).2 rfl
    · exact hqn hm
  obtain ⟨u, hparse, hpath⟩ := Parse_path_of_parse _ frag u1 hh hf h
  rw [hpath]
  have hcut : (cutQuery ('/' :: '/' :: (a ++ ep) ++ q)).1 = '/' :: '/' :: (a ++ ep) := by
    have hnq : '?' ∉ '/' :: '/' :: (a ++ ep) := fun hm => (hbody _ hm).1 rfl
    rcases hq with rfl | ⟨q1, rfl⟩
    · rw [List.append_nil]; exact cutQuery_plain _ hnq
    · exact cutQuery_query _ _ hnq
  rcases hsch with h0 | ⟨c, cs, h0, hc, hall⟩
  · subst h0
    simp only [if_true, List.nil_append] at hparse
    have hg := getscheme_none ('/' :: '/' :: (a ++ ep) ++ q) (Or.inr (Or.inl rfl))
    obtain ⟨u2, hu2, hrest⟩ := parse_parseRest _ _ _ _ u (by simp) hg hcut hparse
    exact parseRest_authority u2 u a ep path hrest
      (Or.inr (hsa.resolve_left (fun hne => hne rfl))) ha hep hp
  · subst h0
    simp only [reduceCtorEq, if_false, List.append_assoc, List.singleton_append] at hparse
    have hg := getscheme_scheme c cs ('/' :: '/' :: (a ++ ep) ++ q) hc
      (fun x hx => hall x (List.mem_cons_of_mem _ hx))
    simp only [List.cons_append, List.append_assoc] at hg hparse hcut
    obtain ⟨u2, hu2, hrest⟩ := parse_parseRest _ _ _ _ u (by simp) hg hcut hparse
    refine parseRest_authority u2 u a ep path hrest (Or.inl ?_) ha hep hp
    rw [hu2]
    intro h0
    have := (mk_eq_empty _).mp h0
    simp at this

/-- A path alone, rooted or starting with an escape, that does not read as an
authority, is parsed into a URL of that path. -/
theorem Parse_relative_form (ep q frag : List Char) (u1 : URL) (path : List Nat)
    (hepn : NoQueryMark ep) (hep : ep.head? = some '/' ∨ ep.head? = some '%')
    (h3 : ¬ (ep.take 3 ≠ ['/', '/', '/'] ∧ ep.take 2 = ['/', '/']))
    (hp : unescape .encodePath ep = .ok path)
    (hq : q = [] ∨ ∃ q1, q = '?' :: q1) (hqn : '#' ∉ q)
    (hf : frag = [] ∨ frag.head? = some '#')
    (h : Parse (String.mk (ep ++ q ++ frag)) = .ok u1) :
    u1.Path = path := by
  have hh : '#' ∉ ep ++ q := by
    intro hm
    rcases List.mem_append.mp hm with hm | hm
    · exact (hepn _ hm).2 rfl
    · exact hqn hm
  obtain ⟨u, hparse, hpath⟩ := Parse_path_of_parse _ frag u1 hh hf h
  rw [hpath]
  have hnq : '?' ∉ ep := fun hm => (hepn _ hm).1 rfl
  have hcut : (cutQuery (ep ++ q)).1 = ep := by
    rcases hq with rfl | ⟨q1, rfl⟩
    · rw [List.append_nil]; exact cutQuery_plain _ hnq
    · exact cutQuery_query _ _ hnq
  have hhead : (ep ++ q).head? = ep.head? := by
    cases ep with
    | nil => rcases hep with h0 | h0 <;> simp at h0
    | cons x xs => rfl
  have hg := getscheme_none (ep ++ q) (Or.inr (by rw [hhead]; exact hep))
  have hstar : ep ++ q ≠ ['*'] := by
    intro h0
    have : (ep ++ q).head? = some '*' := by rw [h0]; rfl
    rw [hhead] at this
    rcases hep with h1 | h1 <;> rw [h1] at this <;> revert this <;> decide
  obtain ⟨u2, hu2, hrest⟩ := parse_parseRest _ _ _ _ u hstar hg hcut hparse
  exact parseRest_relative u2 u ep path hrest hu2 h3 hp


/-- The first byte of a character is the byte of a slash only for a slash. -/
theorem utf8Bytes_head (c : Char) : ∃ b bs, utf8Bytes c = b :: bs ∧ (b = 47 → c = '/') := by
  unfold utf8Bytes
  simp only
  split
  · refine ⟨_, _, rfl, fun h => ?_⟩
    rw [← Char.ofNat_toNat c, h]
  · split
    · exact ⟨_, _, rfl, fun h => by omega⟩
    · split
      · exact ⟨_, _, rfl, fun h => by omega⟩
      · exact ⟨_, _, rfl, fun h => by omega⟩

/-- An escaped byte of a path starts with a slash only for the byte of a slash. -/
theorem escapeByte_head (b : Nat) :
    ∃ x xs, escapeByte .encodePath b = x :: xs ∧ (x = '/' → b = 47) := by
  unfold escapeByte
  split
  · rw [if_neg (by simp)]
    exact ⟨'%', _, rfl, fun h => absurd h (by decide)⟩
  · refine ⟨_, _, rfl, fun h => ?_⟩
    by_contra hb
    exact ofNat_ne b '/' (by decide) hb h

/-- The path `GetUserCluster` sets starts with the byte of a slash, and its
default escaping starts with one slash, not with two. -/
theorem escape_Join_shape (userID : String) :
    (∃ p, stringBytes (Join ["/api/users", userID]) = 47 :: p) ∧
    ∃ e2, (escape (stringBytes (Join ["/api/users", userID])) .encodePath).data = '/' :: e2 ∧
      e2.head? ≠ some '/' := by
  obtain ⟨t, hJ, ht⟩ := Join_shape userID
  have hb : stringBytes (Join ["/api/users", userID]) =
      47 :: t.foldr (fun c acc => utf8Bytes c ++ acc) [] := by
    unfold stringBytes
    rw [hJ]
    rfl
  refine ⟨⟨_, hb⟩, ?_⟩
  rw [hb]
  refine ⟨(t.foldr (fun c acc => utf8Bytes c ++ acc) []).foldr
    (fun c acc => escapeByte .encodePath c ++ acc) [], rfl, ?_⟩
  cases t with
  | nil => simp
  | cons c t1 =>
    have hc : c ≠ '/' := by simpa using ht
    obtain ⟨b, bs, hbs, hb47⟩ := utf8Bytes_head c
    obtain ⟨x, xs, hxs, hx⟩ := escapeByte_head b
    simp only [List.foldr_cons, hbs, List.cons_append, hxs, List.head?_cons, ne_eq,
      Option.some.injEq]
    exact fun h => hc (hb47 (hx h))

/-- A text that un-escapes to a rooted path starts with a slash or with an
escape. -/
theorem unescape_head (l : List Char) (p : List Nat) (h : unescape .encodePath l = .ok (47 :: p)) :
    l.head? = some '/' ∨ l.head? = some '%' := by
  cases l with
  | nil => simp [unescape] at h
  | cons c rest =>
    by_cases hc : c = '%'
    · right; simp [hc]
    · left
      unfold unescape at h
      simp only [hc, if_false, reduceCtorEq, and_false] at h
      split at h
      · rename_i t ht
        obtain ⟨b, bs, hbs, hb47⟩ := utf8Bytes_head c
        rw [hbs] at h
        simp only [List.cons_append, Except.ok.injEq, List.cons.injEq] at h
        simp [hb47 h.1]
      · cases h

/-- A hexadecimal digit stands for a number below sixteen. -/
theorem hexVal_lt (c : Char) (h : isHex c = true) : hexVal c < 16 := by
  unfold isHex isDigit at h
  unfold hexVal isDigit
  simp only [Bool.or_eq_true, Bool.and_eq_true, decide_eq_true_eq] at h ⊢
  split
  · omega
  · split <;> omega

/-- The bytes of a character are bytes. -/
theorem utf8Bytes_lt (c : Char) : ∀ b ∈ utf8Bytes c, b < 256 := by
  intro b hb
  refine stringBytes_lt (String.mk [c]) b ?_
  unfold stringBytes
  simpa using hb

/-- What `unescape` returns is made of bytes. -/
theorem unescape_lt (mode : Encoding) (n : Nat) :
    ∀ (l : List Char) (bs : List Nat), l.length ≤ n → unescape mode l = .ok bs →
      ∀ b ∈ bs, b < 256 := by
  induction n with
  | zero =>
    intro l bs hl h
    have : l = [] := List.length_eq_zero.mp (by omega)
    subst this
    simp only [unescape, Except.ok.injEq] at h
    subst h
    intro b hb
    cases hb
  | succ n ih =>
    intro l bs hl h
    cases l with
    | nil =>
      simp only [unescape, Except.ok.injEq] at h
      subst h
      intro b hb
      cases hb
    | cons c rest =>
      unfold unescape at h
      split at h
      · split at h
        · rename_i a b rest2
          split at h
          · rename_i hx
            split at h
            · rename_i t ht
              cases h
              intro x hx1
              rcases List.mem_cons.mp hx1 with rfl | hx1
              · have h1 := hexVal_lt a hx.1
                have h2 := hexVal_lt b hx.2
                omega
              · exact ih rest2 t (by simp at hl; omega) ht x hx1
            · cases h
          · cases h
        · cases h
      · split at h
        · rename_i t ht
          have iht := ih rest t (by simp at hl; omega) ht
          split at h
          · cases h
            intro x hx1
            rcases List.mem_cons.mp hx1 with rfl | hx1
            · omega
            · exact iht x hx1
          · cases h
            intro x hx1
            rcases List.mem_append.mp hx1 with hx1 | hx1
            · exact utf8Bytes_lt c x hx1
            · exact iht x hx1
        · cases h

/-- The function `setPath` leaves the fragment as it is. -/
theorem setPath_fragment (u u1 : URL) (p : List Char) (h : URL.setPath u p = .ok u1) :
    u1.Fragment = u.Fragment := by
  unfold URL.setPath at h
  split at h
  · cases h
  · split at h <;> cases h <;> rfl

/-- The second half of `parse` leaves the fragment as it is. -/
theorem parseRest_fragment (u u1 : URL) (rest : List Char) (h : parseRest u rest = .ok u1) :
    u1.Fragment = u.Fragment := by
  unfold parseRest at h
  split at h
  · cases h; rfl
  · split at h
    · cases h
    · split at h
      · exact (setPath_fragment _ _ _ h).trans rfl
      · exact setPath_fragment u _ _ h

/-- The function `parse` sets no fragment. -/
theorem parse_fragment (rawurl : List Char) (u : URL) (h : parse rawurl = .ok u) :
    u.Fragment = [] := by
  unfold parse at h
  split at h
  · cases h; rfl
  · split at h
    · cases h
    · exact parseRest_fragment _ _ _ h

/-- The fragment of a URL that `url.Parse` returns is made of bytes. -/
theorem Parse_fragment_lt (rawurl : String) (u : URL) (h : Parse rawurl = .ok u) :
    ∀ b ∈ u.Fragment, b < 256 := by
  unfold Parse at h
  simp only at h
  split at h
  · cases h
  · rename_i u0 hp
    have h0 := parse_fragment _ u0 hp
    split at h
    · cases h
      rw [h0]
      intro b hb
      cases hb
    · split at h
      · cases h
      · rename_i frag hfrag
        cases h
        exact unescape_lt _ _ _ _ (Nat.le_refl _) hfrag

/-- A byte that `escape` leaves as it is in a fragment is an ASCII character
other than `%`. -/
theorem shouldEscape_false_fragment (c : Nat) (h : shouldEscape c .encodeFragment = false) :
    c < 128 ∧ c ≠ 37 := by
  by_contra hc
  have : 128 ≤ c ∨ c = 37 := by omega
  rcases this with h1 | h1
  · have : shouldEscape c .encodeFragment = true := by
      unfold shouldEscape
      rw [if_neg (by omega), if_neg (by omega), if_neg (by omega)]
    rw [this] at h; cases h
  · subst h1
    revert h; decide

/-- An escaped byte of a fragment is read back as the byte. -/
theorem unescape_escapeByte_fragment (c : Nat) (hc : c < 256) (rest : List Char) (t : List Nat)
    (h : unescape .encodeFragment rest = .ok t) :
    unescape .encodeFragment (escapeByte .encodeFragment c ++ rest) = .ok (c :: t) := by
  unfold escapeByte
  by_cases hs : shouldEscape c .encodeFragment = true
  · have h1 := upperhex_roundtrip (c / 16) (by omega)
    have h2 := upperhex_roundtrip (c % 16) (by omega)
    have hv : hexVal (upperhex (c / 16)) * 16 + hexVal (upperhex (c % 16)) = c := by
      rw [h1.2, h2.2]; omega
    simp only [hs, if_true, reduceCtorEq, and_false, if_false, List.cons_append, List.nil_append,
      unescape, h1.1, h2.1, and_self, h, hv]
  · have hs' : shouldEscape c .encodeFragment = false := by simpa using hs
    obtain ⟨h128, h37⟩ := shouldEscape_false_fragment c hs'
    have hne : Char.ofNat c ≠ '%' := ofNat_ne c '%' (by decide) (by simpa using h37)
    have hn : (Char.ofNat c).toNat = c := toNat_ofNat_small c (by omega)
    simp only [hs', Bool.false_eq_true, if_false, List.cons_append, List.nil_append]
    unfold unescape
    simp only [hne, if_false, h, reduceCtorEq, and_false, utf8Bytes, hn, h128, if_true,
      List.cons_append, List.nil_append]

/-- Escaping a fragment and un-escaping it gives the fragment back. -/
theorem unescape_escape_fragment (bs : List Nat) (h : ∀ b ∈ bs, b < 256) :
    unescape .encodeFragment (escape bs .encodeFragment).data = .ok bs := by
  unfold escape
  induction bs with
  | nil => rfl
  | cons c bs ih =>
    simp only [List.foldr_cons]
    exact unescape_escapeByte_fragment c (h c (List.mem_cons_self _ _)) _ _
      (ih (fun b hb => h b (List.mem_cons_of_mem _ hb)))


/-- The function `setPath` accepts a text that can be un-escaped. -/
theorem setPath_ok (u : URL) (p : List Char) (path : List Nat)
    (hp : unescape .encodePath p = .ok path) : ∃ u1, URL.setPath u p = .ok u1 := by
  unfold URL.setPath
  rw [hp]
  simp only
  split <;> exact ⟨_, rfl⟩

/-- After `//` and an authority, the second half of `parse` accepts a rooted
path that can be un-escaped. -/
theorem parseRest_authority_ok (u : URL) (a ep : List Char) (path : List Nat)
    (hsa : u.Scheme ≠ "" ∨ a ≠ []) (ha : '/' ∉ a) (hep : ep.head? = some '/')
    (hp : unescape .encodePath ep = .ok path) :
    ∃ u1, parseRest u ('/' :: '/' :: (a ++ ep)) = .ok u1 := by
  have h3 : (u.Scheme ≠ "" ∨ ('/' :: '/' :: (a ++ ep)).take 3 ≠ ['/', '/', '/']) ∧
      ('/' :: '/' :: (a ++ ep)).take 2 = ['/', '/'] := by
    refine ⟨?_, rfl⟩
    rcases hsa with h0 | h0
    · exact Or.inl h0
    · right
      cases a with
      | nil => exact absurd rfl h0
      | cons x xs =>
        have hx : x ≠ '/' := fun hx => ha (hx ▸ List.mem_cons_self _ _)
        simp [hx]
  unfold parseRest
  rw [if_neg (by simp), if_neg (by simp), if_pos h3]
  simp only [List.drop_succ_cons, List.drop_zero, splitAtSlash_append a ep ha (Or.inr hep)]
  exact setPath_ok _ _ _ hp

/-- Without scheme and authority, the second half of `parse` accepts a path
that can be un-escaped and has no colon before its first slash. -/
theorem parseRest_relative_ok (u : URL) (ep : List Char) (path : List Nat) (hs : u.Scheme = "")
    (hdot : ':' ∉ (split '/' ep).1)
    (h3 : ¬ (ep.take 3 ≠ ['/', '/', '/'] ∧ ep.take 2 = ['/', '/']))
    (hp : unescape .encodePath ep = .ok path) : ∃ u1, parseRest u ep = .ok u1 := by
  unfold parseRest
  rw [if_neg (by simp [hs]), if_neg (fun hc => hdot hc.2),
    if_neg (by simp only [hs, ne_eq, not_true_eq_false, false_or]; exact h3)]
  exact setPath_ok _ _ _ hp

/-- The function `parse` accepts a text whose scheme is read and whose second
half is accepted. -/
theorem parse_ok (rawurl sch rest x : List Char)
    (hg : getscheme rawurl = .ok (sch, rest)) (hx : (cutQuery rest).1 = x)
    (hr : ∀ u : URL, u.Scheme = String.mk (sch.map Char.toLower) → ∃ u1, parseRest u x = .ok u1) :
    ∃ u1, parse rawurl = .ok u1 := by
  unfold parse
  split
  · exact ⟨_, rfl⟩
  · rw [hg]
    simp only [hx]
    exact hr _ rfl

/-- The function `url.Parse` accepts a text that `parse` accepts, followed by
nothing or by `#` and a fragment that can be un-escaped. -/
theorem Parse_ok_of_parse (text frag : List Char) (u : URL) (hh : '#' ∉ text)
    (hf : frag = [] ∨ ∃ f fb, frag = '#' :: f ∧ unescape .encodeFragment f = .ok fb)
    (hparse : parse text = .ok u) : ∃ u1, Parse (String.mk (text ++ frag)) = .ok u1 := by
  unfold Parse
  rcases hf with hf | ⟨f, fb, hf, hfb⟩
  · subst hf
    simp only [List.append_nil, split_not_mem _ _ hh, hparse, if_true]
    exact ⟨_, rfl⟩
  · subst hf
    simp only [split_append _ _ _ hh, hparse]
    split
    · exact ⟨_, rfl⟩
    · rw [hfb]
      exact ⟨_, rfl⟩

/-- A text `//authority` and a path, after a scheme or with an authority that
is not empty, is accepted by `url.Parse`. -/
theorem Parse_authority_ok (sch a ep q frag : List Char) (path : List Nat)
    (hsch : sch = [] ∨ ∃ c cs, sch = c :: cs ∧ isAlpha c = true ∧ ∀ x ∈ sch, schemeChar x)
    (hsa : sch ≠ [] ∨ a ≠ []) (ha : '/' ∉ a) (han : NoQueryMark a) (hepn : NoQueryMark ep)
    (hep : ep.head? = some '/') (hp : unescape .encodePath ep = .ok path)
    (hq : q = [] ∨ ∃ q1, q = '?' :: q1) (hqn : '#' ∉ q)
    (hf : frag = [] ∨ ∃ f fb, frag = '#' :: f ∧ unescape .encodeFragment f = .ok fb) :
    ∃ u1, Parse (String.mk ((if sch = [] then [] else sch ++ [':']) ++
      ('/' :: '/' :: (a ++ ep)) ++ q ++ frag)) = .ok u1 := by
  have hbody : NoQueryMark ('/' :: '/' :: (a ++ ep)) := by
    intro x hx
    rcases List.mem_cons.mp hx with rfl | hx
    · exact ⟨by decide, by decide⟩
    · rcases List.mem_cons.mp hx with rfl | hx
      · exact ⟨by decide, by decide⟩
      · exact (han.append hepn) x hx
  have hschn : NoQueryMark (if sch = [] then [] else sch ++ [':']) := by
    split
    · exact NoQueryMark.nil
    · rcases hsch with h0 | ⟨c, cs, h0, _, hall⟩
      · rename_i hne; exact absurd h0 hne
      · intro x hx
        rcases List.mem_append.mp hx with hx | hx
        · exact schemeChar_ne x (hall x hx)
        · simp at hx; subst hx; exact ⟨by decide, by decide⟩
  have hh : '#' ∉ (if sch = [] then [] else sch ++ [':']) ++ ('/' :: '/' :: (a ++ ep)) ++ q := by
    intro hm
    rcases List.mem_append.mp hm with hm | hm
    · exact ((hschn.append hbody) _ hm).2 rfl
    · exact hqn hm
  have hcut : (cutQuery ('/' :: '/' :: (a ++ ep) ++ q)).1 = '/' :: '/' :: (a ++ ep) := by
    have hnq : '?' ∉ '/' :: '/' :: (a ++ ep) := fun hm => (hbody _ hm).1 rfl
    rcases hq with rfl | ⟨q1, rfl⟩
    · rw [List.append_nil]; exact cutQuery_plain _ hnq
    · exact cutQuery_query _ _ hnq
  have hparse : ∃ u, parse ((if sch = [] then [] else sch ++ [':']) ++
      ('/' :: '/' :: (a ++ ep)) ++ q) = .ok u := by
    rcases hsch with h0 | ⟨c, cs, h0, hc, hall⟩
    · subst h0
      simp only [if_true, List.nil_append]
      have hg := getscheme_none ('/' :: '/' :: (a ++ ep) ++ q) (Or.inr (Or.inl rfl))
      refine parse_ok _ _ _ _ hg hcut (fun u hu => ?_)
      exact parseRest_authority_ok u a ep path
        (Or.inr (hsa.resolve_left (fun hne => hne rfl))) ha hep hp
    · subst h0
      simp only [reduceCtorEq, if_false, List.append_assoc, List.singleton_append]
      have hg := getscheme_scheme c cs ('/' :: '/' :: (a ++ ep) ++ q) hc
        (fun x hx => hall x (List.mem_cons_of_mem _ hx))
      simp only [List.cons_append, List.append_assoc] at hg hcut ⊢
      refine parse_ok _ _ _ _ hg hcut (fun u hu => ?_)
      refine parseRest_authority_ok u a ep path (Or.inl ?_) ha hep hp
      rw [hu]
      intro h0
      have := (mk_eq_empty _).mp h0
      simp at this
  obtain ⟨u, hu⟩ := hparse
  exact Parse_ok_of_parse _ frag u hh hf hu

/-- A path alone, rooted or starting with an escape, that does not read as an
authority and has no colon before its first slash, is accepted by
`url.Parse`. -/
theorem Parse_relative_ok (ep q frag : List Char) (path : List Nat)
    (hepn : NoQueryMark ep) (hep : ep.head? = some '/' ∨ ep.head? = some '%')
    (hdot : ':' ∉ (split '/' ep).1)
    (h3 : ¬ (ep.take 3 ≠ ['/', '/', '/'] ∧ ep.take 2 = ['/', '/']))
    (hp : unescape .encodePath ep = .ok path)
    (hq : q = [] ∨ ∃ q1, q = '?' :: q1) (hqn : '#' ∉ q)
    (hf : frag = [] ∨ ∃ f fb, frag = '#' :: f ∧ unescape .encodeFragment f = .ok fb) :
    ∃ u1, Parse (String.mk (ep ++ q ++ frag)) = .ok u1 := by
  have hh : '#' ∉ ep ++ q := by
    intro hm
    rcases List.mem_append.mp hm with hm | hm
    · exact (hepn _ hm).2 rfl
    · exact hqn hm
  have hnq : '?' ∉ ep := fun hm => (hepn _ hm).1 rfl
  have hcut : (cutQuery (ep ++ q)).1 = ep := by
    rcases hq with rfl | ⟨q1, rfl⟩
    · rw [List.append_nil]; exact cutQuery_plain _ hnq
    · exact cutQuery_query _ _ hnq
  have hhead : (ep ++ q).head? = ep.head? := by
    cases ep with
    | nil => rcases hep with h0 | h0 <;> simp at h0
    | cons x xs => rfl
  have hg := getscheme_none (ep ++ q) (Or.inr (by rw [hhead]; exact hep))
  obtain ⟨u, hu⟩ := parse_ok _ _ _ _ hg hcut
    (fun u hu => parseRest_relative_ok u ep path hu hdot h3 hp)
  exact Parse_ok_of_parse _ frag u hh hf hu

/-- A text that starts with a slash has nothing before its first slash. -/
theorem split_slash_head (l : List Char) (h : l.head? = some '/') : (split '/' l).1 = [] := by
  cases l with
  | nil => rfl
  | cons c rest =>
    simp only [List.head?_cons, Option.some.injEq] at h
    subst h
    simp [split]

/-- A string is empty when it has no character. -/
theorem data_eq_nil (s : String) : s.data = [] ↔ s = "" :=
  ⟨fun h => String.ext h, fun h => by rw [h]⟩

/-- The text `String` prints for a URL with a scheme or an authority, and a
rooted path: the scheme, `//`, the authority, the escaped path, the query and
the fragment. -/
theorem String_authority_form (u : URL) (hO : u.Opaque = "")
    (hsa : u.Scheme ≠ "" ∨ u.Authority ≠ "") (hpne : u.Path ≠ [])
    (hh : u.EscapedPath.data.head? = some '/') :
    u.String = String.mk ((if u.Scheme.data = [] then [] else u.Scheme.data ++ [':']) ++
      ('/' :: '/' :: (u.Authority.data ++ u.EscapedPath.data)) ++
      (if u.ForceQuery = true ∨ u.RawQuery ≠ "" then '?' :: u.RawQuery.data else []) ++
      (if u.Fragment ≠ [] then '#' :: (escape u.Fragment .encodeFragment).data else [])) := by
  have hsd := data_eq_nil u.Scheme
  have hdot : ':' ∉ (split '/' u.EscapedPath.data).1 := by
    rw [split_slash_head _ hh]
    simp
  unfold URL.String
  simp only [hO, ne_eq, not_true_eq_false, if_false, hsa, hpne, not_false_eq_true, or_true,
    if_true, hh, false_and, and_false, hdot]
  apply String.ext
  by_cases hs : u.Scheme = "" <;> by_cases hq : (u.ForceQuery = true ∨ ¬ u.RawQuery = "") <;>
    by_cases hf : u.Fragment = [] <;>
    simp [hs, hq, hf, hsd]

/-- The text `String` prints for a URL with neither a scheme nor an authority,
whose escaped path has no colon before its first slash: the escaped path, the
query and the fragment. -/
theorem String_relative_form (u : URL) (hO : u.Opaque = "") (hs : u.Scheme = "")
    (ha : u.Authority = "") (hdot : ':' ∉ (split '/' u.EscapedPath.data).1) :
    u.String = String.mk (u.EscapedPath.data ++
      (if u.ForceQuery = true ∨ u.RawQuery ≠ "" then '?' :: u.RawQuery.data else []) ++
      (if u.Fragment ≠ [] then '#' :: (escape u.Fragment .encodeFragment).data else [])) := by
  unfold URL.String
  simp only [hO, hs, ha, ne_eq, not_true_eq_false, if_false, or_self, and_false, hdot]
  apply String.ext
  by_cases hq : (u.ForceQuery = true ∨ ¬ u.RawQuery = "") <;>
    by_cases hf : u.Fragment = [] <;>
    simp [hq, hf]

/-- The text that `String` prints for a parsed URL, with the path that
`GetUserCluster` sets in it, is accepted by `url.Parse`, which gives that path
back. -/
theorem String_reparse_path (u0 : URL) (userID : String) (hb : u0.beforeQuery)
    (hp : u0.parsed) (hO : u0.Opaque = "") (hfl : ∀ b ∈ u0.Fragment, b < 256) :
    ∃ u1, Parse ({ u0 with Path := stringBytes (Join ["/api/users", userID]) } : URL).String
      = .ok u1 ∧ u1.Path = stringBytes (Join ["/api/users", userID]) := by
  obtain ⟨⟨p, hP⟩, e2, hesc, he2⟩ := escape_Join_shape userID
  have hlt := stringBytes_lt (Join ["/api/users", userID])
  have hrt := unescape_escape_path _ hlt
  generalize stringBytes (Join ["/api/users", userID]) = P at hP hesc hlt hrt ⊢
  have hPne : P ≠ [] := by rw [hP]; simp
  have hPstar : P ≠ [42] := by rw [hP]; simp
  obtain ⟨hs, hA, hQ, hR⟩ := hp
  have hEPn : NoQueryMark ({ u0 with Path := P } : URL).EscapedPath.data :=
    EscapedPath_noMark _ hb
  have hEP : (({ u0 with Path := P } : URL).EscapedPath = u0.RawPath ∧ u0.RawPath ≠ "" ∧
      unescape .encodePath u0.RawPath.data = .ok P) ∨
      ({ u0 with Path := P } : URL).EscapedPath = escape P .encodePath := by
    unfold URL.EscapedPath
    split
    · rename_i hc
      left
      refine ⟨rfl, hc.1, ?_⟩
      have hf := hc.2.2
      unfold URL.rawPathFits at hf
      simp only at hf
      split at hf
      · rename_i p1 hp1
        simp only [decide_eq_true_eq] at hf
        rw [← hf]
        exact hp1
      · cases hf
    · right
      rfl
  have hun : unescape .encodePath ({ u0 with Path := P } : URL).EscapedPath.data = .ok P := by
    rcases hEP with ⟨h1, _, h2⟩ | h1
    · rw [h1]; exact h2
    · rw [h1]; exact hrt
  have hhead : ({ u0 with Path := P } : URL).EscapedPath.data.head? = some '/' ∨
      (({ u0 with Path := P } : URL).EscapedPath.data.head? = some '%' ∧ u0.Scheme = "" ∧
        u0.Authority = "" ∧ ':' ∉ (split '/' ({ u0 with Path := P } : URL).EscapedPath.data).1) := by
    rcases hEP with ⟨h1, h2, h3⟩ | h1
    · rw [h1]
      rcases hR with hr | hr | hr
      · exact absurd hr h2
      · exact Or.inl hr.1
      · right
        rw [hP] at h3
        rcases unescape_head _ _ h3 with h4 | h4
        · exact absurd h4 hr.1
        · exact ⟨h4, hr.2.1, hr.2.2.1, hr.2.2.2⟩
    · left
      rw [h1, hesc]
      rfl
  have h3 : u0.Scheme = "" → u0.Authority = "" →
      ¬ (({ u0 with Path := P } : URL).EscapedPath.data.take 3 ≠ ['/', '/', '/'] ∧
        ({ u0 with Path := P } : URL).EscapedPath.data.take 2 = ['/', '/']) := by
    intro hs0 ha0
    rcases hEP with ⟨h1, h2, _⟩ | h1
    · rw [h1]
      rcases hR with hr | hr | hr
      · exact absurd hr h2
      · rcases hr.2 with h4 | h4 | h4
        · exact absurd hs0 h4
        · exact absurd ha0 h4
        · exact h4
      · intro hc
        have h5 := hr.1
        have h6 := hc.2
        cases hd : u0.RawPath.data with
        | nil => rw [hd] at h6; simp at h6
        | cons c rest =>
          rw [hd] at h5 h6
          cases rest with
          | nil => simp at h6
          | cons c2 rest2 =>
            simp only [List.take_succ_cons, List.take_zero, List.cons.injEq, and_true] at h6
            simp [h6.1] at h5
    · rw [h1, hesc]
      intro hc
      have h6 := hc.2
      cases e2 with
      | nil => simp at h6
      | cons c2 rest2 =>
        simp only [List.take_succ_cons, List.take_zero, List.cons.injEq, and_true, true_and] at h6
        simp [h6] at he2
  have hq : (if u0.ForceQuery = true ∨ u0.RawQuery ≠ "" then '?' :: u0.RawQuery.data else []) = [] ∨
      ∃ q1, (if u0.ForceQuery = true ∨ u0.RawQuery ≠ "" then '?' :: u0.RawQuery.data else [])
        = '?' :: q1 := by
    split
    · exact Or.inr ⟨_, rfl⟩
    · exact Or.inl rfl
  have hqn : '#' ∉ (if u0.ForceQuery = true ∨ u0.RawQuery ≠ "" then '?' :: u0.RawQuery.data
      else []) := by
    split
    · intro hm
      rcases List.mem_cons.mp hm with hm | hm
      · revert hm; decide
      · exact hQ hm
    · simp
  have hf2 : (if u0.Fragment ≠ [] then '#' :: (escape u0.Fragment .encodeFragment).data else [])
      = [] ∨ ∃ f fb, (if u0.Fragment ≠ [] then '#' :: (escape u0.Fragment .encodeFragment).data
        else []) = '#' :: f ∧ unescape .encodeFragment f = .ok fb := by
    split
    · exact Or.inr ⟨_, _, rfl, unescape_escape_fragment _ hfl⟩
    · exact Or.inl rfl
  have hf : (if u0.Fragment ≠ [] then '#' :: (escape u0.Fragment .encodeFragment).data else [])
      = [] ∨ (if u0.Fragment ≠ [] then '#' :: (escape u0.Fragment .encodeFragment).data
        else []).head? = some '#' := by
    split
    · exact Or.inr rfl
    · exact Or.inl rfl
  by_cases hsa : u0.Scheme ≠ "" ∨ u0.Authority ≠ ""
  · have hh : ({ u0 with Path := P } : URL).EscapedPath.data.head? = some '/' := by
      rcases hhead with h1 | h1
      · exact h1
      · rcases hsa with h2 | h2
        · exact absurd h1.2.1 h2
        · exact absurd h1.2.2.1 h2
    have hsch : u0.Scheme.data = [] ∨ ∃ c cs, u0.Scheme.data = c :: cs ∧ isAlpha c = true ∧
        ∀ x ∈ u0.Scheme.data, schemeChar x := by
      rcases hs with h1 | h1
      · exact Or.inl ((data_eq_nil _).mpr h1)
      · exact Or.inr h1
    have hsa2 : u0.Scheme.data ≠ [] ∨ u0.Authority.data ≠ [] := by
      rcases hsa with h2 | h2
      · exact Or.inl (fun h4 => h2 ((data_eq_nil _).mp h4))
      · exact Or.inr (fun h4 => h2 ((data_eq_nil _).mp h4))
    rw [String_authority_form ({ u0 with Path := P } : URL) hO hsa hPne hh]
    obtain ⟨u1, h⟩ := Parse_authority_ok u0.Scheme.data u0.Authority.data _ _ _ P hsch hsa2 hA
      hb.2.2.1 hEPn hh hun hq hqn hf2
    exact ⟨u1, h, Parse_authority_form u0.Scheme.data u0.Authority.data _ _ _ u1 P hsch hsa2 hA
      hb.2.2.1 hEPn hh hun hq hqn hf h⟩
  · have hs0 : u0.Scheme = "" := by
      by_contra h1
      exact hsa (Or.inl h1)
    have ha0 : u0.Authority = "" := by
      by_contra h1
      exact hsa (Or.inr h1)
    have hdot : ':' ∉ (split '/' ({ u0 with Path := P } : URL).EscapedPath.data).1 := by
      rcases hhead with h1 | h1
      · rw [split_slash_head _ h1]
        simp
      · exact h1.2.2.2
    have hep : ({ u0 with Path := P } : URL).EscapedPath.data.head? = some '/' ∨
        ({ u0 with Path := P } : URL).EscapedPath.data.head? = some '%' := by
      rcases hhead with h1 | h1
      · exact Or.inl h1
      · exact Or.inr h1.1
    rw [String_relative_form ({ u0 with Path := P } : URL) hO hs0 ha0 hdot]
    obtain ⟨u1, h⟩ := Parse_relative_ok _ _ _ P hEPn hep hdot (h3 hs0 ha0) hun hq hqn hf2
    exact ⟨u1, h, Parse_relative_form _ _ _ u1 P hEPn hep (h3 hs0 ha0) hun hq hqn hf h⟩

/-- A character has the code of a Unicode scalar value. -/
theorem toNat_lt (c : Char) : c.toNat < 1114112 := by
  have := c.valid
  unfold Char.toNat
  rcases this with h | h
  · omega
  · omega

/-- Two characters of the same code are equal. -/
theorem toNat_inj (c d : Char) (h : c.toNat = d.toNat) : c = d := by
  rw [← Char.ofNat_toNat c, ← Char.ofNat_toNat d, h]

/-- The UTF-8 encoding is a prefix code: when the bytes of two characters, each
followed by more bytes, are equal, the characters are equal and so is what
follows them. -/
theorem utf8Bytes_append_inj (c d : Char) (a b : List Nat)
    (h : utf8Bytes c ++ a = utf8Bytes d ++ b) : c = d ∧ a = b := by
  have hc := toNat_lt c
  have hd := toNat_lt d
  unfold utf8Bytes at h
  simp only at h
  split at h <;> split at h <;> (try split at h) <;> (try split at h) <;> (try split at h) <;>
    (try split at h) <;>
    simp only [List.cons_append, List.nil_append, List.cons.injEq] at h <;>
    first
      | (exfalso; omega)
      | exact ⟨toNat_inj c d (by omega), by simp only [h]⟩

/-- Two Go strings of the same bytes are equal. -/
theorem stringBytes_inj (s t : String) (h : stringBytes s = stringBytes t) : s = t := by
  apply String.ext
  unfold stringBytes at h
  generalize s.data = l at h
  generalize t.data = m at h
  induction l generalizing m with
  | nil =>
    cases m with
    | nil => rfl
    | cons d ds =>
      exfalso
      obtain ⟨b, bs, hb, _⟩ := utf8Bytes_head d
      simp [hb] at h
  | cons c cs ih =>
    cases m with
    | nil =>
      exfalso
      obtain ⟨b, bs, hb, _⟩ := utf8Bytes_head c
      simp [hb] at h
    | cons d ds =>
      simp only [List.foldr_cons] at h
      obtain ⟨h1, h2⟩ := utf8Bytes_append_inj c d _ _ h
      rw [h1, ih ds h2]


/-- For an auth URL that `url.Parse` accepts and that is not opaque,
`GetUserCluster` hands one request to the HTTP client, whatever the client
answers: a GET whose path is the joined path. -/
theorem GetUserCluster_sent (env : Env) (config : Config) (u0 : URL) (userID : String)
    (hc : env.GetData = .ok config) (hu : Parse config.AuthURL = .ok u0) (hO : u0.Opaque = "") :
    ∃ req, (GetUserCluster env userID).2 = [req] ∧ req.Method = "GET" ∧
      req.URL.Path = stringBytes (Join ["/api/users", userID]) := by
  obtain ⟨u1, hparse, hpath⟩ := String_reparse_path u0 userID (Parse_fields _ _ hu)
    (Parse_parsed _ _ hu) hO (Parse_fragment_lt _ _ hu)
  have hreq : ∃ req, userRequest config userID = .ok req ∧ req.Method = "GET" ∧
      req.URL.Path = stringBytes (Join ["/api/users", userID]) := by
    unfold userRequest
    rw [hu]
    simp only [NewRequest, hparse]
    exact ⟨_, rfl, rfl, hpath⟩
  obtain ⟨req, hr, hm, hp⟩ := hreq
  refine ⟨req, ?_, hm, hp⟩
  unfold GetUserCluster
  rw [hc]
  simp only [hr]
  cases env.Do req with
  | doFailed err => rfl
  | readFailed s err => rfl
  | response status body =>
    simp only
    cases validateError status body with
    | some err => rfl
    | none =>
      simp only
      rcases unmarshalUserData body with ⟨r, _ | err⟩ <;> rfl

/-- C11 (amended): for every auth base URL that `url.Parse` accepts and that is
not opaque, and for every user ID, `GetUserCluster` hands exactly one request
to the HTTP client, whatever the client answers, and that request is a GET
whose path is `filepath.Join("/api/users", userID)`: the user ID is not
escaped, but the joined path is cleaned. When the user ID is not empty and none
of the elements that slashes separate in it is empty, `.` or `..`, the path is
`/api/users/` followed by the user ID exactly as given, and another such user
ID whose request has the same path is the same user ID. -/
theorem GetUserCluster_request_path (env : Env) (config : Config) (u0 : URL) (userID : String)
    (hc : env.GetData = .ok config) (hu : Parse config.AuthURL = .ok u0) (hO : u0.Opaque = "") :
    ∃ req, (GetUserCluster env userID).2 = [req] ∧ req.Method = "GET" ∧
      req.URL.Path = stringBytes (Join ["/api/users", userID]) ∧
      (plainUserID userID →
        req.URL.Path = stringBytes ("/api/users/" ++ userID) ∧
        ∀ other req2, plainUserID other → (GetUserCluster env other).2 = [req2] →
          req2.URL.Path = req.URL.Path → other = userID) := by
  obtain ⟨req, hs, hm, hp⟩ := GetUserCluster_sent env config u0 userID hc hu hO
  refine ⟨req, hs, hm, hp, fun hplain => ⟨?_, ?_⟩⟩
  · rw [hp, Join_plain userID hplain]
  · intro other req2 hother hs2 hsame
    obtain ⟨r2, hr2, _, hp2⟩ := GetUserCluster_sent env config u0 other hc hu hO
    rw [hs2] at hr2
    have hreq : req2 = r2 := by simpa using hr2
    rw [hreq, hp2, hp, Join_plain other hother, Join_plain userID hplain] at hsame
    have hstr := stringBytes_inj _ _ hsame
    have hdata := congrArg String.data hstr
    simp only [String.data_append] at hdata
    exact String.ext (List.append_cancel_left hdata)

/-- Witness of C11 (amended): for the auth base URL `http://auth.example.com`
and the user ID `u1`, the request has the path `/api/users/u1`. -/
theorem GetUserCluster_request_path_witness :
    ∃ req, (GetUserCluster
        { Do := fun _ => .response 200 "",
          GetData := .ok { AuthURL := "http://auth.example.com", AuthGrantType := "client_credentials",
                           AuthClientID := "id", ClientSecret := "secret" },
          Quote := fun s => s } "u1").2 = [req] ∧
      req.Method = "GET" ∧ req.URL.Path = stringBytes "/api/users/u1" := by
  obtain ⟨req, h1, h2, _, h4⟩ := GetUserCluster_request_path
    { Do := fun _ => .response 200 "",
      GetData := .ok { AuthURL := "http://auth.example.com", AuthGrantType := "client_credentials",
                       AuthClientID := "id", ClientSecret := "secret" },
      Quote := fun s => s }
    { AuthURL := "http://auth.example.com", AuthGrantType := "client_credentials",
      AuthClientID := "id", ClientSecret := "secret" }
    { Scheme := "http", Opaque := "", Authority := "auth.example.com", Path := [], RawPath := "",
      ForceQuery := false, RawQuery := "", Fragment := [] } "u1" rfl rfl rfl
  exact ⟨req, h1, h2, (h4 (by unfold plainUserID; decide)).1⟩

/-- Counterexample to C11 as stated: with the auth base URL
`http://auth.example.com`, the request for the user ID `a/../b` has the path
`/api/users/b`, not `/api/users/a/../b`, and that is also the path of the
request for the distinct user ID `b`; the request for the user ID `../admin`
has the path `/api/admin`, and the request for the empty user ID the path
`/api/users`. With the opaque auth base URL `mailto:a`, which `url.Parse`
accepts, the request for the user ID `u1` has an empty path. -/
theorem GetUserCluster_path_is_cleaned :
    (GetUserCluster
        { Do := fun _ => .response 200 "",
          GetData := .ok { AuthURL := "http://auth.example.com", AuthGrantType := "client_credentials",
                           AuthClientID := "id", ClientSecret := "secret" },
          Quote := fun s => s } "a/../b").2.map (fun req => (req.Method, req.URL.Path)) =
      [("GET", stringBytes "/api/users/b")] ∧
    stringBytes "/api/users/b" ≠ stringBytes ("/api/users/" ++ "a/../b") ∧
    (GetUserCluster
        { Do := fun _ => .response 200 "",
          GetData := .ok { AuthURL := "http://auth.example.com", AuthGrantType := "client_credentials",
                           AuthClientID := "id", ClientSecret := "secret" },
          Quote := fun s => s } "b").2.map (fun req => (req.Method, req.URL.Path)) =
      [("GET", stringBytes "/api/users/b")] ∧
    (GetUserCluster
        { Do := fun _ => .response 200 "",
          GetData := .ok { AuthURL := "http://auth.example.com", AuthGrantType := "client_credentials",
                           AuthClientID := "id", ClientSecret := "secret" },
          Quote := fun s => s } "../admin").2.map (fun req => (req.Method, req.URL.Path)) =
      [("GET", stringBytes "/api/admin")] ∧
    (GetUserCluster
        { Do := fun _ => .response 200 "",
          GetData := .ok { AuthURL := "http://auth.example.com", AuthGrantType := "client_credentials",
                           AuthClientID := "id", ClientSecret := "secret" },
          Quote := fun s => s } "").2.map (fun req => (req.Method, req.URL.Path)) =
      [("GET", stringBytes "/api/users")] ∧
    (GetUserCluster
        { Do := fun _ => .response 200 "",
          GetData := .ok { AuthURL := "mailto:a", AuthGrantType := "client_credentials",
                           AuthClientID := "id", ClientSecret := "secret" },
          Quote := fun s => s } "u1").2.map (fun req => (req.Method, req.URL.Path)) =
      [("GET", [])] := by
  refine ⟨?_, ?_, ?_, ?_, ?_, ?_⟩ <;> decide

end Token
